import Mathlib

/-!
# MESI cache simulator: shallow embedding and verification

Embedding of `cache_set.cpp`, `cache.cpp` and `bus.cpp` of the quad-core L1
cache simulator.

Modelling conventions
* A `CacheLine*` is the index of the line inside its set (together with the
  line's current contents where the source reads through the pointer).
* `std::vector::operator[]` out of range is undefined behaviour in the source;
  here the operation returns `none`.
* The `Bus*` held by every cache and the `Cache*` registry held by the bus are
  modelled by passing the whole `System` (the caches in registration order plus
  the bus counters) through every operation.
* `int` statistics counters and latencies are modelled as `Nat`, the cycle
  stamp supplied by the caller and `last_access` as `Int`. The sums are the
  mathematical ones; a 32-bit `int` of the source holds `wrapInt32` of such a
  sum, which is the sum itself exactly when it lies between `-2^31` and
  `INT_MAX`. Statements about the value of a counter carry that bound, and
  `stall_until_cycle`, which the stall test reads, is stored through
  `wrapInt32`.
* Addresses and tags (`uint32_t`) are `Nat`; the bit operations of
  `extractAddressFields` are the `Nat` bit operations, which agree with the
  source whenever `s_bits + b_bits < 32`.
* The per-line `data` buffer is never read or written by the simulator and is
  not modelled; debug printing is omitted.
-/

namespace CacheSim

/-! ## Data model (`cache_simulator.h`) -/

/-- The largest value of the 32-bit `int` of the source. -/
def INT_MAX : Nat := 2147483647

/-- The value that a 32-bit two's-complement `int` holds when the result `x`
of an addition is stored into it: `x` itself between `-2^31` and `INT_MAX`,
else `x` reduced modulo `2^32` into that range. -/
def wrapInt32 (x : Int) : Int :=
  (x + 2147483648) % 4294967296 - 2147483648

/-- MESI protocol states. -/
inductive MESIState where
  | MODIFIED
  | EXCLUSIVE
  | SHARED
  | INVALID
  deriving DecidableEq, Repr

/-- Metadata of one cache line (`struct CacheLine`). -/
structure CacheLine where
  valid : Bool
  tag : Nat
  state : MESIState
  last_access : Int
  dirty : Bool
  deriving DecidableEq, Repr

/-- The constructor `CacheLine(int block_size)`. -/
def CacheLine.init : CacheLine :=
  { valid := false, tag := 0, state := MESIState.INVALID, last_access := 0, dirty := false }

/-- One cache set: its `E` lines in way order (`class CacheSet`;
`associativity` is `lines.size()` by construction). -/
structure CacheSet where
  lines : List CacheLine
  deriving DecidableEq, Repr

/-- The constructor `CacheSet(E, B)`: pushes `E` fresh lines. -/
def CacheSet.init (E : Nat) : CacheSet :=
  { lines := List.replicate E CacheLine.init }

/-- Per-core L1 cache (`class Cache`), without the bus pointer. -/
structure Cache where
  core_id : Nat
  assoc : Nat
  s_bits : Nat
  sets : Nat
  block_size : Nat
  b_bits : Nat
  cache_sets : List CacheSet
  read_count : Nat
  write_count : Nat
  read_misses : Nat
  write_misses : Nat
  evictions : Nat
  writebacks : Nat
  deriving DecidableEq, Repr

/-- The constructor `Cache(core_id, s, E, b, bus)`. -/
def Cache.init (core_id s E b : Nat) : Cache :=
  { core_id := core_id, assoc := E, s_bits := s, sets := 1 <<< s,
    block_size := 1 <<< b, b_bits := b,
    cache_sets := List.replicate (1 <<< s) (CacheSet.init E),
    read_count := 0, write_count := 0, read_misses := 0, write_misses := 0,
    evictions := 0, writebacks := 0 }

/-- The two counters of `class Bus`. -/
structure Bus where
  invalidations : Nat
  data_traffic_bytes : Nat
  deriving DecidableEq, Repr

/-- The caches registered with the bus (in registration order) and the bus
counters: everything the coherence operations read or write. -/
structure System where
  caches : List Cache
  bus : Bus
  deriving DecidableEq, Repr

/-- The state built by the `CacheSimulator` constructor: four caches with ids
0..3 registered in that order, bus counters zero. -/
def System.init (s E b : Nat) : System :=
  { caches := [Cache.init 0 s E b, Cache.init 1 s E b, Cache.init 2 s E b, Cache.init 3 s E b],
    bus := { invalidations := 0, data_traffic_bytes := 0 } }

/-! ## `cache_set.cpp` -/

/-- Loop of `CacheSet::findLine`: first line with `valid && tag == tag`,
as way index and contents. -/
def findLineFrom (tag : Nat) : List CacheLine → Option (Nat × CacheLine)
  | [] => none
  | l :: ls =>
    if l.valid && l.tag == tag then some (0, l)
    else (findLineFrom tag ls).map (fun p => (p.1 + 1, p.2))

/-- The method `CacheSet::findLine`. -/
def CacheSet.findLine (set : CacheSet) (tag : Nat) : Option (Nat × CacheLine) :=
  findLineFrom tag set.lines

/-- First loop of `CacheSet::findReplacementLine`: lowest way with `!valid`. -/
def firstInvalid : List CacheLine → Option Nat
  | [] => none
  | l :: ls => if !l.valid then some 0 else (firstInvalid ls).map (· + 1)

/-- Second loop of `CacheSet::findReplacementLine`: `best` is the pair
(`lru_line`, with `min_access` its `last_access`), `i` the way being visited. -/
def lruScan : List CacheLine → Nat → Nat × CacheLine → Nat × CacheLine
  | [], _, best => best
  | l :: ls, i, best =>
    if l.last_access < best.2.last_access then lruScan ls (i + 1) (i, l)
    else lruScan ls (i + 1) best

/-- The method `CacheSet::findReplacementLine`: the way index of the returned
line and `eviction_result` (0 none, 1 clean, 2 dirty). -/
def CacheSet.findReplacementLine (set : CacheSet) : Option (Nat × Nat) :=
  match firstInvalid set.lines with
  | some i => some (i, 0)
  | none =>
    match set.lines with
    | [] => none
    | l0 :: _ =>
      let best := lruScan set.lines 0 (0, l0)
      some (best.1, if best.2.dirty then 2 else 1)

/-- The method `CacheSet::updateLRU`. -/
def CacheLine.updateLRU (line : CacheLine) (cycle : Int) : CacheLine :=
  { line with last_access := cycle }

/-- Store through a `CacheLine*`: replace way `li` of the set. -/
def CacheSet.setLine (set : CacheSet) (li : Nat) (l : CacheLine) : CacheSet :=
  { lines := set.lines.set li l }

/-! ## `cache.cpp` -/

/-- The method `Cache::extractAddressFields`: `(tag, set_idx, block_offset)`. -/
def Cache.extractAddressFields (c : Cache) (addr : Nat) : Nat × Nat × Nat :=
  (addr >>> (c.b_bits + c.s_bits),
   (addr >>> c.b_bits) &&& ((1 <<< c.s_bits) - 1),
   addr &&& ((1 <<< c.b_bits) - 1))

/-- Store through a `CacheLine*` of set `set_idx`. -/
def Cache.setLine (c : Cache) (set_idx : Nat) (set : CacheSet) (li : Nat) (l : CacheLine) : Cache :=
  { c with cache_sets := c.cache_sets.set set_idx (set.setLine li l) }

/-- The method `Bus::addDataTraffic`. The sum is the mathematical one: the
`int` counter of the source holds `wrapInt32` of it, which is the sum as long
as it does not exceed `INT_MAX`. -/
def Bus.addDataTraffic (bus : Bus) (bytes : Nat) : Bus :=
  { bus with data_traffic_bytes := bus.data_traffic_bytes + bytes }

/-- The method `Bus::incrementInvalidations`. -/
def Bus.incrementInvalidations (bus : Bus) : Bus :=
  { bus with invalidations := bus.invalidations + 1 }

/-- The method `Cache::busRead` on cache `c`: the updated cache, the updated
bus counters and `data_transfer_cycles` (0 on entry). -/
def Cache.busRead (c : Cache) (bus : Bus) (addr : Nat) : Option (Cache × Bus × Nat) :=
  match c.cache_sets[(c.extractAddressFields addr).2.1]? with
  | none => none
  | some set =>
    match set.findLine (c.extractAddressFields addr).1 with
    | none => some (c, bus, 0)
    | some (li, line) =>
      if line.valid && line.state != MESIState.INVALID then
        match line.state with
        | MESIState.MODIFIED =>
          some (c.setLine (c.extractAddressFields addr).2.1 set li
                  { line with state := MESIState.SHARED, dirty := false },
                bus.addDataTraffic c.block_size, 2 * (c.block_size / 4))
        | MESIState.EXCLUSIVE =>
          some (c.setLine (c.extractAddressFields addr).2.1 set li
                  { line with state := MESIState.SHARED },
                bus.addDataTraffic c.block_size, 2 * (c.block_size / 4))
        | MESIState.SHARED =>
          some (c, bus.addDataTraffic c.block_size, 2 * (c.block_size / 4))
        | MESIState.INVALID => some (c, bus, 0)
      else some (c, bus, 0)

/-- The method `Cache::busWrite` on cache `c`. -/
def Cache.busWrite (c : Cache) (bus : Bus) (addr : Nat) : Option (Cache × Bus) :=
  match c.cache_sets[(c.extractAddressFields addr).2.1]? with
  | none => none
  | some set =>
    match set.findLine (c.extractAddressFields addr).1 with
    | none => some (c, bus)
    | some (li, line) =>
      if line.valid && (line.state == MESIState.SHARED || line.state == MESIState.EXCLUSIVE) then
        some (c.setLine (c.extractAddressFields addr).2.1 set li
                { line with state := MESIState.INVALID },
              bus.incrementInvalidations)
      else some (c, bus)

/-- The method `Cache::busUpgrade` on cache `c`. -/
def Cache.busUpgrade (c : Cache) (bus : Bus) (addr : Nat) : Option (Cache × Bus) :=
  match c.cache_sets[(c.extractAddressFields addr).2.1]? with
  | none => none
  | some set =>
    match set.findLine (c.extractAddressFields addr).1 with
    | none => some (c, bus)
    | some (li, line) =>
      if line.valid && line.state == MESIState.SHARED then
        some (c.setLine (c.extractAddressFields addr).2.1 set li
                { line with state := MESIState.INVALID },
              bus.incrementInvalidations)
      else some (c, bus)

/-! ## `bus.cpp` -/

/-- Snoop-read loop shared by `Bus::processRead` and the first loop of
`Bus::processWrite`. `n` is `caches.size()` (for `caches[requester_id]`), the
accumulators are `found_in_cache` and `max_cycles`. -/
def Bus.readPhase (n requester_id addr : Nat) :
    List Cache → Bus → Bool → Nat → Option (List Cache × Bus × Bool × Nat)
  | [], bus, found, mx => some ([], bus, found, mx)
  | c :: cs, bus, found, mx =>
    if c.core_id != requester_id then
      if n ≤ requester_id then none
      else
        match c.busRead bus addr with
        | none => none
        | some (c1, bus1, dtc) =>
          match Bus.readPhase n requester_id addr cs bus1
                  (if dtc > 0 then true else found) (if dtc > 0 then max mx dtc else mx) with
          | none => none
          | some (cs1, bus2, f, m) => some (c1 :: cs1, bus2, f, m)
    else
      match Bus.readPhase n requester_id addr cs bus found mx with
      | none => none
      | some (cs1, bus2, f, m) => some (c :: cs1, bus2, f, m)

/-- Second loop of `Bus::processWrite`; the last accumulator is
`invalidation_count`. -/
def Bus.writePhase (n requester_id addr : Nat) :
    List Cache → Bus → Nat → Option (List Cache × Bus × Nat)
  | [], bus, cnt => some ([], bus, cnt)
  | c :: cs, bus, cnt =>
    if c.core_id != requester_id then
      if n ≤ requester_id then none
      else
        match c.busWrite bus addr with
        | none => none
        | some (c1, bus1) =>
          match Bus.writePhase n requester_id addr cs bus1 (cnt + 1) with
          | none => none
          | some (cs1, bus2, k) => some (c1 :: cs1, bus2, k)
    else
      match Bus.writePhase n requester_id addr cs bus cnt with
      | none => none
      | some (cs1, bus2, k) => some (c :: cs1, bus2, k)

/-- Loop of `Bus::processUpgrade`; the last accumulator is
`invalidation_count`. -/
def Bus.upgradePhase (requester_id addr : Nat) :
    List Cache → Bus → Nat → Option (List Cache × Bus × Nat)
  | [], bus, cnt => some ([], bus, cnt)
  | c :: cs, bus, cnt =>
    if c.core_id != requester_id then
      match c.busUpgrade bus addr with
      | none => none
      | some (c1, bus1) =>
        match Bus.upgradePhase requester_id addr cs bus1 (cnt + 1) with
        | none => none
        | some (cs1, bus2, k) => some (c1 :: cs1, bus2, k)
    else
      match Bus.upgradePhase requester_id addr cs bus cnt with
      | none => none
      | some (cs1, bus2, k) => some (c :: cs1, bus2, k)

/-- The method `Bus::processRead`: new system state and `cycles_taken`. -/
def Bus.processRead (sys : System) (requester_id addr : Nat) : Option (System × Nat) :=
  match Bus.readPhase sys.caches.length requester_id addr sys.caches sys.bus false 0 with
  | none => none
  | some (cs, bus, found, mx) =>
    some ({ caches := cs, bus := bus }, if found then mx else 100)

/-- The method `Bus::processWrite`: new system state and `cycles_taken`. -/
def Bus.processWrite (sys : System) (requester_id addr : Nat) : Option (System × Nat) :=
  match Bus.readPhase sys.caches.length requester_id addr sys.caches sys.bus false 0 with
  | none => none
  | some (cs, bus, found, mx) =>
    match Bus.writePhase sys.caches.length requester_id addr cs bus 0 with
    | none => none
    | some (cs1, bus1, cnt) =>
      some ({ caches := cs1, bus := { bus1 with invalidations := bus1.invalidations + cnt } },
            if found then mx else 100)

/-- The method `Bus::processUpgrade`: new system state and `cycles_taken`. -/
def Bus.processUpgrade (sys : System) (requester_id addr : Nat) : Option (System × Nat) :=
  match Bus.upgradePhase requester_id addr sys.caches sys.bus 0 with
  | none => none
  | some (cs, bus, cnt) =>
    some ({ caches := cs, bus := { bus with invalidations := bus.invalidations + cnt } }, 2)

/-! ## Local operations of `cache.cpp` (run against the whole system) -/

/-- Replace the cache registered at position `i`. -/
def System.setCache (sys : System) (i : Nat) (c : Cache) : System :=
  { sys with caches := sys.caches.set i c }

/-- Tail common to the miss branches of `Cache::read` and `Cache::write`:
choose the replacement line, do the eviction bookkeeping, add the fetch
latency and install the line with state `st` and dirty flag `d`. Returns the
updated cache and `cycles_taken`. -/
def Cache.missFill (c : Cache) (tag set_idx : Nat) (cycle : Int) (bus_cycles : Nat)
    (st : MESIState) (d : Bool) : Option (Cache × Nat) :=
  match c.cache_sets[set_idx]? with
  | none => none
  | some set =>
    match set.findReplacementLine with
    | none => none
    | some (ri, eviction_result) =>
      some (Cache.setLine
              (if eviction_result > 0 then
                 if eviction_result == 2 then
                   { c with evictions := c.evictions + 1, writebacks := c.writebacks + 1 }
                 else { c with evictions := c.evictions + 1 }
               else c)
              set_idx set ri
              { valid := true, tag := tag, state := st, last_access := cycle, dirty := d },
            (if eviction_result > 0 then (if eviction_result == 2 then 100 else 0) else 0)
              + (if bus_cycles > 0 then bus_cycles else 100))

/-- Miss branch of `Cache::read` for the cache at position `i`; `c` is that
cache after `read_count++`. -/
def Cache.readMiss (sys : System) (i : Nat) (c : Cache) (addr : Nat) (cycle : Int) :
    Option (System × Bool × Nat) :=
  match Bus.processRead (sys.setCache i { c with read_misses := c.read_misses + 1 })
          c.core_id addr with
  | none => none
  | some (sys2, bus_cycles) =>
    match sys2.caches[i]? with
    | none => none
    | some c3 =>
      match c3.missFill (c.extractAddressFields addr).1 (c.extractAddressFields addr).2.1
              cycle bus_cycles MESIState.EXCLUSIVE false with
      | none => none
      | some (c4, cycles_taken) => some (sys2.setCache i c4, false, cycles_taken)

/-- The method `Cache::read` invoked on the cache at position `i`: the new
system state, the returned hit flag and `cycles_taken`. -/
def Cache.read (sys : System) (i : Nat) (addr : Nat) (cycle : Int) :
    Option (System × Bool × Nat) :=
  match sys.caches[i]? with
  | none => none
  | some c =>
    match c.cache_sets[(c.extractAddressFields addr).2.1]? with
    | none => none
    | some set =>
      match set.findLine (c.extractAddressFields addr).1 with
      | none => Cache.readMiss sys i { c with read_count := c.read_count + 1 } addr cycle
      | some (li, line) =>
        if line.valid && line.state != MESIState.INVALID then
          some (sys.setCache i
                  (Cache.setLine { c with read_count := c.read_count + 1 }
                    (c.extractAddressFields addr).2.1 set li (line.updateLRU cycle)),
                true, 1)
        else Cache.readMiss sys i { c with read_count := c.read_count + 1 } addr cycle

/-- Miss branch of `Cache::write` for the cache at position `i`; `c` is that
cache after `write_count++`. -/
def Cache.writeMiss (sys : System) (i : Nat) (c : Cache) (addr : Nat) (cycle : Int) :
    Option (System × Bool × Nat) :=
  match Bus.processWrite (sys.setCache i { c with write_misses := c.write_misses + 1 })
          c.core_id addr with
  | none => none
  | some (sys2, bus_cycles) =>
    match sys2.caches[i]? with
    | none => none
    | some c3 =>
      match c3.missFill (c.extractAddressFields addr).1 (c.extractAddressFields addr).2.1
              cycle bus_cycles MESIState.MODIFIED true with
      | none => none
      | some (c4, cycles_taken) => some (sys2.setCache i c4, false, cycles_taken)

/-- SHARED case of the hit branch of `Cache::write`; `c2` is the cache after
`write_count++` and `updateLRU`, `li` the way of the hit line. -/
def Cache.writeSharedHit (sys : System) (i : Nat) (c2 : Cache) (set_idx li : Nat) (addr : Nat) :
    Option (System × Bool × Nat) :=
  match Bus.processUpgrade (sys.setCache i c2) c2.core_id addr with
  | none => none
  | some (sys2, bus_cycles) =>
    match sys2.caches[i]? with
    | none => none
    | some c3 =>
      match c3.cache_sets[set_idx]? with
      | none => none
      | some set3 =>
        match set3.lines[li]? with
        | none => none
        | some line3 =>
          some (sys2.setCache i
                  (c3.setLine set_idx set3 li
                    { line3 with state := MESIState.MODIFIED, dirty := true }),
                true, 1 + bus_cycles)

/-- The method `Cache::write` invoked on the cache at position `i`: the new
system state, the returned hit flag and `cycles_taken` (0 on entry, as passed
by `Core::executeNextInstruction`). -/
def Cache.write (sys : System) (i : Nat) (addr : Nat) (cycle : Int) :
    Option (System × Bool × Nat) :=
  match sys.caches[i]? with
  | none => none
  | some c =>
    match c.cache_sets[(c.extractAddressFields addr).2.1]? with
    | none => none
    | some set =>
      match set.findLine (c.extractAddressFields addr).1 with
      | none => Cache.writeMiss sys i { c with write_count := c.write_count + 1 } addr cycle
      | some (li, line) =>
        if line.valid && line.state != MESIState.INVALID then
          match line.state with
          | MESIState.MODIFIED =>
            some (sys.setCache i
                    (Cache.setLine { c with write_count := c.write_count + 1 }
                      (c.extractAddressFields addr).2.1 set li (line.updateLRU cycle)),
                  true, 1)
          | MESIState.EXCLUSIVE =>
            some (sys.setCache i
                    (Cache.setLine { c with write_count := c.write_count + 1 }
                      (c.extractAddressFields addr).2.1 set li
                      { line.updateLRU cycle with state := MESIState.MODIFIED, dirty := true }),
                  true, 1)
          | MESIState.SHARED =>
            Cache.writeSharedHit sys i
              (Cache.setLine { c with write_count := c.write_count + 1 }
                (c.extractAddressFields addr).2.1 set li (line.updateLRU cycle))
              (c.extractAddressFields addr).2.1 li addr
          | MESIState.INVALID =>
            some (sys.setCache i
                    (Cache.setLine { c with write_count := c.write_count + 1 }
                      (c.extractAddressFields addr).2.1 set li (line.updateLRU cycle)),
                  true, 0)
        else Cache.writeMiss sys i { c with write_count := c.write_count + 1 } addr cycle

/-! ## Operation sequences -/

/-- One call into the cache layer: a local operation issued by core `core`,
or a snoop delivered to the cache of core `core`. -/
inductive Op where
  | read (core addr : Nat) (cycle : Int)
  | write (core addr : Nat) (cycle : Int)
  | busRead (core addr : Nat)
  | busWrite (core addr : Nat)
  | busUpgrade (core addr : Nat)
  deriving DecidableEq, Repr

/-- True for `Cache::read` / `Cache::write` calls. -/
def Op.isLocal : Op → Bool
  | Op.read _ _ _ => true
  | Op.write _ _ _ => true
  | _ => false

/-- Effect of one call on the system state. -/
def System.step (sys : System) : Op → Option System
  | Op.read i addr cycle => (Cache.read sys i addr cycle).map (·.1)
  | Op.write i addr cycle => (Cache.write sys i addr cycle).map (·.1)
  | Op.busRead k addr =>
    match sys.caches[k]? with
    | none => none
    | some c =>
      match c.busRead sys.bus addr with
      | none => none
      | some (c1, bus1, _) => some { caches := sys.caches.set k c1, bus := bus1 }
  | Op.busWrite k addr =>
    match sys.caches[k]? with
    | none => none
    | some c =>
      match c.busWrite sys.bus addr with
      | none => none
      | some (c1, bus1) => some { caches := sys.caches.set k c1, bus := bus1 }
  | Op.busUpgrade k addr =>
    match sys.caches[k]? with
    | none => none
    | some c =>
      match c.busUpgrade sys.bus addr with
      | none => none
      | some (c1, bus1) => some { caches := sys.caches.set k c1, bus := bus1 }

/-- Effect of a finite sequence of calls, in order. -/
def System.run (sys : System) : List Op → Option System
  | [] => some sys
  | op :: ops =>
    match sys.step op with
    | none => none
    | some sys1 => sys1.run ops

/-- The line of cache `i` that `Cache::findLine` returns for `addr`. -/
def System.lineOf (sys : System) (i addr : Nat) : Option CacheLine :=
  match sys.caches[i]? with
  | none => none
  | some c =>
    match c.cache_sets[(c.extractAddressFields addr).2.1]? with
    | none => none
    | some set => (set.findLine (c.extractAddressFields addr).1).map (·.2)

/-! ## Predicates used by the specification -/

/-- The MESI state in which cache `i` holds `addr`: the state of the line its
lookup returns when that line is valid, `INVALID` otherwise. -/
def System.stateOf (sys : System) (i addr : Nat) : MESIState :=
  match sys.lineOf i addr with
  | some l => if l.valid then l.state else MESIState.INVALID
  | none => MESIState.INVALID

/-- Coherence for address `addr`: at most one MODIFIED holder; a MODIFIED
holder excludes every other valid copy; an EXCLUSIVE holder excludes every
other valid copy. -/
def System.coherentAt (sys : System) (addr : Nat) : Prop :=
  (∀ i ∈ List.range sys.caches.length, ∀ j ∈ List.range sys.caches.length,
      sys.stateOf i addr = MESIState.MODIFIED → sys.stateOf j addr = MESIState.MODIFIED → i = j) ∧
  (∀ i ∈ List.range sys.caches.length, ∀ j ∈ List.range sys.caches.length, i ≠ j →
      sys.stateOf i addr = MESIState.MODIFIED → sys.stateOf j addr = MESIState.INVALID) ∧
  (∀ i ∈ List.range sys.caches.length, ∀ j ∈ List.range sys.caches.length, i ≠ j →
      sys.stateOf i addr = MESIState.EXCLUSIVE → sys.stateOf j addr = MESIState.INVALID)

instance (sys : System) (addr : Nat) : Decidable (sys.coherentAt addr) := by
  unfold System.coherentAt
  infer_instance

/-- At most one valid line of the set carries any given tag. -/
def CacheSet.tagUnique (set : CacheSet) : Prop :=
  set.lines.Pairwise (fun a b => ¬ (a.valid = true ∧ b.valid = true ∧ a.tag = b.tag))

instance (set : CacheSet) : Decidable set.tagUnique := by
  unfold CacheSet.tagUnique
  infer_instance

/-- The state in which core 0 and then core 1 have each read address `A` on
cold caches (`none` if a call fails). -/
def twoReaders (s E b A : Nat) : Option System :=
  (System.init s E b).run [Op.read 0 A 0, Op.read 1 A 1]

/-- The method `Cache::findLine(addr, tag, set_idx)`: way index and contents
of the line found (`none` also when the set index is out of range). -/
def Cache.findLine (c : Cache) (addr : Nat) : Option (Nat × CacheLine) :=
  match c.cache_sets[(c.extractAddressFields addr).2.1]? with
  | none => none
  | some set => set.findLine (c.extractAddressFields addr).1

/-- The hit test `line && line->valid && line->state != INVALID` of cache `c`
for `addr`. -/
def Cache.hit (c : Cache) (addr : Nat) : Bool :=
  match c.findLine addr with
  | none => false
  | some (_, line) => line.valid && line.state != MESIState.INVALID

/-- The value `data_transfer_cycles` that `Cache::busRead` of cache `c` reports
for `addr` (0 when the call fails). -/
def Cache.snoopCycles (c : Cache) (addr : Nat) : Nat :=
  match c.busRead { invalidations := 0, data_traffic_bytes := 0 } addr with
  | some (_, _, d) => d
  | none => 0

/-- The cache that `Cache::busRead` of cache `c` leaves behind for `addr`
(`c` itself when the call fails). -/
def Cache.afterBusRead (c : Cache) (addr : Nat) : Cache :=
  match c.busRead { invalidations := 0, data_traffic_bytes := 0 } addr with
  | some (c1, _, _) => c1
  | none => c

/-- The peers of `requester_id`: registered caches with another id. -/
def System.peers (sys : System) (requester_id : Nat) : List Cache :=
  sys.caches.filter (fun c => c.core_id != requester_id)

/-- The `data_transfer_cycles` values reported by the peers' snoops. -/
def System.peerCycles (sys : System) (requester_id addr : Nat) : List Nat :=
  (sys.peers requester_id).map (fun c => c.snoopCycles addr)

/-- Geometry is consistent: `2^s_bits` sets, every set has at least one way. -/
def Cache.wf (c : Cache) : Prop :=
  c.cache_sets.length = 1 <<< c.s_bits ∧ ∀ set ∈ c.cache_sets, 0 < set.lines.length

instance (c : Cache) : Decidable c.wf := by
  unfold Cache.wf
  infer_instance

/-- Every registered cache is well formed and its id indexes the registry. -/
def System.wf (sys : System) : Prop :=
  ∀ c ∈ sys.caches, c.wf ∧ c.core_id < sys.caches.length

instance (sys : System) : Decidable sys.wf := by
  unfold System.wf
  infer_instance

/-- Per-line consistency kept by every operation: an invalid line is INVALID
and the dirty flag coincides with state MODIFIED. -/
def CacheLine.ok (l : CacheLine) : Prop :=
  (l.valid = false → l.state = MESIState.INVALID) ∧ (l.dirty = true ↔ l.state = MESIState.MODIFIED)

instance (l : CacheLine) : Decidable l.ok := by
  unfold CacheLine.ok
  infer_instance

/-- All lines of the cache satisfy `CacheLine.ok`. -/
def Cache.linesOk (c : Cache) : Prop :=
  ∀ set ∈ c.cache_sets, ∀ l ∈ set.lines, l.ok

instance (c : Cache) : Decidable c.linesOk := by
  unfold Cache.linesOk
  infer_instance

/-- All lines of all caches satisfy `CacheLine.ok`. -/
def System.linesOk (sys : System) : Prop :=
  ∀ c ∈ sys.caches, c.linesOk

instance (sys : System) : Decidable sys.linesOk := by
  unfold System.linesOk
  infer_instance

/-- Line `b` may follow line `a`: validity is kept and consistency is kept. -/
def CacheLine.evolves (a b : CacheLine) : Prop :=
  (a.valid = true → b.valid = true) ∧ (a.ok → b.ok)

/-- Same number of sets, same number of ways, every line evolved. -/
def SetsEvolve (cs cs' : List CacheSet) : Prop :=
  cs'.length = cs.length ∧
  ∀ (idx : Nat) (set set' : CacheSet), cs[idx]? = some set → cs'[idx]? = some set' →
    set'.lines.length = set.lines.length ∧
    ∀ (li : Nat) (l l' : CacheLine), set.lines[li]? = some l → set'.lines[li]? = some l' →
      l.evolves l'

/-- Same identity and geometry, every line evolved. -/
def Cache.Evolves (c c' : Cache) : Prop :=
  c'.core_id = c.core_id ∧ c'.s_bits = c.s_bits ∧ c'.b_bits = c.b_bits ∧
  c'.block_size = c.block_size ∧ SetsEvolve c.cache_sets c'.cache_sets

/-- Same registry, every cache evolved. -/
def CachesEvolve (cs cs' : List Cache) : Prop :=
  cs'.length = cs.length ∧
  ∀ (k : Nat) (c c' : Cache), cs[k]? = some c → cs'[k]? = some c' → c.Evolves c'

/-- The cache that `Cache::busWrite` of cache `c` leaves behind for `addr`
(`c` itself when the call fails). -/
def Cache.afterBusWrite (c : Cache) (addr : Nat) : Cache :=
  match c.busWrite { invalidations := 0, data_traffic_bytes := 0 } addr with
  | some (c1, _) => c1
  | none => c

/-- The cache that `Cache::busUpgrade` of cache `c` leaves behind for `addr`
(`c` itself when the call fails). -/
def Cache.afterBusUpgrade (c : Cache) (addr : Nat) : Cache :=
  match c.busUpgrade { invalidations := 0, data_traffic_bytes := 0 } addr with
  | some (c1, _) => c1
  | none => c

/-- The MESI states in which the registered caches hold `addr`, in registry
order. -/
def System.statesOf (sys : System) (addr : Nat) : List MESIState :=
  (List.range sys.caches.length).map (fun i => sys.stateOf i addr)

/-- The system `s = 1`, `E = 2`, `b = 2` after core 0 has read address 0 at
cycle 0: core 0 holds the block EXCLUSIVE in way 0 of set 0. -/
def afterRead0 : System :=
  { caches :=
      [{ Cache.init 0 1 2 2 with
          read_count := 1, read_misses := 1,
          cache_sets :=
            [{ lines := [{ valid := true, tag := 0, state := MESIState.EXCLUSIVE,
                           last_access := 0, dirty := false }, CacheLine.init] },
             CacheSet.init 2] },
       Cache.init 1 1 2 2, Cache.init 2 1 2 2, Cache.init 3 1 2 2],
    bus := { invalidations := 0, data_traffic_bytes := 0 } }

/-- Core 0's cache in `afterRead0`: it holds address 0 EXCLUSIVE. -/
def cache0AfterRead : Cache :=
  afterRead0.caches.headD (Cache.init 0 1 2 2)

/-- The system `s = 1`, `E = 2`, `b = 2` after core 0 has written address 0 at
cycle 0: core 0 holds the block MODIFIED and dirty in way 0 of set 0. -/
def afterWrite0 : System :=
  { caches :=
      [{ Cache.init 0 1 2 2 with
          write_count := 1, write_misses := 1,
          cache_sets :=
            [{ lines := [{ valid := true, tag := 0, state := MESIState.MODIFIED,
                           last_access := 0, dirty := true }, CacheLine.init] },
             CacheSet.init 2] },
       Cache.init 1 1 2 2, Cache.init 2 1 2 2, Cache.init 3 1 2 2],
    bus := { invalidations := 3, data_traffic_bytes := 0 } }

/-- A full two-way set whose ways tie on `last_access`; way 0 is dirty. -/
def tiedSet : CacheSet :=
  { lines := [{ valid := true, tag := 1, state := MESIState.MODIFIED, last_access := 5,
                dirty := true },
              { valid := true, tag := 2, state := MESIState.SHARED, last_access := 5,
                dirty := false }] }

/-- The relations between the statistics counters of one cache. -/
def Cache.statsOk (c : Cache) : Prop :=
  c.read_misses ≤ c.read_count ∧ c.write_misses ≤ c.write_count ∧ c.writebacks ≤ c.evictions

/-- Cache `c'` is a later stage of `c`: same block size, no counter smaller,
and the counter relations kept. -/
def Cache.Grows (c c' : Cache) : Prop :=
  c'.block_size = c.block_size ∧
  c.read_count ≤ c'.read_count ∧ c.write_count ≤ c'.write_count ∧
  c.read_misses ≤ c'.read_misses ∧ c.write_misses ≤ c'.write_misses ∧
  c.evictions ≤ c'.evictions ∧ c.writebacks ≤ c'.writebacks ∧
  (c.statsOk → c'.statsOk)

/-- Same registry, every cache a later stage. -/
def CachesGrow (cs cs' : List Cache) : Prop :=
  cs'.length = cs.length ∧
  ∀ (k : Nat) (c c' : Cache), cs[k]? = some c → cs'[k]? = some c' → c.Grows c'

/-- System `sys'` is a later stage of `sys`: caches grow, bus counters do not
decrease, and the data traffic stays a multiple of a common block size. -/
def System.Grows (sys sys' : System) : Prop :=
  CachesGrow sys.caches sys'.caches ∧
  sys.bus.invalidations ≤ sys'.bus.invalidations ∧
  sys.bus.data_traffic_bytes ≤ sys'.bus.data_traffic_bytes ∧
  ∀ B : Nat, (∀ c ∈ sys.caches, c.block_size = B) → B ∣ sys.bus.data_traffic_bytes →
    B ∣ sys'.bus.data_traffic_bytes

/-! ## `core.cpp`

The trace file is the list of its unread bytes together with the `eofbit` and
`failbit` of the stream. An exception escaping `std::stoul` (no conversion, or
a value beyond `unsigned long`, taken as 64 bits) is modelled by `none`. -/

/-- Processor core (`class Core`); `cache` is the position of its cache in the
registry. -/
structure Core where
  id : Nat
  cache : Nat
  trace : List Nat
  eofbit : Bool
  failbit : Bool
  total_cycles : Nat
  idle_cycles : Nat
  instruction_count : Nat
  is_stalled : Bool
  stall_until_cycle : Int
  deriving DecidableEq, Repr

/-- The constructor `Core(id, cache, trace_filename)` on a file that opened,
with contents `bytes`. -/
def Core.init (id : Nat) (bytes : List Nat) : Core :=
  { id := id, cache := id, trace := bytes, eofbit := false, failbit := false,
    total_cycles := 0, idle_cycles := 0, instruction_count := 0,
    is_stalled := false, stall_until_cycle := 0 }

/-- The predicate `isspace` of the C locale. -/
def isSpace (ch : Nat) : Bool :=
  ch == 32 || (9 ≤ ch && ch ≤ 13)

/-- The call `std::getline(trace_file, line)` on a stream in good state: the
line, the unread rest, and the new `eofbit` and `failbit`. -/
def getline : List Nat → List Nat × List Nat × Bool × Bool
  | [] => ([], [], true, true)
  | ch :: rest =>
    if ch == 10 then ([], rest, false, false)
    else
      match getline rest with
      | (line, rest1, eof, _) => (ch :: line, rest1, eof, false)

/-- Skip leading white space (formatted extraction). -/
def skipSpace : List Nat → List Nat
  | [] => []
  | ch :: rest => if isSpace ch then skipSpace rest else ch :: rest

/-- The extraction `ss >> op >> addr_str` from the line: `none` when
`ss.fail()`, else the operation character and the address token. -/
def parseLine (line : List Nat) : Option (Nat × List Nat) :=
  match skipSpace line with
  | [] => none
  | op :: rest =>
    match (skipSpace rest).takeWhile (fun ch => !isSpace ch) with
    | [] => none
    | tok => some (op, tok)

/-- Value of a hexadecimal digit character. -/
def hexDigit (ch : Nat) : Option Nat :=
  if 48 ≤ ch && ch ≤ 57 then some (ch - 48)
  else if 97 ≤ ch && ch ≤ 102 then some (ch - 87)
  else if 65 ≤ ch && ch ≤ 70 then some (ch - 55)
  else none

/-- Accumulate the longest run of hexadecimal digits: the value and the number
of digits consumed. -/
def hexDigits : List Nat → Nat → Nat → Nat × Nat
  | [], acc, n => (acc, n)
  | ch :: rest, acc, n =>
    match hexDigit ch with
    | some d => hexDigits rest (16 * acc + d) (n + 1)
    | none => (acc, n)

/-- Drop an optional `0x` / `0X` prefix that is followed by a digit. -/
def dropHexPrefix : List Nat → List Nat
  | 48 :: x :: d :: rest =>
    if (x == 120 || x == 88) && (hexDigit d).isSome then d :: rest else 48 :: x :: d :: rest
  | other => other

/-- The call `std::stoul(str, nullptr, 16)`: optional white space, optional
sign, optional prefix, digits. `none` when it throws. -/
def stoul16 (str : List Nat) : Option Nat :=
  match skipSpace str with
  | 45 :: rest =>
    match hexDigits (dropHexPrefix rest) 0 0 with
    | (v, n) => if n == 0 || 2 ^ 64 ≤ v then none else some ((2 ^ 64 - v) % 2 ^ 64)
  | 43 :: rest =>
    match hexDigits (dropHexPrefix rest) 0 0 with
    | (v, n) => if n == 0 || 2 ^ 64 ≤ v then none else some v
  | rest =>
    match hexDigits (dropHexPrefix rest) 0 0 with
    | (v, n) => if n == 0 || 2 ^ 64 ≤ v then none else some v

/-- The statement `if (addr_str.substr(0, 2) == "0x") addr_str = addr_str.substr(2)`. -/
def strip0x : List Nat → List Nat
  | 48 :: 120 :: rest => rest
  | other => other

/-- Which `return` of `Core::executeNextInstruction` a call took. -/
inductive Outcome where
  | stalled
  | done
  | skipped
  | unknownOp
  | issued (hit : Bool) (cycles_taken : Nat)
  deriving DecidableEq, Repr

/-- End of `Core::executeNextInstruction` after the cache call returned. The
sum `current_cycle + cycles_taken` is stored into the 32-bit `int`
`stall_until_cycle`. -/
def Core.account (core : Core) (sys : System) (current_cycle : Int) (hit : Bool)
    (cycles_taken : Nat) : Core × System × Bool × Outcome :=
  if !hit then
    ({ core with total_cycles := core.total_cycles + 1, is_stalled := true,
                 stall_until_cycle := wrapInt32 (current_cycle + cycles_taken) },
     sys, true, Outcome.issued hit cycles_taken)
  else
    ({ core with total_cycles := core.total_cycles + 1 }, sys, true,
     Outcome.issued hit cycles_taken)

/-- The part of `Core::executeNextInstruction` after the stall test; `core`
already has `is_stalled = false`. -/
def Core.issue (core : Core) (sys : System) (current_cycle : Int) :
    Option (Core × System × Bool × Outcome) :=
  if core.eofbit || core.failbit then some (core, sys, false, Outcome.done)
  else
    match getline core.trace with
    | (line, rest, eof, fail) =>
      if line.isEmpty then
        some ({ core with trace := rest, eofbit := eof, failbit := fail }, sys, true,
              Outcome.skipped)
      else
        match parseLine line with
        | none =>
          some ({ core with trace := rest, eofbit := eof, failbit := fail }, sys, true,
                Outcome.skipped)
        | some (op, addr_str) =>
          match stoul16 (strip0x addr_str) with
          | none => none
          | some v =>
            if op == 82 || op == 114 then
              match Cache.read sys core.cache (v % 2 ^ 32) current_cycle with
              | none => none
              | some (sys1, hit, cycles_taken) =>
                some (Core.account
                  { core with trace := rest, eofbit := eof, failbit := fail,
                              instruction_count := core.instruction_count + 1 }
                  sys1 current_cycle hit cycles_taken)
            else if op == 87 || op == 119 then
              match Cache.write sys core.cache (v % 2 ^ 32) current_cycle with
              | none => none
              | some (sys1, hit, cycles_taken) =>
                some (Core.account
                  { core with trace := rest, eofbit := eof, failbit := fail,
                              instruction_count := core.instruction_count + 1 }
                  sys1 current_cycle hit cycles_taken)
            else
              some ({ core with trace := rest, eofbit := eof, failbit := fail,
                                instruction_count := core.instruction_count + 1 },
                    sys, true, Outcome.unknownOp)

/-- The method `Core::executeNextInstruction`, also reporting which `return`
was taken. -/
def Core.exec (core : Core) (sys : System) (current_cycle : Int) :
    Option (Core × System × Bool × Outcome) :=
  if core.is_stalled && decide (current_cycle < core.stall_until_cycle) then
    some ({ core with idle_cycles := core.idle_cycles + 1 }, sys, true, Outcome.stalled)
  else Core.issue { core with is_stalled := false } sys current_cycle

/-- The method `Core::executeNextInstruction`: the core, the system and the
returned `active` flag. -/
def Core.executeNextInstruction (core : Core) (sys : System) (current_cycle : Int) :
    Option (Core × System × Bool) :=
  (core.exec sys current_cycle).map (fun r => (r.1, r.2.1, r.2.2.1))

/-- The bytes of the one-line trace `R 0x0`. -/
def traceRead0 : List Nat := [82, 32, 48, 120, 48, 10]

/-- The bytes of the one-line trace `X 0x10`: an unknown operation character
with a parseable address. -/
def traceUnknown : List Nat := [88, 32, 48, 120, 49, 48, 10]

/-- The bytes of the one-line trace `R zz`: an address token without a
hexadecimal digit. -/
def traceBadAddress : List Nat := [82, 32, 122, 122, 10]

/-- Core 0 after it issued the read of `traceRead0` at cycle 0 on a cold
system: stalled until cycle 100. -/
def coreAfterMiss : Core :=
  { Core.init 0 [] with total_cycles := 1, instruction_count := 1, is_stalled := true,
                        stall_until_cycle := 100 }

/-- The line that the miss branch of `Cache::write` installs. -/
def writtenLine (tag : Nat) (cycle : Int) : CacheLine :=
  { valid := true, tag := tag, state := MESIState.MODIFIED, last_access := cycle, dirty := true }

/-- Cache of core 0 in geometry `s`, `E`, `b` after `n` write misses that all
went to set `si`, which now holds `lines`, with `ev` dirty evictions. -/
def writerCache (s E b si : Nat) (lines : List CacheLine) (n ev : Nat) : Cache :=
  { Cache.init 0 s E b with
      write_count := n, write_misses := n, evictions := ev, writebacks := ev,
      cache_sets := (Cache.init 0 s E b).cache_sets.set si { lines := lines } }

/-- The system in which only core 0 has issued operations: `n` write misses to
set `si`. The peers are cold; each write miss has added 3 to the invalidation
counter. -/
def writerSystem (s E b si : Nat) (lines : List CacheLine) (n ev : Nat) : System :=
  { caches := [writerCache s E b si lines n ev, Cache.init 1 s E b, Cache.init 2 s E b,
               Cache.init 3 s E b],
    bus := { invalidations := 3 * n, data_traffic_bytes := 0 } }

/-- The ways of a set of `E` lines after the writes `ws` (pairs of address and
cycle) have filled its lowest ways in order; `c` decodes the addresses. -/
def filledLines (c : Cache) (E : Nat) (ws : List (Nat × Int)) : List CacheLine :=
  ws.map (fun w => writtenLine (c.extractAddressFields w.1).1 w.2) ++
    List.replicate (E - ws.length) CacheLine.init

/-- The direct-mapped system `s = 1`, `E = 1`, `b = 2` after core 0 has read
address 0 and core 1 has then written it: the only way of set 0 of core 0 is
still valid, but in state INVALID. -/
def afterPeerWrite : System :=
  { caches :=
      [{ Cache.init 0 1 1 2 with
          read_count := 1, read_misses := 1,
          cache_sets :=
            [{ lines := [{ valid := true, tag := 0, state := MESIState.INVALID,
                           last_access := 0, dirty := false }] },
             CacheSet.init 1] },
       { Cache.init 1 1 1 2 with
          write_count := 1, write_misses := 1,
          cache_sets :=
            [{ lines := [{ valid := true, tag := 0, state := MESIState.MODIFIED,
                           last_access := 1, dirty := true }] },
             CacheSet.init 1] },
       Cache.init 2 1 1 2, Cache.init 3 1 1 2],
    bus := { invalidations := 4, data_traffic_bytes := 4 } }

/-- The bytes of the one-line trace `W 0x0`. -/
def traceWrite0 : List Nat := [87, 32, 48, 120, 48, 10]

/-- The system `s = 1`, `E = 2`, `b = 2` after core 0 and then core 1 have read
address 0: core 0 holds the block SHARED (core 1 holds it EXCLUSIVE). -/
def sharedBy0 : System :=
  { caches :=
      [{ Cache.init 0 1 2 2 with
          read_count := 1, read_misses := 1,
          cache_sets :=
            [{ lines := [{ valid := true, tag := 0, state := MESIState.SHARED,
                           last_access := 0, dirty := false }, CacheLine.init] },
             CacheSet.init 2] },
       { Cache.init 1 1 2 2 with
          read_count := 1, read_misses := 1,
          cache_sets :=
            [{ lines := [{ valid := true, tag := 0, state := MESIState.EXCLUSIVE,
                           last_access := 1, dirty := false }, CacheLine.init] },
             CacheSet.init 2] },
       Cache.init 2 1 2 2, Cache.init 3 1 2 2],
    bus := { invalidations := 0, data_traffic_bytes := 4 } }

/-- The system `sharedBy0` after core 0 has written address 0 at cycle 2. -/
def afterSharedWrite : System :=
  { caches :=
      [{ Cache.init 0 1 2 2 with
          read_count := 1, read_misses := 1, write_count := 1,
          cache_sets :=
            [{ lines := [{ valid := true, tag := 0, state := MESIState.MODIFIED,
                           last_access := 2, dirty := true }, CacheLine.init] },
             CacheSet.init 2] },
       { Cache.init 1 1 2 2 with
          read_count := 1, read_misses := 1,
          cache_sets :=
            [{ lines := [{ valid := true, tag := 0, state := MESIState.EXCLUSIVE,
                           last_access := 1, dirty := false }, CacheLine.init] },
             CacheSet.init 2] },
       Cache.init 2 1 2 2, Cache.init 3 1 2 2],
    bus := { invalidations := 3, data_traffic_bytes := 4 } }

/-- Core 0 after it issued the write of `traceWrite0` as a hit. -/
def coreAfterHit : Core :=
  { Core.init 0 [] with total_cycles := 1, instruction_count := 1 }

/-! ## `cache_simulator.cpp` -/

/-- What `CacheSimulator::run` works on: the cores in id order, and the caches
with the bus. -/
structure CacheSimulator where
  cores : List Core
  sys : System
  deriving DecidableEq, Repr

/-- The constructor `CacheSimulator(app_name, s, E, b, ...)` when the four
trace files open, with contents `t0` .. `t3`. -/
def CacheSimulator.init (s E b : Nat) (t0 t1 t2 t3 : List Nat) : CacheSimulator :=
  { cores := [Core.init 0 t0, Core.init 1 t1, Core.init 2 t2, Core.init 3 t3],
    sys := System.init s E b }

/-- The `for` loop of `CacheSimulator::run` over the remaining cores; the
accumulator is `all_done`. -/
def CacheSimulator.stepCores (current_cycle : Int) :
    List Core → System → Bool → Option (List Core × System × Bool)
  | [], sys, all_done => some ([], sys, all_done)
  | core :: rest, sys, all_done =>
    match core.executeNextInstruction sys current_cycle with
    | none => none
    | some (core1, sys1, active) =>
      match CacheSimulator.stepCores current_cycle rest sys1
              (if active then false else all_done) with
      | none => none
      | some (cores1, sys2, d) => some (core1 :: cores1, sys2, d)

/-- One iteration of the `while` loop of `CacheSimulator::run` up to the test
`if (all_done) break`: the new state and `all_done`. -/
def CacheSimulator.round (sim : CacheSimulator) (current_cycle : Int) :
    Option (CacheSimulator × Bool) :=
  match CacheSimulator.stepCores current_cycle sim.cores sim.sys true with
  | none => none
  | some (cores, sys, all_done) => some ({ cores := cores, sys := sys }, all_done)

/-- The `while` loop of `CacheSimulator::run` entered with `current_cycle`,
cut after `fuel` iterations: the state and `current_cycle` at the `break`.
`none` when an exception or an access out of range occurs, or when the loop has
not reached its `break` within `fuel` iterations. -/
def CacheSimulator.runFrom : Nat → CacheSimulator → Int → Option (CacheSimulator × Int)
  | 0, _, _ => none
  | fuel + 1, sim, current_cycle =>
    match sim.round current_cycle with
    | none => none
    | some (sim1, all_done) =>
      if all_done then some (sim1, current_cycle)
      else CacheSimulator.runFrom fuel sim1 (current_cycle + 1)

/-- The method `CacheSimulator::run` (`current_cycle` starts at 0), cut after
`fuel` iterations of its loop. -/
def CacheSimulator.run (sim : CacheSimulator) (fuel : Nat) : Option (CacheSimulator × Int) :=
  CacheSimulator.runFrom fuel sim 0

/-- The method `CacheSimulator::getMaxExecutionTime`. -/
def CacheSimulator.getMaxExecutionTime (sim : CacheSimulator) : Nat :=
  sim.cores.foldl (fun max_time core => max max_time (core.total_cycles + core.idle_cycles)) 0

/-- The state after `n` iterations of the loop of `CacheSimulator::run`, none
of which reached the `break`, entered with `current_cycle`. -/
def CacheSimulator.cycles : Nat → CacheSimulator → Int → Option CacheSimulator
  | 0, sim, _ => some sim
  | n + 1, sim, current_cycle =>
    match sim.round current_cycle with
    | some (sim1, false) => CacheSimulator.cycles n sim1 (current_cycle + 1)
    | _ => none

/-- The condition under which `Core::executeNextInstruction(current_cycle)`
returns false: the core is past its stall and its stream is at its end. -/
def Core.finished (core : Core) (current_cycle : Int) : Bool :=
  !(core.is_stalled && decide (current_cycle < core.stall_until_cycle)) &&
    (core.eofbit || core.failbit)

/-- A trace line on which `Core::executeNextInstruction` does not throw: if
the line has an operation character and an address token, the token converts. -/
def lineOk (line : List Nat) : Bool :=
  match parseLine line with
  | none => true
  | some (_, tok) => (stoul16 (strip0x tok)).isSome

/-- All lines of the bytes that follow satisfy `lineOk`; `acc` holds the
characters of the current line read so far, last first. -/
def traceOkFrom : List Nat → List Nat → Bool
  | [], acc => lineOk acc.reverse
  | ch :: rest, acc =>
    if ch == 10 then lineOk acc.reverse && traceOkFrom rest []
    else traceOkFrom rest (ch :: acc)

/-- All lines of a trace file satisfy `lineOk`. -/
def traceOk (bytes : List Nat) : Bool :=
  traceOkFrom bytes []

/-- Bound on the calls in which the core still reads: the unread bytes, plus
one while the stream has not reached its end. -/
def Core.pending (core : Core) : Nat :=
  core.trace.length + (if core.eofbit || core.failbit then 0 else 1)

/-- Cycles that the core still waits at `current_cycle`. -/
def Core.waitLeft (core : Core) (current_cycle : Int) : Nat :=
  if core.is_stalled && decide (current_cycle < core.stall_until_cycle) then
    (core.stall_until_cycle - current_cycle).toNat
  else 0

/-- What every core keeps during a run over `n` registered caches: its cache
is registered, its unread lines convert, and a stream at its end has nothing
left to read. -/
def Core.ok (core : Core) (n : Nat) : Prop :=
  core.cache < n ∧ traceOk core.trace = true ∧
  ((core.eofbit || core.failbit) = true → core.trace = [])

/-- What the simulator keeps during a run. -/
def CacheSimulator.ok (sim : CacheSimulator) : Prop :=
  sim.sys.wf ∧ ∀ core ∈ sim.cores, core.ok sim.sys.caches.length

/-- Core `i` on an empty trace after its first call: the attempt to read a
line has set `eofbit` and `failbit`. -/
def coreAtEof (i : Nat) : Core :=
  { Core.init i [] with eofbit := true, failbit := true }

/-- Reads that drive the data traffic of the geometry `s = 1`, `E = 1`,
`b = 25` (blocks of `2^25` bytes) to the top of the `int` range: the four cores
read address 0, then core 0 alternates between address `2^26` (same set, other
tag) and address 0, each re-read of address 0 being supplied by the peers. -/
def overflowOps : List Op :=
  [Op.read 0 0 0, Op.read 1 0 1, Op.read 2 0 2, Op.read 3 0 3] ++
    List.flatten ((List.range 20).map (fun j =>
      [Op.read 0 67108864 ((4 + 2 * j : Nat) : Int), Op.read 0 0 ((5 + 2 * j : Nat) : Int)]))

/-- Every statistics counter of the cache is a value of the 32-bit `int`. -/
def Cache.countersFit (c : Cache) : Prop :=
  c.read_count ≤ INT_MAX ∧ c.write_count ≤ INT_MAX ∧ c.read_misses ≤ INT_MAX ∧
  c.write_misses ≤ INT_MAX ∧ c.evictions ≤ INT_MAX ∧ c.writebacks ≤ INT_MAX

instance (c : Cache) : Decidable c.countersFit := by
  unfold Cache.countersFit
  infer_instance

/-- Every statistics counter of the caches and of the bus is a value of the
32-bit `int`: no addition to a counter has overflowed. -/
def System.countersFit (sys : System) : Prop :=
  sys.bus.invalidations ≤ INT_MAX ∧ sys.bus.data_traffic_bytes ≤ INT_MAX ∧
  ∀ c ∈ sys.caches, c.countersFit

instance (sys : System) : Decidable sys.countersFit := by
  unfold System.countersFit
  infer_instance

/-! ## Auxiliary lemmas -/

theorem findLineFrom_some {tag : Nat} {ls : List CacheLine} {li : Nat} {line : CacheLine}
    (h : findLineFrom tag ls = some (li, line)) :
    ls[li]? = some line ∧ line.valid = true ∧ line.tag = tag := by
  induction ls generalizing li with
  | nil => simp [findLineFrom] at h
  | cons l ls ih =>
    unfold findLineFrom at h
    split at h
    · rename_i hc
      simp only [Option.some.injEq, Prod.mk.injEq] at h
      obtain ⟨rfl, rfl⟩ := h
      simp only [Bool.and_eq_true, beq_iff_eq] at hc
      simp [hc.1, hc.2]
    · cases hf : findLineFrom tag ls with
      | none => simp [hf] at h
      | some p =>
        obtain ⟨k, l1⟩ := p
        simp only [hf, Option.map_some', Option.some.injEq, Prod.mk.injEq] at h
        obtain ⟨rfl, rfl⟩ := h
        simpa using ih hf

theorem firstInvalid_some {ls : List CacheLine} {i : Nat} (h : firstInvalid ls = some i) :
    ∃ l, ls[i]? = some l ∧ l.valid = false := by
  induction ls generalizing i with
  | nil => simp [firstInvalid] at h
  | cons l ls ih =>
    unfold firstInvalid at h
    split at h
    · rename_i hc
      simp only [Option.some.injEq] at h
      subst h
      exact ⟨l, by simp, by simpa using hc⟩
    · cases hf : firstInvalid ls with
      | none => simp [hf] at h
      | some k =>
        simp only [hf, Option.map_some', Option.some.injEq] at h
        subst h
        simpa using ih hf

theorem firstInvalid_none {ls : List CacheLine} (h : firstInvalid ls = none) :
    ∀ l ∈ ls, l.valid = true := by
  induction ls with
  | nil => simp
  | cons l ls ih =>
    unfold firstInvalid at h
    split at h
    · simp at h
    · rename_i hc
      cases hf : firstInvalid ls with
      | none =>
        intro x hx
        rcases List.mem_cons.1 hx with rfl | hx
        · simpa using hc
        · exact ih hf x hx
      | some k => simp [hf] at h

theorem lruScan_spec (ls : List CacheLine) (i : Nat) (best : Nat × CacheLine) :
    lruScan ls i best = best ∨
      (i ≤ (lruScan ls i best).1 ∧ ls[(lruScan ls i best).1 - i]? = some (lruScan ls i best).2) := by
  induction ls generalizing i best with
  | nil => left; rfl
  | cons l ls ih =>
    unfold lruScan
    split
    · rcases ih (i + 1) (i, l) with h | ⟨h1, h2⟩
      · right
        rw [h]
        simp
      · right
        refine ⟨by omega, ?_⟩
        have : (lruScan ls (i + 1) (i, l)).1 - i = ((lruScan ls (i + 1) (i, l)).1 - (i + 1)) + 1 := by
          omega
        rw [this]
        simpa using h2
    · rcases ih (i + 1) best with h | ⟨h1, h2⟩
      · left; exact h
      · right
        refine ⟨by omega, ?_⟩
        have : (lruScan ls (i + 1) best).1 - i = ((lruScan ls (i + 1) best).1 - (i + 1)) + 1 := by
          omega
        rw [this]
        simpa using h2

/-- What `findReplacementLine` returns: a way of the set, and an eviction
code determined by that way's `valid` and `dirty` flags. -/
theorem findReplacementLine_spec {set : CacheSet} {ri ev : Nat}
    (h : set.findReplacementLine = some (ri, ev)) :
    ∃ old, set.lines[ri]? = some old ∧
      (old.valid = false → ev = 0) ∧
      (old.valid = true → ev = if old.dirty then 2 else 1) := by
  unfold CacheSet.findReplacementLine at h
  split at h
  · rename_i i hi
    simp only [Option.some.injEq, Prod.mk.injEq] at h
    obtain ⟨rfl, rfl⟩ := h
    obtain ⟨l, hl, hv⟩ := firstInvalid_some hi
    exact ⟨l, hl, fun _ => rfl, fun hv2 => by simp [hv] at hv2⟩
  · rename_i hnone
    split at h
    · simp at h
    · rename_i l0 rest hls
      simp only [Option.some.injEq, Prod.mk.injEq] at h
      obtain ⟨rfl, rfl⟩ := h
      have hall := firstInvalid_none hnone
      have hmem : ∃ old, set.lines[(lruScan set.lines 0 (0, l0)).1]? = some old ∧
          old = (lruScan set.lines 0 (0, l0)).2 := by
        rcases lruScan_spec set.lines 0 (0, l0) with h | ⟨_, h2⟩
        · rw [h]
          simp [hls]
        · exact ⟨_, by simpa using h2, rfl⟩
      obtain ⟨old, hold, heq⟩ := hmem
      refine ⟨old, hold, ?_, ?_⟩
      · intro hv
        have := hall old (List.getElem?_mem hold)
        simp [hv] at this
      · intro _
        rw [heq]

theorem findReplacementLine_total {set : CacheSet} (h : 0 < set.lines.length) :
    ∃ ri ev, set.findReplacementLine = some (ri, ev) := by
  unfold CacheSet.findReplacementLine
  split
  · exact ⟨_, _, rfl⟩
  · split
    · rename_i hls
      simp [hls] at h
    · exact ⟨_, _, rfl⟩

theorem CacheLine.evolves_refl (a : CacheLine) : a.evolves a :=
  ⟨id, id⟩

theorem CacheLine.evolves_trans {a b c : CacheLine} (h1 : a.evolves b) (h2 : b.evolves c) :
    a.evolves c :=
  ⟨fun h => h2.1 (h1.1 h), fun h => h2.2 (h1.2 h)⟩

theorem getElem?_exists_of_lt {α : Type} {l : List α} {i : Nat} (h : i < l.length) :
    ∃ a, l[i]? = some a :=
  ⟨l[i], List.getElem?_eq_getElem h⟩

theorem lt_of_getElem?_some {α : Type} {l : List α} {i : Nat} {a : α} (h : l[i]? = some a) :
    i < l.length :=
  (List.getElem?_eq_some.1 h).1

theorem SetsEvolve.sets_refl (cs : List CacheSet) : SetsEvolve cs cs := by
  refine ⟨rfl, ?_⟩
  intro idx set set' h1 h2
  rw [h1] at h2
  cases h2
  refine ⟨rfl, ?_⟩
  intro li l l' h3 h4
  rw [h3] at h4
  cases h4
  exact CacheLine.evolves_refl _

theorem SetsEvolve.sets_trans {a b c : List CacheSet} (h1 : SetsEvolve a b) (h2 : SetsEvolve b c) :
    SetsEvolve a c := by
  refine ⟨h2.1.trans h1.1, ?_⟩
  intro idx set set2 ha hc
  have hlt : idx < b.length := by
    have := lt_of_getElem?_some ha
    have := h1.1
    omega
  obtain ⟨set1, hb⟩ := getElem?_exists_of_lt hlt
  obtain ⟨l1, e1⟩ := h1.2 idx set set1 ha hb
  obtain ⟨l2, e2⟩ := h2.2 idx set1 set2 hb hc
  refine ⟨l2.trans l1, ?_⟩
  intro li l l'' hl hl''
  have hlt2 : li < set1.lines.length := by
    have := lt_of_getElem?_some hl
    omega
  obtain ⟨l', hl'⟩ := getElem?_exists_of_lt hlt2
  exact CacheLine.evolves_trans (e1 li l l' hl hl') (e2 li l' l'' hl' hl'')

theorem SetsEvolve.store {cs : List CacheSet} {idx li : Nat} {set : CacheSet} {line' : CacheLine}
    (hset : cs[idx]? = some set) (hev : ∀ l, set.lines[li]? = some l → l.evolves line') :
    SetsEvolve cs (cs.set idx (set.setLine li line')) := by
  refine ⟨List.length_set _ _ _, ?_⟩
  intro k s1 s2 h1 h2
  rw [List.getElem?_set] at h2
  by_cases hk : idx = k
  · subst hk
    rw [if_pos rfl] at h2
    rw [hset] at h1
    cases h1
    split at h2
    · cases h2
      refine ⟨by simp [CacheSet.setLine], ?_⟩
      intro j l l' h3 h4
      simp only [CacheSet.setLine, List.getElem?_set] at h4
      by_cases hj : li = j
      · subst hj
        rw [if_pos rfl] at h4
        split at h4
        · cases h4
          exact hev l h3
        · cases h4
      · rw [if_neg hj, h3] at h4
        cases h4
        exact CacheLine.evolves_refl _
    · cases h2
  · rw [if_neg hk, h1] at h2
    cases h2
    refine ⟨rfl, ?_⟩
    intro j l l' h3 h4
    rw [h3] at h4
    cases h4
    exact CacheLine.evolves_refl _

theorem Cache.Evolves.cache_refl (c : Cache) : c.Evolves c :=
  ⟨rfl, rfl, rfl, rfl, SetsEvolve.sets_refl _⟩

theorem Cache.Evolves.cache_trans {a b c : Cache} (h1 : a.Evolves b) (h2 : b.Evolves c) :
    a.Evolves c := by
  obtain ⟨a1, a2, a3, a4, a5⟩ := h1
  obtain ⟨b1, b2, b3, b4, b5⟩ := h2
  exact ⟨b1.trans a1, b2.trans a2, b3.trans a3, b4.trans a4, a5.sets_trans b5⟩

theorem Cache.evolves_setLine {c : Cache} {idx li : Nat} {set : CacheSet} {line' : CacheLine}
    (hset : c.cache_sets[idx]? = some set) (hev : ∀ l, set.lines[li]? = some l → l.evolves line') :
    c.Evolves (c.setLine idx set li line') :=
  ⟨rfl, rfl, rfl, rfl, SetsEvolve.store hset hev⟩

theorem Cache.Evolves.cache_wf {c c' : Cache} (h : c.Evolves c') (hw : c.wf) : c'.wf := by
  obtain ⟨_, hs, _, _, hlen, hsets⟩ := h
  refine ⟨by rw [hlen, hs]; exact hw.1, ?_⟩
  intro set' hmem
  obtain ⟨k, hk⟩ := List.getElem?_of_mem hmem
  have hlt : k < c.cache_sets.length := by
    have := lt_of_getElem?_some hk
    omega
  obtain ⟨set, hset⟩ := getElem?_exists_of_lt hlt
  rw [(hsets k set set' hset hk).1]
  exact hw.2 set (List.getElem?_mem hset)

theorem Cache.Evolves.cache_linesOk {c c' : Cache} (h : c.Evolves c') (hok : c.linesOk) :
    c'.linesOk := by
  obtain ⟨_, _, _, _, hlen, hsets⟩ := h
  intro set' hmem l' hl'
  obtain ⟨k, hk⟩ := List.getElem?_of_mem hmem
  have hlt : k < c.cache_sets.length := by
    have := lt_of_getElem?_some hk
    omega
  obtain ⟨set, hset⟩ := getElem?_exists_of_lt hlt
  obtain ⟨hl, hlines⟩ := hsets k set set' hset hk
  obtain ⟨j, hj⟩ := List.getElem?_of_mem hl'
  have hlt2 : j < set.lines.length := by
    have := lt_of_getElem?_some hj
    omega
  obtain ⟨l, hl0⟩ := getElem?_exists_of_lt hlt2
  exact (hlines j l l' hl0 hj).2 (hok set (List.getElem?_mem hset) l (List.getElem?_mem hl0))

theorem Cache.set_idx_lt (c : Cache) (addr : Nat) :
    (c.extractAddressFields addr).2.1 < 1 <<< c.s_bits := by
  have h1 : (c.extractAddressFields addr).2.1 ≤ (1 <<< c.s_bits) - 1 := Nat.and_le_right
  have h2 : 0 < 1 <<< c.s_bits := by
    rw [Nat.one_shiftLeft]
    exact Nat.pos_pow_of_pos _ (by decide)
  omega

theorem Cache.wf_set {c : Cache} (hw : c.wf) (addr : Nat) :
    ∃ set, c.cache_sets[(c.extractAddressFields addr).2.1]? = some set ∧ 0 < set.lines.length := by
  have h := c.set_idx_lt addr
  rw [← hw.1] at h
  obtain ⟨set, hset⟩ := getElem?_exists_of_lt h
  exact ⟨set, hset, hw.2 set (List.getElem?_mem hset)⟩

theorem CacheSet.findLine_some {set : CacheSet} {tag li : Nat} {line : CacheLine}
    (h : set.findLine tag = some (li, line)) :
    set.lines[li]? = some line ∧ line.valid = true ∧ line.tag = tag :=
  findLineFrom_some h

theorem Cache.busRead_evolves {c c' : Cache} {bus bus' : Bus} {addr d : Nat}
    (h : c.busRead bus addr = some (c', bus', d)) :
    c.Evolves c' ∧ bus'.invalidations = bus.invalidations := by
  unfold Cache.busRead at h
  split at h
  · cases h
  · rename_i set hset
    split at h
    · cases h
      exact ⟨Cache.Evolves.cache_refl _, rfl⟩
    · rename_i li line hfind
      obtain ⟨hline, hvalid, _⟩ := CacheSet.findLine_some hfind
      split at h
      · split at h <;> rename_i hst
        · cases h
          refine ⟨Cache.evolves_setLine hset ?_, rfl⟩
          intro l hl
          rw [hline] at hl
          cases hl
          refine ⟨fun hv => hv, fun _ => ⟨?_, ?_⟩⟩
          · intro hv
            simp [hvalid] at hv
          · simp
        · cases h
          refine ⟨Cache.evolves_setLine hset ?_, rfl⟩
          intro l hl
          rw [hline] at hl
          cases hl
          refine ⟨fun hv => hv, fun hok => ⟨?_, ?_⟩⟩
          · intro hv
            simp [hvalid] at hv
          · have := hok.2
            rw [hst] at this
            simpa using this
        · cases h
          exact ⟨Cache.Evolves.cache_refl _, rfl⟩
        · cases h
          exact ⟨Cache.Evolves.cache_refl _, rfl⟩
      · cases h
        exact ⟨Cache.Evolves.cache_refl _, rfl⟩

theorem Cache.busRead_total {c : Cache} (hw : c.wf) (bus : Bus) (addr : Nat) :
    ∃ r, c.busRead bus addr = some r := by
  obtain ⟨set, hset, _⟩ := Cache.wf_set hw addr
  unfold Cache.busRead
  rw [hset]
  dsimp only
  split
  · exact ⟨_, rfl⟩
  · split
    · split <;> exact ⟨_, rfl⟩
    · exact ⟨_, rfl⟩

theorem Cache.busWrite_evolves {c c' : Cache} {bus bus' : Bus} {addr : Nat}
    (h : c.busWrite bus addr = some (c', bus')) :
    c.Evolves c' ∧ bus'.data_traffic_bytes = bus.data_traffic_bytes := by
  unfold Cache.busWrite at h
  split at h
  · cases h
  · rename_i set hset
    split at h
    · cases h
      exact ⟨Cache.Evolves.cache_refl _, rfl⟩
    · rename_i li line hfind
      obtain ⟨hline, hvalid, _⟩ := CacheSet.findLine_some hfind
      split at h
      · rename_i hc
        cases h
        refine ⟨Cache.evolves_setLine hset ?_, rfl⟩
        intro l hl
        rw [hline] at hl
        cases hl
        refine ⟨fun hv => hv, fun hok => ⟨fun _ => rfl, ?_⟩⟩
        have h2 := hok.2
        simp only [Bool.and_eq_true, Bool.or_eq_true, beq_iff_eq] at hc
        rcases hc.2 with hs | hs <;> rw [hs] at h2 <;> simpa using h2
      · cases h
        exact ⟨Cache.Evolves.cache_refl _, rfl⟩

theorem Cache.busWrite_total {c : Cache} (hw : c.wf) (bus : Bus) (addr : Nat) :
    ∃ r, c.busWrite bus addr = some r := by
  obtain ⟨set, hset, _⟩ := Cache.wf_set hw addr
  unfold Cache.busWrite
  rw [hset]
  dsimp only
  split
  · exact ⟨_, rfl⟩
  · split <;> exact ⟨_, rfl⟩

theorem Cache.busUpgrade_evolves {c c' : Cache} {bus bus' : Bus} {addr : Nat}
    (h : c.busUpgrade bus addr = some (c', bus')) :
    c.Evolves c' ∧ bus'.data_traffic_bytes = bus.data_traffic_bytes := by
  unfold Cache.busUpgrade at h
  split at h
  · cases h
  · rename_i set hset
    split at h
    · cases h
      exact ⟨Cache.Evolves.cache_refl _, rfl⟩
    · rename_i li line hfind
      obtain ⟨hline, hvalid, _⟩ := CacheSet.findLine_some hfind
      split at h
      · rename_i hc
        cases h
        refine ⟨Cache.evolves_setLine hset ?_, rfl⟩
        intro l hl
        rw [hline] at hl
        cases hl
        refine ⟨fun hv => hv, fun hok => ⟨fun _ => rfl, ?_⟩⟩
        have h2 := hok.2
        simp only [Bool.and_eq_true, beq_iff_eq] at hc
        rw [hc.2] at h2
        simpa using h2
      · cases h
        exact ⟨Cache.Evolves.cache_refl _, rfl⟩

theorem Cache.busUpgrade_total {c : Cache} (hw : c.wf) (bus : Bus) (addr : Nat) :
    ∃ r, c.busUpgrade bus addr = some r := by
  obtain ⟨set, hset, _⟩ := Cache.wf_set hw addr
  unfold Cache.busUpgrade
  rw [hset]
  dsimp only
  split
  · exact ⟨_, rfl⟩
  · split <;> exact ⟨_, rfl⟩

theorem CachesEvolve.refl (cs : List Cache) : CachesEvolve cs cs := by
  refine ⟨rfl, ?_⟩
  intro k c c' h1 h2
  rw [h1] at h2
  cases h2
  exact Cache.Evolves.cache_refl _

theorem CachesEvolve.trans {a b c : List Cache} (h1 : CachesEvolve a b) (h2 : CachesEvolve b c) :
    CachesEvolve a c := by
  refine ⟨h2.1.trans h1.1, ?_⟩
  intro k x z hx hz
  have hlt : k < b.length := by
    have := lt_of_getElem?_some hx
    have := h1.1
    omega
  obtain ⟨y, hy⟩ := getElem?_exists_of_lt hlt
  exact (h1.2 k x y hx hy).cache_trans (h2.2 k y z hy hz)

theorem CachesEvolve.set {cs : List Cache} {i : Nat} {c' : Cache}
    (h : ∀ c, cs[i]? = some c → c.Evolves c') : CachesEvolve cs (cs.set i c') := by
  refine ⟨List.length_set _ _ _, ?_⟩
  intro k x y hx hy
  rw [List.getElem?_set] at hy
  by_cases hk : i = k
  · subst hk
    rw [if_pos rfl] at hy
    split at hy
    · cases hy
      exact h x hx
    · cases hy
  · rw [if_neg hk, hx] at hy
    cases hy
    exact Cache.Evolves.cache_refl _

theorem CachesEvolve.map {cs : List Cache} {g : Cache → Cache} (h : ∀ c : Cache, c.Evolves (g c)) :
    CachesEvolve cs (cs.map g) := by
  refine ⟨List.length_map _ _, ?_⟩
  intro k x y hx hy
  rw [List.getElem?_map, hx] at hy
  cases hy
  exact h x

theorem CachesEvolve.wf {cs cs' : List Cache} (h : CachesEvolve cs cs')
    (hw : ∀ c ∈ cs, c.wf ∧ c.core_id < cs.length) : ∀ c ∈ cs', c.wf ∧ c.core_id < cs'.length := by
  intro c' hmem
  obtain ⟨k, hk⟩ := List.getElem?_of_mem hmem
  have hlt : k < cs.length := by
    have := lt_of_getElem?_some hk
    have := h.1
    omega
  obtain ⟨c, hc⟩ := getElem?_exists_of_lt hlt
  have hev := h.2 k c c' hc hk
  have := hw c (List.getElem?_mem hc)
  refine ⟨hev.cache_wf this.1, ?_⟩
  rw [hev.1, h.1]
  exact this.2

theorem CachesEvolve.linesOk {cs cs' : List Cache} (h : CachesEvolve cs cs')
    (hok : ∀ c ∈ cs, c.linesOk) : ∀ c ∈ cs', c.linesOk := by
  intro c' hmem
  obtain ⟨k, hk⟩ := List.getElem?_of_mem hmem
  have hlt : k < cs.length := by
    have := lt_of_getElem?_some hk
    have := h.1
    omega
  obtain ⟨c, hc⟩ := getElem?_exists_of_lt hlt
  exact (h.2 k c c' hc hk).cache_linesOk (hok c (List.getElem?_mem hc))

/-- The result of `busRead` on the cache and the reported cycles do not depend
on the bus counters. -/
theorem Cache.busRead_indep {c c' : Cache} {bus bus' : Bus} {addr d : Nat}
    (h : c.busRead bus addr = some (c', bus', d)) :
    c.afterBusRead addr = c' ∧ c.snoopCycles addr = d := by
  unfold Cache.busRead at h
  split at h
  · cases h
  · rename_i set hset
    split at h
    · rename_i hfind
      cases h
      simp [Cache.afterBusRead, Cache.snoopCycles, Cache.busRead, hset, hfind]
    · rename_i li line hfind
      have hv := (CacheSet.findLine_some hfind).2.1
      split at h
      · rename_i hc
        split at h <;> rename_i hst <;> cases h <;>
          simp [Cache.afterBusRead, Cache.snoopCycles, Cache.busRead, hset, hfind, hv, hst]
      · rename_i hc
        cases h
        simp only [hv, Bool.true_and] at hc
        simp [Cache.afterBusRead, Cache.snoopCycles, Cache.busRead, hset, hfind, hv, hc]

theorem Cache.afterBusRead_evolves (c : Cache) (addr : Nat) : c.Evolves (c.afterBusRead addr) := by
  cases h : c.busRead { invalidations := 0, data_traffic_bytes := 0 } addr with
  | none =>
    unfold Cache.afterBusRead
    rw [h]
    exact Cache.Evolves.cache_refl _
  | some r =>
    obtain ⟨c1, b1, d⟩ := r
    rw [(Cache.busRead_indep h).1]
    exact (Cache.busRead_evolves h).1

/-- A snoop read on a cache that does not hold the block changes nothing. -/
theorem Cache.busRead_of_not_hit {c c' : Cache} {bus bus' : Bus} {addr d : Nat}
    (hh : c.hit addr = false) (h : c.busRead bus addr = some (c', bus', d)) :
    c' = c ∧ bus' = bus ∧ d = 0 := by
  unfold Cache.hit Cache.findLine at hh
  unfold Cache.busRead at h
  split at h
  · cases h
  · rename_i set hset
    rw [hset] at hh
    dsimp only at hh
    split at h
    · cases h
      exact ⟨rfl, rfl, rfl⟩
    · rename_i li line hfind
      rw [hfind] at hh
      dsimp only at hh
      rw [if_neg (by simp [hh])] at h
      cases h
      exact ⟨rfl, rfl, rfl⟩

/-- Full description of the snoop-read loop. -/
theorem Bus.readPhase_spec (n rid addr : Nat) :
    ∀ (cs : List Cache) (bus : Bus) (found : Bool) (mx : Nat)
      {cs' : List Cache} {bus' : Bus} {f : Bool} {m : Nat},
      Bus.readPhase n rid addr cs bus found mx = some (cs', bus', f, m) →
      cs' = cs.map (fun c => if c.core_id != rid then c.afterBusRead addr else c) ∧
      f = (found || ((cs.filter (fun c => c.core_id != rid)).map
            (fun c => c.snoopCycles addr)).any (fun d => decide (d > 0))) ∧
      m = ((cs.filter (fun c => c.core_id != rid)).map
            (fun c => c.snoopCycles addr)).foldl max mx ∧
      bus'.invalidations = bus.invalidations := by
  intro cs
  induction cs with
  | nil =>
    intro bus found mx cs' bus' f m h
    simp only [Bus.readPhase, Option.some.injEq, Prod.mk.injEq] at h
    obtain ⟨rfl, rfl, rfl, rfl⟩ := h
    simp
  | cons c cs ih =>
    intro bus found mx cs' bus' f m h
    unfold Bus.readPhase at h
    split at h
    · rename_i hpeer
      split at h
      · cases h
      · split at h
        · cases h
        · rename_i c1 bus1 dtc hbr
          split at h
          · cases h
          · rename_i cs1 bus2 f1 m1 hrec
            cases h
            obtain ⟨e1, e2, e3, e4⟩ := ih _ _ _ hrec
            obtain ⟨i1, i2⟩ := Cache.busRead_indep hbr
            have hb := (Cache.busRead_evolves hbr).2
            have hne : c.core_id ≠ rid := by simpa using hpeer
            refine ⟨?_, ?_, ?_, ?_⟩
            · simp [hne, i1, e1]
            · rw [e2]
              simp only [List.filter_cons, hpeer, if_true, List.map_cons, List.any_cons, i2]
              by_cases hd : dtc > 0 <;> simp [hd]
            · rw [e3]
              simp only [List.filter_cons, hpeer, if_true, List.map_cons, List.foldl_cons, i2]
              by_cases hd : dtc > 0
              · simp [hd]
              · have : dtc = 0 := by omega
                subst this
                simp
            · rw [e4, hb]
    · rename_i hpeer
      split at h
      · cases h
      · rename_i cs1 bus2 f1 m1 hrec
        cases h
        obtain ⟨e1, e2, e3, e4⟩ := ih _ _ _ hrec
        have heq : c.core_id = rid := by simpa using hpeer
        refine ⟨?_, ?_, ?_, e4⟩
        · simp [heq, e1]
        · rw [e2]
          simp [List.filter_cons, heq]
        · rw [e3]
          simp [List.filter_cons, heq]

theorem Bus.readPhase_total (n rid addr : Nat) (hr : rid < n) :
    ∀ (cs : List Cache) (bus : Bus) (found : Bool) (mx : Nat), (∀ c ∈ cs, c.wf) →
      ∃ r, Bus.readPhase n rid addr cs bus found mx = some r := by
  intro cs
  induction cs with
  | nil =>
    intro bus found mx _
    exact ⟨_, rfl⟩
  | cons c cs ih =>
    intro bus found mx hw
    have hwc : c.wf := hw c (List.mem_cons_self _ _)
    have hwr : ∀ x ∈ cs, x.wf := fun x hx => hw x (List.mem_cons_of_mem _ hx)
    unfold Bus.readPhase
    split
    · rw [if_neg (by omega)]
      obtain ⟨⟨c1, bus1, dtc⟩, hbr⟩ := Cache.busRead_total hwc bus addr
      rw [hbr]
      dsimp only
      obtain ⟨⟨cs1, bus2, f, m⟩, hrec⟩ := ih bus1 (if dtc > 0 then true else found)
        (if dtc > 0 then max mx dtc else mx) hwr
      rw [hrec]
      exact ⟨_, rfl⟩
    · obtain ⟨⟨cs1, bus2, f, m⟩, hrec⟩ := ih bus found mx hwr
      rw [hrec]
      exact ⟨_, rfl⟩

/-- When no peer holds the block, the snoop-read loop changes nothing. -/
theorem Bus.readPhase_no_peer (n rid addr : Nat) :
    ∀ (cs : List Cache) (bus : Bus) (found : Bool) (mx : Nat)
      {cs' : List Cache} {bus' : Bus} {f : Bool} {m : Nat},
      (∀ c ∈ cs, c.core_id ≠ rid → c.hit addr = false) →
      Bus.readPhase n rid addr cs bus found mx = some (cs', bus', f, m) →
      cs' = cs ∧ bus' = bus ∧ f = found ∧ m = mx := by
  intro cs
  induction cs with
  | nil =>
    intro bus found mx cs' bus' f m _ h
    simp only [Bus.readPhase, Option.some.injEq, Prod.mk.injEq] at h
    obtain ⟨rfl, rfl, rfl, rfl⟩ := h
    exact ⟨rfl, rfl, rfl, rfl⟩
  | cons c cs ih =>
    intro bus found mx cs' bus' f m hno h
    have hnr : ∀ x ∈ cs, x.core_id ≠ rid → x.hit addr = false :=
      fun x hx => hno x (List.mem_cons_of_mem _ hx)
    unfold Bus.readPhase at h
    split at h
    · rename_i hpeer
      split at h
      · cases h
      · split at h
        · cases h
        · rename_i c1 bus1 dtc hbr
          have hne : c.core_id ≠ rid := by simpa using hpeer
          obtain ⟨rfl, rfl, rfl⟩ :=
            Cache.busRead_of_not_hit (hno c (List.mem_cons_self _ _) hne) hbr
          split at h
          · cases h
          · rename_i cs1 bus2 f1 m1 hrec
            cases h
            simp only [gt_iff_lt, Nat.lt_irrefl, if_false] at hrec
            obtain ⟨rfl, rfl, rfl, rfl⟩ := ih _ _ _ hnr hrec
            exact ⟨rfl, rfl, rfl, rfl⟩
    · split at h
      · cases h
      · rename_i cs1 bus2 f1 m1 hrec
        cases h
        obtain ⟨rfl, rfl, rfl, rfl⟩ := ih _ _ _ hnr hrec
        exact ⟨rfl, rfl, rfl, rfl⟩

theorem Cache.busWrite_indep {c c' : Cache} {bus bus' : Bus} {addr : Nat}
    (h : c.busWrite bus addr = some (c', bus')) : c.afterBusWrite addr = c' := by
  unfold Cache.busWrite at h
  split at h
  · cases h
  · rename_i set hset
    split at h
    · rename_i hfind
      cases h
      simp [Cache.afterBusWrite, Cache.busWrite, hset, hfind]
    · rename_i li line hfind
      split at h
      · rename_i hc
        cases h
        simp [Cache.afterBusWrite, Cache.busWrite, hset, hfind, hc]
      · rename_i hc
        cases h
        simp [Cache.afterBusWrite, Cache.busWrite, hset, hfind, hc]

theorem Cache.busUpgrade_indep {c c' : Cache} {bus bus' : Bus} {addr : Nat}
    (h : c.busUpgrade bus addr = some (c', bus')) : c.afterBusUpgrade addr = c' := by
  unfold Cache.busUpgrade at h
  split at h
  · cases h
  · rename_i set hset
    split at h
    · rename_i hfind
      cases h
      simp [Cache.afterBusUpgrade, Cache.busUpgrade, hset, hfind]
    · rename_i li line hfind
      split at h
      · rename_i hc
        cases h
        simp [Cache.afterBusUpgrade, Cache.busUpgrade, hset, hfind, hc]
      · rename_i hc
        cases h
        simp [Cache.afterBusUpgrade, Cache.busUpgrade, hset, hfind, hc]

theorem Cache.afterBusWrite_evolves (c : Cache) (addr : Nat) :
    c.Evolves (c.afterBusWrite addr) := by
  cases h : c.busWrite { invalidations := 0, data_traffic_bytes := 0 } addr with
  | none =>
    unfold Cache.afterBusWrite
    rw [h]
    exact Cache.Evolves.cache_refl _
  | some r =>
    obtain ⟨c1, b1⟩ := r
    rw [Cache.busWrite_indep h]
    exact (Cache.busWrite_evolves h).1

theorem Cache.afterBusUpgrade_evolves (c : Cache) (addr : Nat) :
    c.Evolves (c.afterBusUpgrade addr) := by
  cases h : c.busUpgrade { invalidations := 0, data_traffic_bytes := 0 } addr with
  | none =>
    unfold Cache.afterBusUpgrade
    rw [h]
    exact Cache.Evolves.cache_refl _
  | some r =>
    obtain ⟨c1, b1⟩ := r
    rw [Cache.busUpgrade_indep h]
    exact (Cache.busUpgrade_evolves h).1

/-- Full description of the invalidation loop of `processWrite`. -/
theorem Bus.writePhase_spec (n rid addr : Nat) :
    ∀ (cs : List Cache) (bus : Bus) (cnt : Nat) {cs' : List Cache} {bus' : Bus} {k : Nat},
      Bus.writePhase n rid addr cs bus cnt = some (cs', bus', k) →
      cs' = cs.map (fun c => if c.core_id != rid then c.afterBusWrite addr else c) ∧
      k = cnt + (cs.filter (fun c => c.core_id != rid)).length ∧
      bus'.data_traffic_bytes = bus.data_traffic_bytes := by
  intro cs
  induction cs with
  | nil =>
    intro bus cnt cs' bus' k h
    simp only [Bus.writePhase, Option.some.injEq, Prod.mk.injEq] at h
    obtain ⟨rfl, rfl, rfl⟩ := h
    simp
  | cons c cs ih =>
    intro bus cnt cs' bus' k h
    unfold Bus.writePhase at h
    split at h
    · rename_i hpeer
      split at h
      · cases h
      · split at h
        · cases h
        · rename_i c1 bus1 hbw
          split at h
          · cases h
          · rename_i cs1 bus2 k1 hrec
            cases h
            obtain ⟨e1, e2, e3⟩ := ih _ _ hrec
            have i1 := Cache.busWrite_indep hbw
            have hb := (Cache.busWrite_evolves hbw).2
            have hne : c.core_id ≠ rid := by simpa using hpeer
            refine ⟨?_, ?_, ?_⟩
            · simp [hne, i1, e1]
            · rw [e2]
              simp only [List.filter_cons, hpeer, if_true, List.length_cons]
              omega
            · rw [e3, hb]
    · rename_i hpeer
      split at h
      · cases h
      · rename_i cs1 bus2 k1 hrec
        cases h
        obtain ⟨e1, e2, e3⟩ := ih _ _ hrec
        have heq : c.core_id = rid := by simpa using hpeer
        refine ⟨?_, ?_, e3⟩
        · simp [heq, e1]
        · rw [e2]
          simp [List.filter_cons, heq]

theorem Bus.writePhase_total (n rid addr : Nat) (hr : rid < n) :
    ∀ (cs : List Cache) (bus : Bus) (cnt : Nat), (∀ c ∈ cs, c.wf) →
      ∃ r, Bus.writePhase n rid addr cs bus cnt = some r := by
  intro cs
  induction cs with
  | nil =>
    intro bus cnt _
    exact ⟨_, rfl⟩
  | cons c cs ih =>
    intro bus cnt hw
    have hwc : c.wf := hw c (List.mem_cons_self _ _)
    have hwr : ∀ x ∈ cs, x.wf := fun x hx => hw x (List.mem_cons_of_mem _ hx)
    unfold Bus.writePhase
    split
    · rw [if_neg (by omega)]
      obtain ⟨⟨c1, bus1⟩, hbw⟩ := Cache.busWrite_total hwc bus addr
      rw [hbw]
      dsimp only
      obtain ⟨⟨cs1, bus2, k⟩, hrec⟩ := ih bus1 (cnt + 1) hwr
      rw [hrec]
      exact ⟨_, rfl⟩
    · obtain ⟨⟨cs1, bus2, k⟩, hrec⟩ := ih bus cnt hwr
      rw [hrec]
      exact ⟨_, rfl⟩

/-- Full description of the loop of `processUpgrade`. -/
theorem Bus.upgradePhase_spec (rid addr : Nat) :
    ∀ (cs : List Cache) (bus : Bus) (cnt : Nat) {cs' : List Cache} {bus' : Bus} {k : Nat},
      Bus.upgradePhase rid addr cs bus cnt = some (cs', bus', k) →
      cs' = cs.map (fun c => if c.core_id != rid then c.afterBusUpgrade addr else c) ∧
      k = cnt + (cs.filter (fun c => c.core_id != rid)).length ∧
      bus'.data_traffic_bytes = bus.data_traffic_bytes := by
  intro cs
  induction cs with
  | nil =>
    intro bus cnt cs' bus' k h
    simp only [Bus.upgradePhase, Option.some.injEq, Prod.mk.injEq] at h
    obtain ⟨rfl, rfl, rfl⟩ := h
    simp
  | cons c cs ih =>
    intro bus cnt cs' bus' k h
    unfold Bus.upgradePhase at h
    split at h
    · rename_i hpeer
      split at h
      · cases h
      · rename_i c1 bus1 hbw
        split at h
        · cases h
        · rename_i cs1 bus2 k1 hrec
          cases h
          obtain ⟨e1, e2, e3⟩ := ih _ _ hrec
          have i1 := Cache.busUpgrade_indep hbw
          have hb := (Cache.busUpgrade_evolves hbw).2
          have hne : c.core_id ≠ rid := by simpa using hpeer
          refine ⟨?_, ?_, ?_⟩
          · simp [hne, i1, e1]
          · rw [e2]
            simp only [List.filter_cons, hpeer, if_true, List.length_cons]
            omega
          · rw [e3, hb]
    · rename_i hpeer
      split at h
      · cases h
      · rename_i cs1 bus2 k1 hrec
        cases h
        obtain ⟨e1, e2, e3⟩ := ih _ _ hrec
        have heq : c.core_id = rid := by simpa using hpeer
        refine ⟨?_, ?_, e3⟩
        · simp [heq, e1]
        · rw [e2]
          simp [List.filter_cons, heq]

theorem Bus.upgradePhase_total (rid addr : Nat) :
    ∀ (cs : List Cache) (bus : Bus) (cnt : Nat), (∀ c ∈ cs, c.wf) →
      ∃ r, Bus.upgradePhase rid addr cs bus cnt = some r := by
  intro cs
  induction cs with
  | nil =>
    intro bus cnt _
    exact ⟨_, rfl⟩
  | cons c cs ih =>
    intro bus cnt hw
    have hwc : c.wf := hw c (List.mem_cons_self _ _)
    have hwr : ∀ x ∈ cs, x.wf := fun x hx => hw x (List.mem_cons_of_mem _ hx)
    unfold Bus.upgradePhase
    split
    · obtain ⟨⟨c1, bus1⟩, hbw⟩ := Cache.busUpgrade_total hwc bus addr
      rw [hbw]
      dsimp only
      obtain ⟨⟨cs1, bus2, k⟩, hrec⟩ := ih bus1 (cnt + 1) hwr
      rw [hrec]
      exact ⟨_, rfl⟩
    · obtain ⟨⟨cs1, bus2, k⟩, hrec⟩ := ih bus cnt hwr
      rw [hrec]
      exact ⟨_, rfl⟩

theorem peerMap_getElem? {cs : List Cache} {g : Cache → Cache} {rid k : Nat} {c : Cache}
    (hc : cs[k]? = some c) (hid : c.core_id = rid) :
    (cs.map (fun x => if x.core_id != rid then g x else x))[k]? = some c := by
  rw [List.getElem?_map, hc]
  simp [hid]

theorem peerMap_evolves {cs : List Cache} {g : Cache → Cache} {rid : Nat}
    (h : ∀ c : Cache, c.Evolves (g c)) :
    CachesEvolve cs (cs.map (fun x => if x.core_id != rid then g x else x)) := by
  apply CachesEvolve.map
  intro c
  split
  · exact h c
  · exact Cache.Evolves.cache_refl _

theorem Bus.processRead_spec {sys sys' : System} {rid addr cyc : Nat}
    (h : Bus.processRead sys rid addr = some (sys', cyc)) :
    sys'.caches = sys.caches.map (fun c => if c.core_id != rid then c.afterBusRead addr else c) ∧
    sys'.bus.invalidations = sys.bus.invalidations ∧
    cyc = (if (sys.peerCycles rid addr).any (fun d => decide (d > 0)) then
             (sys.peerCycles rid addr).foldl max 0 else 100) := by
  unfold Bus.processRead at h
  split at h
  · cases h
  · rename_i cs bus found mx hph
    cases h
    obtain ⟨e1, e2, e3, e4⟩ := Bus.readPhase_spec _ _ _ _ _ _ _ hph
    refine ⟨e1, e4, ?_⟩
    simp only [Bool.false_or] at e2
    simp only [System.peerCycles, System.peers]
    rw [← e2, ← e3]

theorem Bus.processRead_total {sys : System} (hw : sys.wf) {rid : Nat}
    (hr : rid < sys.caches.length) (addr : Nat) : ∃ r, Bus.processRead sys rid addr = some r := by
  obtain ⟨⟨cs, bus, f, m⟩, h⟩ := Bus.readPhase_total sys.caches.length rid addr hr sys.caches
    sys.bus false 0 (fun c hc => (hw c hc).1)
  unfold Bus.processRead
  rw [h]
  exact ⟨_, rfl⟩

theorem Bus.processRead_no_peer {sys sys' : System} {rid addr cyc : Nat}
    (hno : ∀ c ∈ sys.caches, c.core_id ≠ rid → c.hit addr = false)
    (h : Bus.processRead sys rid addr = some (sys', cyc)) : sys' = sys ∧ cyc = 100 := by
  unfold Bus.processRead at h
  split at h
  · cases h
  · rename_i cs bus found mx hph
    cases h
    obtain ⟨rfl, rfl, rfl, rfl⟩ := Bus.readPhase_no_peer _ _ _ _ _ _ _ hno hph
    exact ⟨rfl, rfl⟩

theorem Bus.processWrite_spec {sys sys' : System} {rid addr cyc : Nat}
    (h : Bus.processWrite sys rid addr = some (sys', cyc)) :
    sys'.caches = (sys.caches.map
        (fun c => if c.core_id != rid then c.afterBusRead addr else c)).map
        (fun c => if c.core_id != rid then c.afterBusWrite addr else c) ∧
    cyc = (if (sys.peerCycles rid addr).any (fun d => decide (d > 0)) then
             (sys.peerCycles rid addr).foldl max 0 else 100) := by
  unfold Bus.processWrite at h
  split at h
  · cases h
  · rename_i cs bus found mx hph
    split at h
    · cases h
    · rename_i cs1 bus1 cnt hwp
      cases h
      obtain ⟨e1, e2, e3, e4⟩ := Bus.readPhase_spec _ _ _ _ _ _ _ hph
      obtain ⟨w1, _, _⟩ := Bus.writePhase_spec _ _ _ _ _ _ hwp
      refine ⟨by rw [w1, e1], ?_⟩
      simp only [Bool.false_or] at e2
      simp only [System.peerCycles, System.peers]
      rw [← e2, ← e3]

theorem Bus.processWrite_total {sys : System} (hw : sys.wf) {rid : Nat}
    (hr : rid < sys.caches.length) (addr : Nat) : ∃ r, Bus.processWrite sys rid addr = some r := by
  obtain ⟨⟨cs, bus, f, m⟩, h⟩ := Bus.readPhase_total sys.caches.length rid addr hr sys.caches
    sys.bus false 0 (fun c hc => (hw c hc).1)
  obtain ⟨e1, _⟩ := Bus.readPhase_spec _ _ _ _ _ _ _ h
  have hev : CachesEvolve sys.caches cs := by
    rw [e1]
    exact peerMap_evolves (fun c => c.afterBusRead_evolves addr)
  have hw2 := hev.wf hw
  obtain ⟨⟨cs1, bus1, k⟩, h2⟩ := Bus.writePhase_total sys.caches.length rid addr hr cs bus 0
    (fun c hc => (hw2 c hc).1)
  unfold Bus.processWrite
  rw [h]
  dsimp only
  rw [h2]
  exact ⟨_, rfl⟩

theorem Bus.processUpgrade_spec {sys sys' : System} {rid addr cyc : Nat}
    (h : Bus.processUpgrade sys rid addr = some (sys', cyc)) :
    sys'.caches = sys.caches.map
        (fun c => if c.core_id != rid then c.afterBusUpgrade addr else c) ∧
    sys'.bus.data_traffic_bytes = sys.bus.data_traffic_bytes ∧ cyc = 2 := by
  unfold Bus.processUpgrade at h
  split at h
  · cases h
  · rename_i cs bus cnt hph
    cases h
    obtain ⟨e1, _, e3⟩ := Bus.upgradePhase_spec _ _ _ _ _ hph
    exact ⟨e1, e3, rfl⟩

theorem Bus.processUpgrade_total {sys : System} (hw : sys.wf) (rid addr : Nat) :
    ∃ r, Bus.processUpgrade sys rid addr = some r := by
  obtain ⟨⟨cs, bus, k⟩, h⟩ := Bus.upgradePhase_total rid addr sys.caches sys.bus 0
    (fun c hc => (hw c hc).1)
  unfold Bus.processUpgrade
  rw [h]
  exact ⟨_, rfl⟩

theorem Bus.processRead_evolves {sys sys' : System} {rid addr cyc : Nat}
    (h : Bus.processRead sys rid addr = some (sys', cyc)) :
    CachesEvolve sys.caches sys'.caches := by
  rw [(Bus.processRead_spec h).1]
  exact peerMap_evolves (fun c => c.afterBusRead_evolves addr)

theorem Bus.processWrite_evolves {sys sys' : System} {rid addr cyc : Nat}
    (h : Bus.processWrite sys rid addr = some (sys', cyc)) :
    CachesEvolve sys.caches sys'.caches := by
  rw [(Bus.processWrite_spec h).1]
  exact (peerMap_evolves (fun c => c.afterBusRead_evolves addr)).trans
    (peerMap_evolves (fun c => c.afterBusWrite_evolves addr))

theorem Bus.processUpgrade_evolves {sys sys' : System} {rid addr cyc : Nat}
    (h : Bus.processUpgrade sys rid addr = some (sys', cyc)) :
    CachesEvolve sys.caches sys'.caches := by
  rw [(Bus.processUpgrade_spec h).1]
  exact peerMap_evolves (fun c => c.afterBusUpgrade_evolves addr)

theorem Bus.processRead_requester {sys sys' : System} {rid addr cyc k : Nat} {c : Cache}
    (h : Bus.processRead sys rid addr = some (sys', cyc))
    (hc : sys.caches[k]? = some c) (hid : c.core_id = rid) : sys'.caches[k]? = some c := by
  rw [(Bus.processRead_spec h).1]
  exact peerMap_getElem? hc hid

theorem Bus.processWrite_requester {sys sys' : System} {rid addr cyc k : Nat} {c : Cache}
    (h : Bus.processWrite sys rid addr = some (sys', cyc))
    (hc : sys.caches[k]? = some c) (hid : c.core_id = rid) : sys'.caches[k]? = some c := by
  rw [(Bus.processWrite_spec h).1]
  exact peerMap_getElem? (peerMap_getElem? hc hid) hid

theorem Bus.processUpgrade_requester {sys sys' : System} {rid addr cyc k : Nat} {c : Cache}
    (h : Bus.processUpgrade sys rid addr = some (sys', cyc))
    (hc : sys.caches[k]? = some c) (hid : c.core_id = rid) : sys'.caches[k]? = some c := by
  rw [(Bus.processUpgrade_spec h).1]
  exact peerMap_getElem? hc hid

theorem Cache.evolves_of_sets_eq {c c' : Cache} (h1 : c'.core_id = c.core_id)
    (h2 : c'.s_bits = c.s_bits) (h3 : c'.b_bits = c.b_bits) (h4 : c'.block_size = c.block_size)
    (h5 : c'.cache_sets = c.cache_sets) : c.Evolves c' :=
  ⟨h1, h2, h3, h4, h5 ▸ SetsEvolve.sets_refl _⟩

/-- Installing a consistent valid line. -/
theorem Cache.evolves_install {c c0 : Cache} {idx ri : Nat} {set : CacheSet} {line' : CacheLine}
    (h0 : c.Evolves c0) (hs : c0.cache_sets = c.cache_sets)
    (hset : c.cache_sets[idx]? = some set) (hv : line'.valid = true) (hok : line'.ok) :
    c.Evolves (c0.setLine idx set ri line') :=
  h0.cache_trans (Cache.evolves_setLine (hs ▸ hset) (fun _ _ => ⟨fun _ => hv, fun _ => hok⟩))

theorem Cache.missFill_evolves {c c4 : Cache} {tag idx : Nat} {cycle : Int} {bc cyc : Nat}
    {st : MESIState} {d : Bool} (hd : d = true ↔ st = MESIState.MODIFIED)
    (h : c.missFill tag idx cycle bc st d = some (c4, cyc)) : c.Evolves c4 := by
  unfold Cache.missFill at h
  split at h
  · cases h
  · rename_i set hset
    split at h
    · cases h
    · rename_i ri ev hrep
      cases h
      refine Cache.evolves_install ?_ ?_ hset rfl ⟨fun hv => by simp at hv, hd⟩
      · split_ifs <;> exact Cache.evolves_of_sets_eq rfl rfl rfl rfl rfl
      · split_ifs <;> rfl

/-- Explicit result of the miss tail on a non-empty set. -/
theorem Cache.missFill_spec (c : Cache) (tag idx : Nat) (cycle : Int) (bc : Nat)
    (st : MESIState) (d : Bool) {set : CacheSet}
    (hset : c.cache_sets[idx]? = some set) (hpos : 0 < set.lines.length) :
    ∃ ri ev old c4,
      set.findReplacementLine = some (ri, ev) ∧ set.lines[ri]? = some old ∧
      c.missFill tag idx cycle bc st d =
        some (c4, (if old.valid && old.dirty then 100 else 0) + (if bc > 0 then bc else 100)) ∧
      c4.cache_sets = c.cache_sets.set idx (set.setLine ri
        { valid := true, tag := tag, state := st, last_access := cycle, dirty := d }) ∧
      c4.core_id = c.core_id ∧
      c4.read_count = c.read_count ∧ c4.write_count = c.write_count ∧
      c4.read_misses = c.read_misses ∧ c4.write_misses = c.write_misses ∧
      c4.evictions = c.evictions + (if old.valid then 1 else 0) ∧
      c4.writebacks = c.writebacks + (if old.valid && old.dirty then 1 else 0) := by
  obtain ⟨ri, ev, hrep⟩ := findReplacementLine_total hpos
  obtain ⟨old, hold, h0, h1⟩ := findReplacementLine_spec hrep
  cases hv : old.valid with
  | false =>
    have hev := h0 hv
    subst hev
    refine ⟨ri, 0, old, c.setLine idx set ri
      { valid := true, tag := tag, state := st, last_access := cycle, dirty := d },
      hrep, hold, ?_, ?_⟩
    · simp [Cache.missFill, hset, hrep, hv]
    · simp [Cache.setLine, hv]
  | true =>
    cases hdy : old.dirty with
    | false =>
      have hev := h1 hv
      rw [hdy] at hev
      simp only [Bool.false_eq_true, if_false] at hev
      subst hev
      refine ⟨ri, 1, old, Cache.setLine { c with evictions := c.evictions + 1 } idx set ri
        { valid := true, tag := tag, state := st, last_access := cycle, dirty := d },
        hrep, hold, ?_, ?_⟩
      · simp [Cache.missFill, hset, hrep, hv, hdy]
      · simp [Cache.setLine, hv, hdy]
    | true =>
      have hev := h1 hv
      rw [hdy] at hev
      simp only [if_true] at hev
      subst hev
      refine ⟨ri, 2, old, Cache.setLine
        { c with evictions := c.evictions + 1, writebacks := c.writebacks + 1 } idx set ri
        { valid := true, tag := tag, state := st, last_access := cycle, dirty := d },
        hrep, hold, ?_, ?_⟩
      · simp [Cache.missFill, hset, hrep, hv, hdy]
      · simp [Cache.setLine, hv, hdy]

theorem System.setCache_getElem?_self {sys : System} {i : Nat} {c : Cache} (c' : Cache)
    (hc : sys.caches[i]? = some c) : (sys.setCache i c').caches[i]? = some c' := by
  unfold System.setCache
  simp only [List.getElem?_set, if_true]
  rw [if_pos (lt_of_getElem?_some hc)]

theorem System.setCache_evolves {sys : System} {i : Nat} {c' : Cache}
    (h : ∀ c, sys.caches[i]? = some c → c.Evolves c') :
    CachesEvolve sys.caches (sys.setCache i c').caches :=
  CachesEvolve.set h

theorem Cache.readMiss_evolves {sys sys' : System} {i addr cyc : Nat} {cycle : Int}
    {c c1 : Cache} {hit : Bool} (hc : sys.caches[i]? = some c) (h1 : c.Evolves c1)
    (h : Cache.readMiss sys i c1 addr cycle = some (sys', hit, cyc)) :
    CachesEvolve sys.caches sys'.caches := by
  unfold Cache.readMiss at h
  split at h
  · cases h
  · rename_i sys2 bus_cycles hpr
    split at h
    · cases h
    · rename_i c3 hc3
      split at h
      · cases h
      · rename_i c4 cycles_taken hmf
        cases h
        have e1 : CachesEvolve sys.caches
            (sys.setCache i { c1 with read_misses := c1.read_misses + 1 }).caches := by
          apply System.setCache_evolves
          intro x hx
          rw [hc] at hx
          cases hx
          exact h1.cache_trans (Cache.evolves_of_sets_eq rfl rfl rfl rfl rfl)
        have e2 := Bus.processRead_evolves hpr
        have e3 : CachesEvolve sys2.caches (sys2.setCache i c4).caches := by
          apply System.setCache_evolves
          intro x hx
          rw [hc3] at hx
          cases hx
          exact Cache.missFill_evolves (by simp) hmf
        exact (e1.trans e2).trans e3

theorem Cache.writeMiss_evolves {sys sys' : System} {i addr cyc : Nat} {cycle : Int}
    {c c1 : Cache} {hit : Bool} (hc : sys.caches[i]? = some c) (h1 : c.Evolves c1)
    (h : Cache.writeMiss sys i c1 addr cycle = some (sys', hit, cyc)) :
    CachesEvolve sys.caches sys'.caches := by
  unfold Cache.writeMiss at h
  split at h
  · cases h
  · rename_i sys2 bus_cycles hpr
    split at h
    · cases h
    · rename_i c3 hc3
      split at h
      · cases h
      · rename_i c4 cycles_taken hmf
        cases h
        have e1 : CachesEvolve sys.caches
            (sys.setCache i { c1 with write_misses := c1.write_misses + 1 }).caches := by
          apply System.setCache_evolves
          intro x hx
          rw [hc] at hx
          cases hx
          exact h1.cache_trans (Cache.evolves_of_sets_eq rfl rfl rfl rfl rfl)
        have e2 := Bus.processWrite_evolves hpr
        have e3 : CachesEvolve sys2.caches (sys2.setCache i c4).caches := by
          apply System.setCache_evolves
          intro x hx
          rw [hc3] at hx
          cases hx
          exact Cache.missFill_evolves (by simp) hmf
        exact (e1.trans e2).trans e3

theorem Cache.writeSharedHit_evolves {sys sys' : System} {i set_idx li addr cyc : Nat}
    {c c2 : Cache} {hit : Bool} (hc : sys.caches[i]? = some c) (h1 : c.Evolves c2)
    (hvalid : ∀ (set2 : CacheSet) (l2 : CacheLine), c2.cache_sets[set_idx]? = some set2 →
      set2.lines[li]? = some l2 → l2.valid = true)
    (h : Cache.writeSharedHit sys i c2 set_idx li addr = some (sys', hit, cyc)) :
    CachesEvolve sys.caches sys'.caches := by
  unfold Cache.writeSharedHit at h
  split at h
  · cases h
  · rename_i sys2 bus_cycles hpu
    split at h
    · cases h
    · rename_i c3 hc3
      have hreq := Bus.processUpgrade_requester hpu (System.setCache_getElem?_self c2 hc) rfl
      rw [hc3] at hreq
      cases hreq
      split at h
      · cases h
      · rename_i set3 hset3
        split at h
        · cases h
        · rename_i line3 hline3
          cases h
          have e1 : CachesEvolve sys.caches (sys.setCache i c2).caches := by
            apply System.setCache_evolves
            intro x hx
            rw [hc] at hx
            cases hx
            exact h1
          have e2 := Bus.processUpgrade_evolves hpu
          have e3 : CachesEvolve sys2.caches (sys2.setCache i (c2.setLine set_idx set3 li
              { line3 with state := MESIState.MODIFIED, dirty := true })).caches := by
            apply System.setCache_evolves
            intro x hx
            rw [hc3] at hx
            cases hx
            apply Cache.evolves_setLine hset3
            intro l hl
            rw [hline3] at hl
            cases hl
            refine ⟨fun hv => hv, fun _ => ⟨?_, by simp⟩⟩
            intro hv
            rw [hvalid set3 line3 hset3 hline3] at hv
            cases hv
          exact (e1.trans e2).trans e3

theorem CacheLine.evolves_updateLRU (line : CacheLine) (cycle : Int) :
    line.evolves (line.updateLRU cycle) :=
  ⟨fun hv => hv, fun hok => hok⟩

theorem Cache.setLine_getLine {c : Cache} {idx li : Nat} {set set2 : CacheSet}
    {line line' l2 : CacheLine} (hset : c.cache_sets[idx]? = some set)
    (hline : set.lines[li]? = some line)
    (h2 : (c.setLine idx set li line').cache_sets[idx]? = some set2)
    (h3 : set2.lines[li]? = some l2) : l2 = line' := by
  simp only [Cache.setLine, List.getElem?_set, if_true] at h2
  rw [if_pos (lt_of_getElem?_some hset)] at h2
  cases h2
  simp only [CacheSet.setLine, List.getElem?_set, if_true] at h3
  rw [if_pos (lt_of_getElem?_some hline)] at h3
  cases h3
  rfl

theorem Cache.read_evolves {sys sys' : System} {i addr cyc : Nat} {cycle : Int} {hit : Bool}
    (h : Cache.read sys i addr cycle = some (sys', hit, cyc)) :
    CachesEvolve sys.caches sys'.caches := by
  unfold Cache.read at h
  split at h
  · cases h
  · rename_i c hc
    split at h
    · cases h
    · rename_i set hset
      have hstat : c.Evolves { c with read_count := c.read_count + 1 } :=
        Cache.evolves_of_sets_eq rfl rfl rfl rfl rfl
      split at h
      · exact Cache.readMiss_evolves hc hstat h
      · rename_i li line hfind
        obtain ⟨hline, hvalid, _⟩ := CacheSet.findLine_some hfind
        split at h
        · cases h
          apply System.setCache_evolves
          intro x hx
          rw [hc] at hx
          cases hx
          refine hstat.cache_trans (Cache.evolves_setLine hset ?_)
          intro l hl
          rw [hline] at hl
          cases hl
          exact CacheLine.evolves_updateLRU _ _
        · exact Cache.readMiss_evolves hc hstat h

theorem Cache.write_evolves {sys sys' : System} {i addr cyc : Nat} {cycle : Int} {hit : Bool}
    (h : Cache.write sys i addr cycle = some (sys', hit, cyc)) :
    CachesEvolve sys.caches sys'.caches := by
  unfold Cache.write at h
  split at h
  · cases h
  · rename_i c hc
    split at h
    · cases h
    · rename_i set hset
      have hstat : c.Evolves { c with write_count := c.write_count + 1 } :=
        Cache.evolves_of_sets_eq rfl rfl rfl rfl rfl
      split at h
      · exact Cache.writeMiss_evolves hc hstat h
      · rename_i li line hfind
        obtain ⟨hline, hvalid, _⟩ := CacheSet.findLine_some hfind
        have hlru : c.Evolves (Cache.setLine { c with write_count := c.write_count + 1 }
            (c.extractAddressFields addr).2.1 set li (line.updateLRU cycle)) := by
          refine hstat.cache_trans (Cache.evolves_setLine hset ?_)
          intro l hl
          rw [hline] at hl
          cases hl
          exact CacheLine.evolves_updateLRU _ _
        split at h
        · split at h
          · cases h
            apply System.setCache_evolves
            intro x hx
            rw [hc] at hx
            cases hx
            exact hlru
          · cases h
            apply System.setCache_evolves
            intro x hx
            rw [hc] at hx
            cases hx
            refine hstat.cache_trans (Cache.evolves_setLine hset ?_)
            intro l hl
            rw [hline] at hl
            cases hl
            refine ⟨fun hv => hv, fun _ => ⟨?_, by simp⟩⟩
            intro hv
            simp [CacheLine.updateLRU, hvalid] at hv
          · refine Cache.writeSharedHit_evolves hc hlru ?_ h
            intro set2 l2 h2 h3
            have : c.cache_sets = ({ c with write_count := c.write_count + 1 } : Cache).cache_sets :=
              rfl
            have e := Cache.setLine_getLine (this ▸ hset) hline h2 h3
            rw [e]
            exact hvalid
          · cases h
            apply System.setCache_evolves
            intro x hx
            rw [hc] at hx
            cases hx
            exact hlru
        · exact Cache.writeMiss_evolves hc hstat h

theorem System.step_evolves {sys sys' : System} {op : Op} (h : sys.step op = some sys') :
    CachesEvolve sys.caches sys'.caches := by
  cases op with
  | read i addr cycle =>
    simp only [System.step, Option.map_eq_some'] at h
    obtain ⟨⟨s1, hit, cyc⟩, hr, rfl⟩ := h
    exact Cache.read_evolves hr
  | write i addr cycle =>
    simp only [System.step, Option.map_eq_some'] at h
    obtain ⟨⟨s1, hit, cyc⟩, hr, rfl⟩ := h
    exact Cache.write_evolves hr
  | busRead k addr =>
    simp only [System.step] at h
    split at h
    · cases h
    · rename_i c hc
      split at h
      · cases h
      · rename_i c1 bus1 d hs
        cases h
        apply CachesEvolve.set
        intro x hx
        rw [hc] at hx
        cases hx
        exact (Cache.busRead_evolves hs).1
  | busWrite k addr =>
    simp only [System.step] at h
    split at h
    · cases h
    · rename_i c hc
      split at h
      · cases h
      · rename_i c1 bus1 hs
        cases h
        apply CachesEvolve.set
        intro x hx
        rw [hc] at hx
        cases hx
        exact (Cache.busWrite_evolves hs).1
  | busUpgrade k addr =>
    simp only [System.step] at h
    split at h
    · cases h
    · rename_i c hc
      split at h
      · cases h
      · rename_i c1 bus1 hs
        cases h
        apply CachesEvolve.set
        intro x hx
        rw [hc] at hx
        cases hx
        exact (Cache.busUpgrade_evolves hs).1

theorem System.run_evolves : ∀ (ops : List Op) {sys sys' : System},
    sys.run ops = some sys' → CachesEvolve sys.caches sys'.caches := by
  intro ops
  induction ops with
  | nil =>
    intro sys sys' h
    simp only [System.run, Option.some.injEq] at h
    subst h
    exact CachesEvolve.refl _
  | cons op ops ih =>
    intro sys sys' h
    unfold System.run at h
    split at h
    · cases h
    · rename_i sys1 hs
      exact (System.step_evolves hs).trans (ih h)

theorem System.init_linesOk (s E b : Nat) : (System.init s E b).linesOk := by
  intro c hc set hset l hl
  have hsets : ∀ set ∈ (Cache.init c.core_id s E b).cache_sets, ∀ l ∈ set.lines, l.ok := by
    intro set hset l hl
    simp only [Cache.init] at hset
    have := List.eq_of_mem_replicate hset
    subst this
    simp only [CacheSet.init] at hl
    have := List.eq_of_mem_replicate hl
    subst this
    decide
  simp only [System.init, List.mem_cons, List.mem_singleton, List.not_mem_nil, or_false] at hc
  rcases hc with rfl | rfl | rfl | rfl <;> exact hsets set hset l hl

theorem filter_set_of_not {α : Type} (p : α → Bool) :
    ∀ (l : List α) (i : Nat) (a b : α), l[i]? = some b → p a = false → p b = false →
      (l.set i a).filter p = l.filter p := by
  intro l
  induction l with
  | nil =>
    intro i a b h _ _
    simp at h
  | cons x xs ih =>
    intro i a b h ha hb
    cases i with
    | zero =>
      simp only [List.getElem?_cons_zero, Option.some.injEq] at h
      subst h
      simp [List.filter_cons, ha, hb]
    | succ k =>
      simp only [List.getElem?_cons_succ] at h
      simp only [List.set_cons_succ, List.filter_cons]
      rw [ih k a b h ha hb]

theorem foldl_max_ge_init : ∀ (l : List Nat) (m : Nat), m ≤ l.foldl max m := by
  intro l
  induction l with
  | nil => intro m; exact Nat.le_refl _
  | cons x xs ih =>
    intro m
    simp only [List.foldl_cons]
    exact Nat.le_trans (Nat.le_max_left m x) (ih _)

theorem foldl_max_ge_mem : ∀ (l : List Nat) (m d : Nat), d ∈ l → d ≤ l.foldl max m := by
  intro l
  induction l with
  | nil => intro m d h; cases h
  | cons x xs ih =>
    intro m d h
    simp only [List.foldl_cons]
    rcases List.mem_cons.1 h with rfl | h
    · exact Nat.le_trans (Nat.le_max_right m d) (foldl_max_ge_init _ _)
    · exact ih _ _ h

/-- The latency added by a miss for the fetch: the bus result when positive,
else 100; with the bus result being the peers' maximum or 100. -/
theorem fetch_cycles_eq (l : List Nat) :
    (if (if l.any (fun d => decide (d > 0)) then l.foldl max 0 else 100) > 0
      then (if l.any (fun d => decide (d > 0)) then l.foldl max 0 else 100) else 100) =
    (if l.any (fun d => decide (d > 0)) then l.foldl max 0 else 100) := by
  by_cases h : l.any (fun d => decide (d > 0)) = true
  · rw [if_pos h]
    obtain ⟨d, hd, hpos⟩ := List.any_eq_true.1 h
    have := foldl_max_ge_mem l 0 d hd
    have hpos : 0 < d := by simpa using hpos
    rw [if_pos (by omega)]
  · rw [if_neg h]
    simp

theorem Cache.snoopCycles_of_not_hit {c : Cache} {addr : Nat} (hh : c.hit addr = false) :
    c.snoopCycles addr = 0 := by
  cases h : c.busRead { invalidations := 0, data_traffic_bytes := 0 } addr with
  | none =>
    unfold Cache.snoopCycles
    rw [h]
  | some r =>
    obtain ⟨c1, b1, d⟩ := r
    rw [(Cache.busRead_indep h).2]
    exact (Cache.busRead_of_not_hit hh h).2.2

theorem System.peers_setCache {sys : System} {i rid : Nat} {c c' : Cache}
    (hc : sys.caches[i]? = some c) (h1 : c.core_id = rid) (h2 : c'.core_id = rid) :
    (sys.setCache i c').peers rid = sys.peers rid := by
  unfold System.peers System.setCache
  exact filter_set_of_not _ _ _ _ _ hc (by simp [h2]) (by simp [h1])

theorem System.peerCycles_setCache {sys : System} {i rid : Nat} {c : Cache} (c' : Cache) (addr : Nat)
    (hc : sys.caches[i]? = some c) (h1 : c.core_id = rid) (h2 : c'.core_id = rid) :
    (sys.setCache i c').peerCycles rid addr = sys.peerCycles rid addr := by
  unfold System.peerCycles
  rw [System.peers_setCache hc h1 h2]

theorem System.setCache_wf {sys : System} {i : Nat} {c c' : Cache} (hw : sys.wf)
    (hc : sys.caches[i]? = some c) (hev : c.Evolves c') : (sys.setCache i c').wf := by
  apply CachesEvolve.wf _ hw
  apply System.setCache_evolves
  intro x hx
  rw [hc] at hx
  cases hx
  exact hev

/-- On a miss `Cache::read` runs its miss branch. -/
theorem Cache.read_of_miss {sys : System} {i addr : Nat} {c : Cache} {set : CacheSet}
    (cycle : Int) (hc : sys.caches[i]? = some c)
    (hset : c.cache_sets[(c.extractAddressFields addr).2.1]? = some set)
    (hmiss : c.hit addr = false) :
    Cache.read sys i addr cycle =
      Cache.readMiss sys i { c with read_count := c.read_count + 1 } addr cycle := by
  unfold Cache.hit Cache.findLine at hmiss
  rw [hset] at hmiss
  dsimp only at hmiss
  unfold Cache.read
  rw [hc]
  dsimp only
  rw [hset]
  dsimp only
  split
  · rfl
  · rename_i li line hfind
    rw [hfind] at hmiss
    dsimp only at hmiss
    rw [if_neg (by simp [hmiss])]

/-- On a miss `Cache::write` runs its miss branch. -/
theorem Cache.write_of_miss {sys : System} {i addr : Nat} {c : Cache} {set : CacheSet}
    (cycle : Int) (hc : sys.caches[i]? = some c)
    (hset : c.cache_sets[(c.extractAddressFields addr).2.1]? = some set)
    (hmiss : c.hit addr = false) :
    Cache.write sys i addr cycle =
      Cache.writeMiss sys i { c with write_count := c.write_count + 1 } addr cycle := by
  unfold Cache.hit Cache.findLine at hmiss
  rw [hset] at hmiss
  dsimp only at hmiss
  unfold Cache.write
  rw [hc]
  dsimp only
  rw [hset]
  dsimp only
  split
  · rfl
  · rename_i li line hfind
    rw [hfind] at hmiss
    dsimp only at hmiss
    rw [if_neg (by simp [hmiss])]

/-- Explicit outcome of the miss branch of `Cache::read`; `c1` is the requester
after `read_count++`. -/
theorem Cache.readMiss_spec {sys : System} {i addr : Nat} {c c1 : Cache} {set : CacheSet}
    (cycle : Int) (hw : sys.wf) (hc : sys.caches[i]? = some c) (h1 : c.Evolves c1)
    (hs : c1.cache_sets = c.cache_sets)
    (hset : c.cache_sets[(c1.extractAddressFields addr).2.1]? = some set) :
    ∃ sys' c' set' ri ev old cyc,
      set.findReplacementLine = some (ri, ev) ∧ set.lines[ri]? = some old ∧
      Cache.readMiss sys i c1 addr cycle = some (sys', false, cyc) ∧
      cyc = (if old.valid && old.dirty then 100 else 0) +
            (if (sys.peerCycles c1.core_id addr).any (fun d => decide (d > 0)) then
               (sys.peerCycles c1.core_id addr).foldl max 0 else 100) ∧
      sys'.caches[i]? = some c' ∧
      c'.read_count = c1.read_count ∧ c'.write_count = c1.write_count ∧
      c'.read_misses = c1.read_misses + 1 ∧ c'.write_misses = c1.write_misses + 0 ∧
      c'.evictions = c1.evictions + (if old.valid then 1 else 0) ∧
      c'.writebacks = c1.writebacks + (if old.valid && old.dirty then 1 else 0) ∧
      c'.cache_sets[(c1.extractAddressFields addr).2.1]? = some set' ∧
      set'.lines[ri]? = some { valid := true, tag := (c1.extractAddressFields addr).1,
                               state := MESIState.EXCLUSIVE, last_access := cycle,
                               dirty := false } ∧
      ((∀ p ∈ sys.peers c1.core_id, p.hit addr = false) → sys'.bus.data_traffic_bytes =
        sys.bus.data_traffic_bytes) ∧
      sys'.bus.invalidations = sys.bus.invalidations := by
  have hmem : c ∈ sys.caches := List.getElem?_mem hc
  obtain ⟨hwc, hid⟩ := hw c hmem
  have hpos : 0 < set.lines.length := hwc.2 set (List.getElem?_mem hset)
  have hev : c.Evolves { c1 with read_misses := c1.read_misses + 1 } :=
    h1.cache_trans (Cache.evolves_of_sets_eq rfl rfl rfl rfl rfl)
  have hw1 := System.setCache_wf hw hc hev
  have hlen : (sys.setCache i { c1 with read_misses := c1.read_misses + 1 }).caches.length =
      sys.caches.length := by
    simp [System.setCache]
  have hid1 : c1.core_id < (sys.setCache i
      { c1 with read_misses := c1.read_misses + 1 }).caches.length := by
    rw [hlen, h1.1]
    exact hid
  obtain ⟨⟨sys2, bc⟩, hpr⟩ := Bus.processRead_total hw1 hid1 addr
  have hself := System.setCache_getElem?_self { c1 with read_misses := c1.read_misses + 1 } hc
  have hreq := Bus.processRead_requester hpr hself rfl
  have hset1 : ({ c1 with read_misses := c1.read_misses + 1 } : Cache).cache_sets[
      (c1.extractAddressFields addr).2.1]? = some set := by
    show c1.cache_sets[(c1.extractAddressFields addr).2.1]? = some set
    rw [hs]
    exact hset
  obtain ⟨ri, ev, old, c4, hrep, hold, hmf, hsets, _, hrc, hwc2, hrm, hwm, hevi, hwb⟩ :=
    Cache.missFill_spec { c1 with read_misses := c1.read_misses + 1 }
      (c1.extractAddressFields addr).1 (c1.extractAddressFields addr).2.1 cycle bc
      MESIState.EXCLUSIVE false hset1 hpos
  have hbc := (Bus.processRead_spec hpr).2.2
  rw [System.peerCycles_setCache { c1 with read_misses := c1.read_misses + 1 } addr hc
    h1.1.symm rfl] at hbc
  refine ⟨sys2.setCache i c4, c4,
    set.setLine ri { valid := true, tag := (c1.extractAddressFields addr).1,
                     state := MESIState.EXCLUSIVE, last_access := cycle, dirty := false },
    ri, ev, old,
    (if old.valid && old.dirty then 100 else 0) + (if bc > 0 then bc else 100),
    hrep, hold, ?_, ?_,
    System.setCache_getElem?_self c4 hreq, hrc, hwc2, hrm, hwm, hevi, hwb, ?_, ?_, ?_, ?_⟩
  · unfold Cache.readMiss
    rw [hpr]
    dsimp only
    rw [hreq]
    dsimp only
    rw [hmf]
  · rw [hbc, fetch_cycles_eq]
  · rw [hsets]
    simp only [List.getElem?_set, if_true]
    rw [if_pos (lt_of_getElem?_some hset1)]
  · simp only [CacheSet.setLine, List.getElem?_set, if_true]
    rw [if_pos (lt_of_getElem?_some hold)]
  · intro hno
    have hno1 : ∀ x ∈ (sys.setCache i { c1 with read_misses := c1.read_misses + 1 }).caches,
        x.core_id ≠ c1.core_id → x.hit addr = false := by
      intro x hx hne
      rcases List.mem_or_eq_of_mem_set hx with hx | rfl
      · apply hno
        unfold System.peers
        simp [List.mem_filter, hx, hne]
      · exact absurd rfl hne
    have := (Bus.processRead_no_peer hno1 hpr).1
    rw [this]
    rfl
  · exact (Bus.processRead_spec hpr).2.1

theorem Bus.processWrite_no_peer {sys sys' : System} {rid addr cyc : Nat}
    (hno : ∀ c ∈ sys.caches, c.core_id ≠ rid → c.hit addr = false)
    (h : Bus.processWrite sys rid addr = some (sys', cyc)) :
    sys'.bus.data_traffic_bytes = sys.bus.data_traffic_bytes ∧ cyc = 100 := by
  unfold Bus.processWrite at h
  split at h
  · cases h
  · rename_i cs bus found mx hph
    split at h
    · cases h
    · rename_i cs1 bus1 cnt hwp
      cases h
      obtain ⟨rfl, rfl, rfl, rfl⟩ := Bus.readPhase_no_peer _ _ _ _ _ _ _ hno hph
      exact ⟨(Bus.writePhase_spec _ _ _ _ _ _ hwp).2.2, rfl⟩

/-- Explicit outcome of the miss branch of `Cache::write`; `c1` is the requester
after `write_count++`. -/
theorem Cache.writeMiss_spec {sys : System} {i addr : Nat} {c c1 : Cache} {set : CacheSet}
    (cycle : Int) (hw : sys.wf) (hc : sys.caches[i]? = some c) (h1 : c.Evolves c1)
    (hs : c1.cache_sets = c.cache_sets)
    (hset : c.cache_sets[(c1.extractAddressFields addr).2.1]? = some set) :
    ∃ sys' c' set' ri ev old cyc,
      set.findReplacementLine = some (ri, ev) ∧ set.lines[ri]? = some old ∧
      Cache.writeMiss sys i c1 addr cycle = some (sys', false, cyc) ∧
      cyc = (if old.valid && old.dirty then 100 else 0) +
            (if (sys.peerCycles c1.core_id addr).any (fun d => decide (d > 0)) then
               (sys.peerCycles c1.core_id addr).foldl max 0 else 100) ∧
      sys'.caches[i]? = some c' ∧
      c'.read_count = c1.read_count ∧ c'.write_count = c1.write_count ∧
      c'.read_misses = c1.read_misses + 0 ∧ c'.write_misses = c1.write_misses + 1 ∧
      c'.evictions = c1.evictions + (if old.valid then 1 else 0) ∧
      c'.writebacks = c1.writebacks + (if old.valid && old.dirty then 1 else 0) ∧
      c'.cache_sets[(c1.extractAddressFields addr).2.1]? = some set' ∧
      set'.lines[ri]? = some { valid := true, tag := (c1.extractAddressFields addr).1,
                               state := MESIState.MODIFIED, last_access := cycle,
                               dirty := true } ∧
      ((∀ p ∈ sys.peers c1.core_id, p.hit addr = false) → sys'.bus.data_traffic_bytes =
        sys.bus.data_traffic_bytes) ∧
      sys'.caches.length = sys.caches.length := by
  have hmem : c ∈ sys.caches := List.getElem?_mem hc
  obtain ⟨hwc, hid⟩ := hw c hmem
  have hpos : 0 < set.lines.length := hwc.2 set (List.getElem?_mem hset)
  have hev : c.Evolves { c1 with write_misses := c1.write_misses + 1 } :=
    h1.cache_trans (Cache.evolves_of_sets_eq rfl rfl rfl rfl rfl)
  have hw1 := System.setCache_wf hw hc hev
  have hlen : (sys.setCache i { c1 with write_misses := c1.write_misses + 1 }).caches.length =
      sys.caches.length := by
    simp [System.setCache]
  have hid1 : c1.core_id < (sys.setCache i
      { c1 with write_misses := c1.write_misses + 1 }).caches.length := by
    rw [hlen, h1.1]
    exact hid
  obtain ⟨⟨sys2, bc⟩, hpr⟩ := Bus.processWrite_total hw1 hid1 addr
  have hself := System.setCache_getElem?_self { c1 with write_misses := c1.write_misses + 1 } hc
  have hreq := Bus.processWrite_requester hpr hself rfl
  have hset1 : ({ c1 with write_misses := c1.write_misses + 1 } : Cache).cache_sets[
      (c1.extractAddressFields addr).2.1]? = some set := by
    show c1.cache_sets[(c1.extractAddressFields addr).2.1]? = some set
    rw [hs]
    exact hset
  obtain ⟨ri, ev, old, c4, hrep, hold, hmf, hsets, _, hrc, hwc2, hrm, hwm, hevi, hwb⟩ :=
    Cache.missFill_spec { c1 with write_misses := c1.write_misses + 1 }
      (c1.extractAddressFields addr).1 (c1.extractAddressFields addr).2.1 cycle bc
      MESIState.MODIFIED true hset1 hpos
  have hbc := (Bus.processWrite_spec hpr).2
  rw [System.peerCycles_setCache { c1 with write_misses := c1.write_misses + 1 } addr hc
    h1.1.symm rfl] at hbc
  refine ⟨sys2.setCache i c4, c4,
    set.setLine ri { valid := true, tag := (c1.extractAddressFields addr).1,
                     state := MESIState.MODIFIED, last_access := cycle, dirty := true },
    ri, ev, old,
    (if old.valid && old.dirty then 100 else 0) + (if bc > 0 then bc else 100),
    hrep, hold, ?_, ?_,
    System.setCache_getElem?_self c4 hreq, hrc, hwc2, hrm, hwm, hevi, hwb, ?_, ?_, ?_, ?_⟩
  · unfold Cache.writeMiss
    rw [hpr]
    dsimp only
    rw [hreq]
    dsimp only
    rw [hmf]
  · rw [hbc, fetch_cycles_eq]
  · rw [hsets]
    simp only [List.getElem?_set, if_true]
    rw [if_pos (lt_of_getElem?_some hset1)]
  · simp only [CacheSet.setLine, List.getElem?_set, if_true]
    rw [if_pos (lt_of_getElem?_some hold)]
  · intro hno
    have hno1 : ∀ x ∈ (sys.setCache i { c1 with write_misses := c1.write_misses + 1 }).caches,
        x.core_id ≠ c1.core_id → x.hit addr = false := by
      intro x hx hne
      rcases List.mem_or_eq_of_mem_set hx with hx | rfl
      · apply hno
        unfold System.peers
        simp [List.mem_filter, hx, hne]
      · exact absurd rfl hne
    exact (Bus.processWrite_no_peer hno1 hpr).1
  · simp only [System.setCache, List.length_set]
    rw [(Bus.processWrite_evolves hpr).1]
    exact hlen

theorem System.peerCycles_of_no_hit {sys : System} {rid addr : Nat}
    (hno : ∀ p ∈ sys.peers rid, p.hit addr = false) :
    (sys.peerCycles rid addr).any (fun d => decide (d > 0)) = false := by
  rw [List.any_eq_false]
  intro d hd
  unfold System.peerCycles at hd
  obtain ⟨p, hp, rfl⟩ := List.mem_map.1 hd
  rw [Cache.snoopCycles_of_not_hit (hno p hp)]
  simp

theorem list_set_same {α : Type} : ∀ (l : List α) (i : Nat) (a : α), l[i]? = some a → l.set i a = l := by
  intro l
  induction l with
  | nil => intro i a h; simp at h
  | cons x xs ih =>
    intro i a h
    cases i with
    | zero =>
      simp only [List.getElem?_cons_zero, Option.some.injEq] at h
      subst h
      rfl
    | succ k =>
      simp only [List.getElem?_cons_succ] at h
      simp only [List.set_cons_succ, ih k a h]

/-- Storing the contents a line already has changes nothing. -/
theorem Cache.setLine_same {c : Cache} {idx li : Nat} {set : CacheSet} {line : CacheLine}
    (hset : c.cache_sets[idx]? = some set) (hline : set.lines[li]? = some line) :
    c.setLine idx set li line = c := by
  unfold Cache.setLine CacheSet.setLine
  rw [list_set_same _ _ _ hline]
  have : ({ lines := set.lines } : CacheSet) = set := rfl
  rw [this, list_set_same _ _ _ hset]

theorem findLineFrom_set {tag : Nat} : ∀ (ls : List CacheLine) (li : Nat) (line line' : CacheLine),
    findLineFrom tag ls = some (li, line) → line'.valid = line.valid → line'.tag = line.tag →
    findLineFrom tag (ls.set li line') = some (li, line') := by
  intro ls
  induction ls with
  | nil => intro li line line' h; simp [findLineFrom] at h
  | cons l ls ih =>
    intro li line line' h hv ht
    unfold findLineFrom at h
    split at h
    · rename_i hc
      simp only [Option.some.injEq, Prod.mk.injEq] at h
      obtain ⟨rfl, rfl⟩ := h
      simp only [List.set_cons_zero, findLineFrom, hv, ht, hc, if_true]
    · rename_i hc
      cases hf : findLineFrom tag ls with
      | none => simp [hf] at h
      | some p =>
        obtain ⟨k, l1⟩ := p
        simp only [hf, Option.map_some', Option.some.injEq, Prod.mk.injEq] at h
        obtain ⟨rfl, rfl⟩ := h
        have hrec := ih k l1 line' hf hv ht
        simp [findLineFrom, hc, hrec]

theorem Cache.findLine_found {c : Cache} {addr li : Nat} {line : CacheLine}
    (h : c.findLine addr = some (li, line)) :
    ∃ set, c.cache_sets[(c.extractAddressFields addr).2.1]? = some set ∧
      set.findLine (c.extractAddressFields addr).1 = some (li, line) ∧
      set.lines[li]? = some line ∧ line.valid = true ∧
      line.tag = (c.extractAddressFields addr).1 := by
  unfold Cache.findLine at h
  split at h
  · cases h
  · rename_i set hset
    obtain ⟨h1, h2, h3⟩ := CacheSet.findLine_some h
    exact ⟨set, hset, h, h1, h2, h3⟩

/-- The lookup still finds way `li` after a store that keeps `valid` and `tag`. -/
theorem Cache.findLine_setLine {c : Cache} {addr li : Nat} {set : CacheSet}
    {line line' : CacheLine}
    (hset : c.cache_sets[(c.extractAddressFields addr).2.1]? = some set)
    (hfind : set.findLine (c.extractAddressFields addr).1 = some (li, line))
    (hv : line'.valid = line.valid) (ht : line'.tag = line.tag) :
    (c.setLine (c.extractAddressFields addr).2.1 set li line').findLine addr = some (li, line') := by
  unfold Cache.findLine
  have hg : (c.setLine (c.extractAddressFields addr).2.1 set li line').extractAddressFields addr =
      c.extractAddressFields addr := rfl
  rw [hg]
  simp only [Cache.setLine, List.getElem?_set, if_true]
  rw [if_pos (lt_of_getElem?_some hset)]
  exact findLineFrom_set _ _ _ _ hfind hv ht

/-- Snoop read on a cache that holds the block. -/
theorem Cache.busRead_hit {c : Cache} {addr li : Nat} {line : CacheLine} (bus : Bus)
    (hfind : c.findLine addr = some (li, line)) (hst : line.state ≠ MESIState.INVALID)
    (hlok : line.ok) :
    ∃ set, c.cache_sets[(c.extractAddressFields addr).2.1]? = some set ∧
      set.findLine (c.extractAddressFields addr).1 = some (li, line) ∧
      c.busRead bus addr =
        some (c.setLine (c.extractAddressFields addr).2.1 set li
                { line with state := MESIState.SHARED, dirty := false },
              bus.addDataTraffic c.block_size, 2 * (c.block_size / 4)) := by
  obtain ⟨set, hset, hf, hline, hvalid, _⟩ := Cache.findLine_found hfind
  refine ⟨set, hset, hf, ?_⟩
  unfold Cache.busRead
  rw [hset]
  dsimp only
  rw [hf]
  dsimp only
  rw [if_pos (by simp [hvalid, hst])]
  cases hs : line.state with
  | MODIFIED => rfl
  | EXCLUSIVE =>
    have hd : line.dirty = false := by
      cases hdd : line.dirty with
      | false => rfl
      | true =>
        have := hlok.2.1 hdd
        rw [hs] at this
        cases this
    dsimp only
    rw [← hd]
  | SHARED =>
    have hd : line.dirty = false := by
      cases hdd : line.dirty with
      | false => rfl
      | true =>
        have := hlok.2.1 hdd
        rw [hs] at this
        cases this
    dsimp only
    have hl : ({ line with state := MESIState.SHARED, dirty := false } : CacheLine) = line := by
      cases line
      simp_all
    rw [hl, Cache.setLine_same hset hline]
  | INVALID => exact absurd hs hst

/-- Snoop write on a cache that holds the block SHARED or EXCLUSIVE. -/
theorem Cache.busWrite_hit {c : Cache} {addr li : Nat} {line : CacheLine} (bus : Bus)
    (hfind : c.findLine addr = some (li, line))
    (hst : line.state = MESIState.SHARED ∨ line.state = MESIState.EXCLUSIVE) :
    ∃ set, c.cache_sets[(c.extractAddressFields addr).2.1]? = some set ∧
      c.busWrite bus addr =
        some (c.setLine (c.extractAddressFields addr).2.1 set li
                { line with state := MESIState.INVALID },
              bus.incrementInvalidations) := by
  obtain ⟨set, hset, hf, hline, hvalid, _⟩ := Cache.findLine_found hfind
  refine ⟨set, hset, ?_⟩
  unfold Cache.busWrite
  rw [hset]
  dsimp only
  rw [hf]
  dsimp only
  rw [if_pos (by rcases hst with h | h <;> simp [hvalid, h])]

theorem Cache.busRead_eq_of_not_hit {c : Cache} (hw : c.wf) (bus : Bus) {addr : Nat}
    (hh : c.hit addr = false) : c.busRead bus addr = some (c, bus, 0) := by
  obtain ⟨⟨c1, b1, d⟩, h⟩ := Cache.busRead_total hw bus addr
  obtain ⟨rfl, rfl, rfl⟩ := Cache.busRead_of_not_hit hh h
  exact h

theorem Cache.setLine_lookup {c : Cache} {idx li : Nat} {set : CacheSet} {line : CacheLine}
    (l' : CacheLine) (hset : c.cache_sets[idx]? = some set) (hline : set.lines[li]? = some line) :
    (c.setLine idx set li l').cache_sets[idx]? = some (set.setLine li l') ∧
    (set.setLine li l').lines[li]? = some l' ∧
    (∀ j, j ≠ li → (set.setLine li l').lines[j]? = set.lines[j]?) ∧
    (∀ k, k ≠ idx → (c.setLine idx set li l').cache_sets[k]? = c.cache_sets[k]?) ∧
    ({ c.setLine idx set li l' with cache_sets := c.cache_sets } : Cache) = c := by
  refine ⟨?_, ?_, ?_, ?_, rfl⟩
  · simp only [Cache.setLine, List.getElem?_set, if_true]
    rw [if_pos (lt_of_getElem?_some hset)]
  · simp only [CacheSet.setLine, List.getElem?_set, if_true]
    rw [if_pos (lt_of_getElem?_some hline)]
  · intro j hj
    simp only [CacheSet.setLine]
    rw [List.getElem?_set_ne (Ne.symm hj)]
  · intro k hk
    simp only [Cache.setLine]
    rw [List.getElem?_set_ne (Ne.symm hk)]

/-- Traffic and cycles of one snoop read in terms of the hit test. -/
theorem Cache.busRead_traffic {c c' : Cache} {bus bus' : Bus} {addr d : Nat}
    (h : c.busRead bus addr = some (c', bus', d)) :
    bus'.data_traffic_bytes = bus.data_traffic_bytes + (if c.hit addr then c.block_size else 0) ∧
    d = (if c.hit addr then 2 * (c.block_size / 4) else 0) := by
  unfold Cache.busRead at h
  split at h
  · cases h
  · rename_i set hset
    split at h
    · rename_i hfind
      cases h
      simp [Cache.hit, Cache.findLine, hset, hfind]
    · rename_i li line hfind
      have hv := (CacheSet.findLine_some hfind).2.1
      split at h
      · rename_i hc
        have hh : c.hit addr = true := by
          simp only [Cache.hit, Cache.findLine, hset, hfind]
          exact hc
        split at h <;> rename_i hst
        · cases h
          simp [hh, Bus.addDataTraffic]
        · cases h
          simp [hh, Bus.addDataTraffic]
        · cases h
          simp [hh, Bus.addDataTraffic]
        · simp [hv, hst] at hc
      · rename_i hc
        cases h
        have hh : c.hit addr = false := by
          simp only [Cache.hit, Cache.findLine, hset, hfind]
          simpa using hc
        simp [hh]

theorem Cache.snoopCycles_eq (c : Cache) (hw : c.wf) (addr : Nat) :
    c.snoopCycles addr = (if c.hit addr then 2 * (c.block_size / 4) else 0) := by
  obtain ⟨⟨c1, b1, d⟩, h⟩ :=
    Cache.busRead_total hw { invalidations := 0, data_traffic_bytes := 0 } addr
  rw [(Cache.busRead_indep h).2]
  exact (Cache.busRead_traffic h).2

/-- Traffic added by the snoop-read loop. -/
theorem Bus.readPhase_traffic (n rid addr : Nat) :
    ∀ (cs : List Cache) (bus : Bus) (found : Bool) (mx : Nat)
      {cs' : List Cache} {bus' : Bus} {f : Bool} {m : Nat},
      Bus.readPhase n rid addr cs bus found mx = some (cs', bus', f, m) →
      bus'.data_traffic_bytes = bus.data_traffic_bytes +
        (((cs.filter (fun c => c.core_id != rid)).filter (fun c => c.hit addr)).map
          (fun c => c.block_size)).sum := by
  intro cs
  induction cs with
  | nil =>
    intro bus found mx cs' bus' f m h
    simp only [Bus.readPhase, Option.some.injEq, Prod.mk.injEq] at h
    obtain ⟨rfl, rfl, rfl, rfl⟩ := h
    simp
  | cons c cs ih =>
    intro bus found mx cs' bus' f m h
    unfold Bus.readPhase at h
    split at h
    · rename_i hpeer
      split at h
      · cases h
      · split at h
        · cases h
        · rename_i c1 bus1 dtc hbr
          split at h
          · cases h
          · rename_i cs1 bus2 f1 m1 hrec
            cases h
            have e := ih _ _ _ hrec
            have t := (Cache.busRead_traffic hbr).1
            rw [e, t]
            simp only [List.filter_cons, hpeer, if_true]
            by_cases hh : c.hit addr = true
            · simp [hh]
              omega
            · simp [hh]
    · rename_i hpeer
      split at h
      · cases h
      · rename_i cs1 bus2 f1 m1 hrec
        cases h
        have e := ih _ _ _ hrec
        rw [e]
        simp [List.filter_cons, hpeer]

theorem sum_map_const_block {l : List Cache} {B : Nat} (h : ∀ c ∈ l, c.block_size = B) :
    (l.map (fun c => c.block_size)).sum = B * l.length := by
  induction l with
  | nil => simp
  | cons x xs ih =>
    simp only [List.map_cons, List.sum_cons, List.length_cons]
    rw [ih (fun c hc => h c (List.mem_cons_of_mem _ hc)), h x (List.mem_cons_self _ _)]
    ring

/-- With blocks of at least 4 bytes the non-zero snoop reads are exactly the
peers that hold the block. -/
theorem System.countP_peerCycles {sys : System} (hw : sys.wf) {B : Nat}
    (hB : ∀ c ∈ sys.caches, c.block_size = B) (h4 : 4 ≤ B) (rid addr : Nat) :
    (sys.peerCycles rid addr).countP (fun d => decide (d > 0)) =
      (sys.peers rid).countP (fun p => p.hit addr) := by
  unfold System.peerCycles
  rw [List.countP_map]
  apply List.countP_congr
  intro p hp
  have hpm : p ∈ sys.caches := (List.mem_filter.1 hp).1
  simp only [Function.comp, Cache.snoopCycles_eq p (hw p hpm).1 addr, hB p hpm]
  by_cases hh : p.hit addr = true
  · simp [hh]
    omega
  · simp [hh]

theorem Bus.processRead_traffic {sys sys' : System} {rid addr cyc : Nat}
    (h : Bus.processRead sys rid addr = some (sys', cyc)) :
    sys'.bus.data_traffic_bytes = sys.bus.data_traffic_bytes +
      (((sys.peers rid).filter (fun c => c.hit addr)).map (fun c => c.block_size)).sum := by
  unfold Bus.processRead at h
  split at h
  · cases h
  · rename_i cs bus found mx hph
    cases h
    exact Bus.readPhase_traffic _ _ _ _ _ _ _ hph

theorem Bus.processWrite_traffic {sys sys' : System} {rid addr cyc : Nat}
    (h : Bus.processWrite sys rid addr = some (sys', cyc)) :
    sys'.bus.data_traffic_bytes = sys.bus.data_traffic_bytes +
      (((sys.peers rid).filter (fun c => c.hit addr)).map (fun c => c.block_size)).sum := by
  unfold Bus.processWrite at h
  split at h
  · cases h
  · rename_i cs bus found mx hph
    split at h
    · cases h
    · rename_i cs1 bus1 cnt hwp
      cases h
      have e := Bus.readPhase_traffic _ _ _ _ _ _ _ hph
      have w := (Bus.writePhase_spec _ _ _ _ _ _ hwp).2.2
      show bus1.data_traffic_bytes = _
      rw [w, e]
      rfl

theorem System.supplied_bytes {sys : System} {B : Nat} (hB : ∀ c ∈ sys.caches, c.block_size = B)
    (rid addr : Nat) :
    (((sys.peers rid).filter (fun c => c.hit addr)).map (fun c => c.block_size)).sum =
      B * (sys.peers rid).countP (fun p => p.hit addr) := by
  rw [List.countP_eq_length_filter]
  apply sum_map_const_block
  intro c hc
  exact hB c (List.mem_filter.1 (List.mem_filter.1 hc).1).1

theorem firstInvalid_lowest : ∀ {ls : List CacheLine} {i : Nat}, firstInvalid ls = some i →
    ∀ (j : Nat) (l : CacheLine), j < i → ls[j]? = some l → l.valid = true := by
  intro ls
  induction ls with
  | nil => intro i h; simp [firstInvalid] at h
  | cons x xs ih =>
    intro i h j l hj hl
    unfold firstInvalid at h
    split at h
    · simp only [Option.some.injEq] at h
      omega
    · rename_i hc
      cases hf : firstInvalid xs with
      | none => simp [hf] at h
      | some k =>
        simp only [hf, Option.map_some', Option.some.injEq] at h
        subst h
        cases j with
        | zero =>
          simp only [List.getElem?_cons_zero, Option.some.injEq] at hl
          subst hl
          simpa using hc
        | succ j' =>
          simp only [List.getElem?_cons_succ] at hl
          exact ih hf j' l (by omega) hl

theorem firstInvalid_isSome {ls : List CacheLine} (h : ∃ l ∈ ls, l.valid = false) :
    ∃ i, firstInvalid ls = some i := by
  cases hf : firstInvalid ls with
  | some i => exact ⟨i, rfl⟩
  | none =>
    obtain ⟨l, hl, hv⟩ := h
    have := firstInvalid_none hf l hl
    rw [hv] at this
    cases this

theorem firstInvalid_eq_none {ls : List CacheLine} (h : ∀ l ∈ ls, l.valid = true) :
    firstInvalid ls = none := by
  cases hf : firstInvalid ls with
  | none => rfl
  | some i =>
    obtain ⟨l, hl, hv⟩ := firstInvalid_some hf
    have := h l (List.getElem?_mem hl)
    rw [hv] at this
    cases this

/-- The LRU scan returns a line of minimal `last_access`. -/
theorem lruScan_min : ∀ (ls : List CacheLine) (i : Nat) (best : Nat × CacheLine),
    (lruScan ls i best).2.last_access ≤ best.2.last_access ∧
    ∀ l ∈ ls, (lruScan ls i best).2.last_access ≤ l.last_access := by
  intro ls
  induction ls with
  | nil =>
    intro i best
    exact ⟨Int.le_refl _, fun l hl => by cases hl⟩
  | cons x xs ih =>
    intro i best
    unfold lruScan
    split
    · rename_i hlt
      obtain ⟨h1, h2⟩ := ih (i + 1) (i, x)
      refine ⟨by simp only at h1; omega, ?_⟩
      intro l hl
      rcases List.mem_cons.1 hl with rfl | hl
      · exact h1
      · exact h2 l hl
    · rename_i hlt
      obtain ⟨h1, h2⟩ := ih (i + 1) best
      refine ⟨h1, ?_⟩
      intro l hl
      rcases List.mem_cons.1 hl with rfl | hl
      · omega
      · exact h2 l hl

/-- The LRU scan keeps `best` or moves to a strictly smaller line, every
earlier line scanned being strictly larger. -/
theorem lruScan_first : ∀ (ls : List CacheLine) (i : Nat) (best : Nat × CacheLine),
    lruScan ls i best = best ∨
    (i ≤ (lruScan ls i best).1 ∧ ls[(lruScan ls i best).1 - i]? = some (lruScan ls i best).2 ∧
      (lruScan ls i best).2.last_access < best.2.last_access ∧
      ∀ (j : Nat) (l : CacheLine), j < (lruScan ls i best).1 - i → ls[j]? = some l →
        (lruScan ls i best).2.last_access < l.last_access) := by
  intro ls
  induction ls with
  | nil => intro i best; left; rfl
  | cons x xs ih =>
    intro i best
    unfold lruScan
    split
    · rename_i hlt
      right
      rcases ih (i + 1) (i, x) with h | ⟨h1, h2, h3, h4⟩
      · rw [h]
        refine ⟨Nat.le_refl _, by simp, hlt, ?_⟩
        intro j l hj
        simp at hj
      · have e : (lruScan xs (i + 1) (i, x)).1 - i =
            ((lruScan xs (i + 1) (i, x)).1 - (i + 1)) + 1 := by omega
        refine ⟨by omega, ?_, ?_, ?_⟩
        · rw [e]
          simpa using h2
        · simp only at h3
          omega
        · intro j l hj hl
          cases j with
          | zero =>
            simp only [List.getElem?_cons_zero, Option.some.injEq] at hl
            subst hl
            exact h3
          | succ j' =>
            simp only [List.getElem?_cons_succ] at hl
            exact h4 j' l (by omega) hl
    · rename_i hlt
      rcases ih (i + 1) best with h | ⟨h1, h2, h3, h4⟩
      · left
        exact h
      · right
        have e : (lruScan xs (i + 1) best).1 - i =
            ((lruScan xs (i + 1) best).1 - (i + 1)) + 1 := by omega
        refine ⟨by omega, ?_, h3, ?_⟩
        · rw [e]
          simpa using h2
        · intro j l hj hl
          cases j with
          | zero =>
            simp only [List.getElem?_cons_zero, Option.some.injEq] at hl
            subst hl
            omega
          | succ j' =>
            simp only [List.getElem?_cons_succ] at hl
            exact h4 j' l (by omega) hl

/-- The bit operations of the address decode as division and remainder. -/
theorem Cache.extractAddressFields_eq (c : Cache) (addr : Nat) :
    c.extractAddressFields addr =
      (addr / (2 ^ c.b_bits * 2 ^ c.s_bits), (addr / 2 ^ c.b_bits) % 2 ^ c.s_bits,
       addr % 2 ^ c.b_bits) := by
  unfold Cache.extractAddressFields
  simp only [Nat.shiftRight_eq_div_pow, Nat.one_shiftLeft, Nat.and_pow_two_sub_one_eq_mod,
    Nat.pow_add]

theorem Cache.grows_refl (c : Cache) : c.Grows c :=
  ⟨rfl, Nat.le_refl _, Nat.le_refl _, Nat.le_refl _, Nat.le_refl _, Nat.le_refl _,
    Nat.le_refl _, id⟩

theorem Cache.grows_trans {a b c : Cache} (h1 : a.Grows b) (h2 : b.Grows c) : a.Grows c := by
  obtain ⟨a0, a1, a2, a3, a4, a5, a6, a7⟩ := h1
  obtain ⟨b0, b1, b2, b3, b4, b5, b6, b7⟩ := h2
  exact ⟨b0.trans a0, Nat.le_trans a1 b1, Nat.le_trans a2 b2, Nat.le_trans a3 b3,
    Nat.le_trans a4 b4, Nat.le_trans a5 b5, Nat.le_trans a6 b6, fun h => b7 (a7 h)⟩

/-- A cache that differs only in its lines is a later stage. -/
theorem Cache.grows_of_frame {c c' : Cache}
    (h : ({ c' with cache_sets := c.cache_sets } : Cache) = c) : c.Grows c' := by
  have e0 : c'.block_size = c.block_size := by
    have := congrArg Cache.block_size h
    exact this
  have e1 : c'.read_count = c.read_count := by
    have := congrArg Cache.read_count h
    exact this
  have e2 : c'.write_count = c.write_count := by
    have := congrArg Cache.write_count h
    exact this
  have e3 : c'.read_misses = c.read_misses := by
    have := congrArg Cache.read_misses h
    exact this
  have e4 : c'.write_misses = c.write_misses := by
    have := congrArg Cache.write_misses h
    exact this
  have e5 : c'.evictions = c.evictions := by
    have := congrArg Cache.evictions h
    exact this
  have e6 : c'.writebacks = c.writebacks := by
    have := congrArg Cache.writebacks h
    exact this
  refine ⟨e0, by omega, by omega, by omega, by omega, by omega, by omega, ?_⟩
  intro hok
  unfold Cache.statsOk at hok ⊢
  omega

theorem cachesGrow_refl (cs : List Cache) : CachesGrow cs cs := by
  refine ⟨rfl, ?_⟩
  intro k c c' h1 h2
  rw [h1] at h2
  cases h2
  exact Cache.grows_refl _

theorem cachesGrow_trans {a b c : List Cache} (h1 : CachesGrow a b) (h2 : CachesGrow b c) :
    CachesGrow a c := by
  refine ⟨h2.1.trans h1.1, ?_⟩
  intro k x z hx hz
  have hlt : k < b.length := by
    have := lt_of_getElem?_some hx
    have := h1.1
    omega
  obtain ⟨y, hy⟩ := getElem?_exists_of_lt hlt
  exact Cache.grows_trans (h1.2 k x y hx hy) (h2.2 k y z hy hz)

theorem cachesGrow_set {cs : List Cache} {i : Nat} {c' : Cache}
    (h : ∀ c, cs[i]? = some c → c.Grows c') : CachesGrow cs (cs.set i c') := by
  refine ⟨List.length_set _ _ _, ?_⟩
  intro k x y hx hy
  rw [List.getElem?_set] at hy
  by_cases hk : i = k
  · subst hk
    rw [if_pos rfl] at hy
    split at hy
    · cases hy
      exact h x hx
    · cases hy
  · rw [if_neg hk, hx] at hy
    cases hy
    exact Cache.grows_refl _

theorem cachesGrow_peerMap {cs : List Cache} {g : Cache → Cache} {rid : Nat}
    (h : ∀ c : Cache, c.Grows (g c)) :
    CachesGrow cs (cs.map (fun x => if x.core_id != rid then g x else x)) := by
  refine ⟨List.length_map _ _, ?_⟩
  intro k x y hx hy
  rw [List.getElem?_map, hx] at hy
  cases hy
  dsimp only
  split
  · exact h x
  · exact Cache.grows_refl _

theorem cachesGrow_block {cs cs' : List Cache} (h : CachesGrow cs cs') {B : Nat}
    (hB : ∀ c ∈ cs, c.block_size = B) : ∀ c ∈ cs', c.block_size = B := by
  intro c' hmem
  obtain ⟨k, hk⟩ := List.getElem?_of_mem hmem
  have hlt : k < cs.length := by
    have := lt_of_getElem?_some hk
    have := h.1
    omega
  obtain ⟨c, hc⟩ := getElem?_exists_of_lt hlt
  rw [(h.2 k c c' hc hk).1]
  exact hB c (List.getElem?_mem hc)

theorem System.sys_grows_refl (sys : System) : sys.Grows sys :=
  ⟨cachesGrow_refl _, Nat.le_refl _, Nat.le_refl _, fun _ _ h => h⟩

theorem System.sys_grows_trans {a b c : System} (h1 : a.Grows b) (h2 : b.Grows c) : a.Grows c := by
  obtain ⟨a1, a2, a3, a4⟩ := h1
  obtain ⟨b1, b2, b3, b4⟩ := h2
  refine ⟨cachesGrow_trans a1 b1, Nat.le_trans a2 b2, Nat.le_trans a3 b3, ?_⟩
  intro B hB hd
  exact b4 B (cachesGrow_block a1 hB) (a4 B hB hd)

theorem Cache.busRead_frame {c c' : Cache} {bus bus' : Bus} {addr d : Nat}
    (h : c.busRead bus addr = some (c', bus', d)) :
    ({ c' with cache_sets := c.cache_sets } : Cache) = c := by
  unfold Cache.busRead at h
  split at h
  · cases h
  · split at h
    · cases h
      rfl
    · split at h
      · split at h <;> cases h <;> rfl
      · cases h
        rfl

theorem Cache.busWrite_frame {c c' : Cache} {bus bus' : Bus} {addr : Nat}
    (h : c.busWrite bus addr = some (c', bus')) :
    ({ c' with cache_sets := c.cache_sets } : Cache) = c ∧
    bus.invalidations ≤ bus'.invalidations := by
  unfold Cache.busWrite at h
  split at h
  · cases h
  · split at h
    · cases h
      exact ⟨rfl, Nat.le_refl _⟩
    · split at h
      · cases h
        exact ⟨rfl, Nat.le_succ _⟩
      · cases h
        exact ⟨rfl, Nat.le_refl _⟩

theorem Cache.busUpgrade_frame {c c' : Cache} {bus bus' : Bus} {addr : Nat}
    (h : c.busUpgrade bus addr = some (c', bus')) :
    ({ c' with cache_sets := c.cache_sets } : Cache) = c ∧
    bus.invalidations ≤ bus'.invalidations := by
  unfold Cache.busUpgrade at h
  split at h
  · cases h
  · split at h
    · cases h
      exact ⟨rfl, Nat.le_refl _⟩
    · split at h
      · cases h
        exact ⟨rfl, Nat.le_succ _⟩
      · cases h
        exact ⟨rfl, Nat.le_refl _⟩

theorem Cache.afterBusRead_grows (c : Cache) (addr : Nat) : c.Grows (c.afterBusRead addr) := by
  cases h : c.busRead { invalidations := 0, data_traffic_bytes := 0 } addr with
  | none =>
    unfold Cache.afterBusRead
    rw [h]
    exact Cache.grows_refl _
  | some r =>
    obtain ⟨c1, b1, d⟩ := r
    rw [(Cache.busRead_indep h).1]
    exact Cache.grows_of_frame (Cache.busRead_frame h)

theorem Cache.afterBusWrite_grows (c : Cache) (addr : Nat) : c.Grows (c.afterBusWrite addr) := by
  cases h : c.busWrite { invalidations := 0, data_traffic_bytes := 0 } addr with
  | none =>
    unfold Cache.afterBusWrite
    rw [h]
    exact Cache.grows_refl _
  | some r =>
    obtain ⟨c1, b1⟩ := r
    rw [Cache.busWrite_indep h]
    exact Cache.grows_of_frame (Cache.busWrite_frame h).1

theorem Cache.afterBusUpgrade_grows (c : Cache) (addr : Nat) :
    c.Grows (c.afterBusUpgrade addr) := by
  cases h : c.busUpgrade { invalidations := 0, data_traffic_bytes := 0 } addr with
  | none =>
    unfold Cache.afterBusUpgrade
    rw [h]
    exact Cache.grows_refl _
  | some r =>
    obtain ⟨c1, b1⟩ := r
    rw [Cache.busUpgrade_indep h]
    exact Cache.grows_of_frame (Cache.busUpgrade_frame h).1

theorem Bus.writePhase_inv_ge (n rid addr : Nat) :
    ∀ (cs : List Cache) (bus : Bus) (cnt : Nat) {cs' : List Cache} {bus' : Bus} {k : Nat},
      Bus.writePhase n rid addr cs bus cnt = some (cs', bus', k) →
      bus.invalidations ≤ bus'.invalidations := by
  intro cs
  induction cs with
  | nil =>
    intro bus cnt cs' bus' k h
    simp only [Bus.writePhase, Option.some.injEq, Prod.mk.injEq] at h
    obtain ⟨rfl, rfl, rfl⟩ := h
    exact Nat.le_refl _
  | cons c cs ih =>
    intro bus cnt cs' bus' k h
    unfold Bus.writePhase at h
    split at h
    · split at h
      · cases h
      · split at h
        · cases h
        · rename_i c1 bus1 hbw
          split at h
          · cases h
          · rename_i cs1 bus2 k1 hrec
            cases h
            exact Nat.le_trans (Cache.busWrite_frame hbw).2 (ih _ _ hrec)
    · split at h
      · cases h
      · rename_i cs1 bus2 k1 hrec
        cases h
        exact ih _ _ hrec

theorem Bus.upgradePhase_inv_ge (rid addr : Nat) :
    ∀ (cs : List Cache) (bus : Bus) (cnt : Nat) {cs' : List Cache} {bus' : Bus} {k : Nat},
      Bus.upgradePhase rid addr cs bus cnt = some (cs', bus', k) →
      bus.invalidations ≤ bus'.invalidations := by
  intro cs
  induction cs with
  | nil =>
    intro bus cnt cs' bus' k h
    simp only [Bus.upgradePhase, Option.some.injEq, Prod.mk.injEq] at h
    obtain ⟨rfl, rfl, rfl⟩ := h
    exact Nat.le_refl _
  | cons c cs ih =>
    intro bus cnt cs' bus' k h
    unfold Bus.upgradePhase at h
    split at h
    · split at h
      · cases h
      · rename_i c1 bus1 hbw
        split at h
        · cases h
        · rename_i cs1 bus2 k1 hrec
          cases h
          exact Nat.le_trans (Cache.busUpgrade_frame hbw).2 (ih _ _ hrec)
    · split at h
      · cases h
      · rename_i cs1 bus2 k1 hrec
        cases h
        exact ih _ _ hrec

theorem System.setCache_grows {sys : System} {i : Nat} {c' : Cache}
    (h : ∀ c, sys.caches[i]? = some c → c.Grows c') : sys.Grows (sys.setCache i c') :=
  ⟨cachesGrow_set h, Nat.le_refl _, Nat.le_refl _, fun _ _ hd => hd⟩

theorem Bus.processRead_grows {sys sys' : System} {rid addr cyc : Nat}
    (h : Bus.processRead sys rid addr = some (sys', cyc)) : sys.Grows sys' := by
  obtain ⟨e1, e2, _⟩ := Bus.processRead_spec h
  have t := Bus.processRead_traffic h
  refine ⟨?_, by omega, by omega, ?_⟩
  · rw [e1]
    exact cachesGrow_peerMap (fun c => c.afterBusRead_grows addr)
  · intro B hB hd
    rw [t, System.supplied_bytes hB]
    exact Nat.dvd_add hd (Nat.dvd_mul_right _ _)

theorem Bus.processWrite_grows {sys sys' : System} {rid addr cyc : Nat}
    (h : Bus.processWrite sys rid addr = some (sys', cyc)) : sys.Grows sys' := by
  obtain ⟨e1, _⟩ := Bus.processWrite_spec h
  have t := Bus.processWrite_traffic h
  have hinv : sys.bus.invalidations ≤ sys'.bus.invalidations := by
    unfold Bus.processWrite at h
    split at h
    · cases h
    · rename_i cs bus found mx hph
      split at h
      · cases h
      · rename_i cs1 bus1 cnt hwp
        cases h
        have a := (Bus.readPhase_spec _ _ _ _ _ _ _ hph).2.2.2
        have b := Bus.writePhase_inv_ge _ _ _ _ _ _ hwp
        show sys.bus.invalidations ≤ bus1.invalidations + cnt
        omega
  refine ⟨?_, hinv, by omega, ?_⟩
  · rw [e1]
    exact cachesGrow_trans (cachesGrow_peerMap (fun c => c.afterBusRead_grows addr))
      (cachesGrow_peerMap (fun c => c.afterBusWrite_grows addr))
  · intro B hB hd
    rw [t, System.supplied_bytes hB]
    exact Nat.dvd_add hd (Nat.dvd_mul_right _ _)

theorem Bus.processUpgrade_grows {sys sys' : System} {rid addr cyc : Nat}
    (h : Bus.processUpgrade sys rid addr = some (sys', cyc)) : sys.Grows sys' := by
  obtain ⟨e1, e2, _⟩ := Bus.processUpgrade_spec h
  have hinv : sys.bus.invalidations ≤ sys'.bus.invalidations := by
    unfold Bus.processUpgrade at h
    split at h
    · cases h
    · rename_i cs bus cnt hph
      cases h
      have b := Bus.upgradePhase_inv_ge _ _ _ _ _ hph
      show sys.bus.invalidations ≤ bus.invalidations + cnt
      omega
  refine ⟨?_, hinv, by omega, ?_⟩
  · rw [e1]
    exact cachesGrow_peerMap (fun c => c.afterBusUpgrade_grows addr)
  · intro B _ hd
    rw [e2]
    exact hd

theorem Cache.missFill_grows {c c4 : Cache} {tag idx : Nat} {cycle : Int} {bc cyc : Nat}
    {st : MESIState} {d : Bool} (h : c.missFill tag idx cycle bc st d = some (c4, cyc)) :
    c.Grows c4 := by
  unfold Cache.missFill at h
  split at h
  · cases h
  · split at h
    · cases h
    · cases h
      unfold Cache.Grows Cache.statsOk Cache.setLine
      split_ifs <;> dsimp only <;> omega

theorem Cache.readMiss_grows {sys sys' : System} {i addr cyc : Nat} {cycle : Int}
    {c c1 : Cache} {hit : Bool} (hc : sys.caches[i]? = some c)
    (h2 : c.Grows { c1 with read_misses := c1.read_misses + 1 })
    (h : Cache.readMiss sys i c1 addr cycle = some (sys', hit, cyc)) : sys.Grows sys' := by
  unfold Cache.readMiss at h
  split at h
  · cases h
  · rename_i sys2 bus_cycles hpr
    split at h
    · cases h
    · rename_i c3 hc3
      split at h
      · cases h
      · rename_i c4 cycles_taken hmf
        cases h
        have e1 : sys.Grows (sys.setCache i { c1 with read_misses := c1.read_misses + 1 }) := by
          apply System.setCache_grows
          intro x hx
          rw [hc] at hx
          cases hx
          exact h2
        have e2 := Bus.processRead_grows hpr
        have e3 : sys2.Grows (sys2.setCache i c4) := by
          apply System.setCache_grows
          intro x hx
          rw [hc3] at hx
          cases hx
          exact Cache.missFill_grows hmf
        exact System.sys_grows_trans (System.sys_grows_trans e1 e2) e3

theorem Cache.writeMiss_grows {sys sys' : System} {i addr cyc : Nat} {cycle : Int}
    {c c1 : Cache} {hit : Bool} (hc : sys.caches[i]? = some c)
    (h2 : c.Grows { c1 with write_misses := c1.write_misses + 1 })
    (h : Cache.writeMiss sys i c1 addr cycle = some (sys', hit, cyc)) : sys.Grows sys' := by
  unfold Cache.writeMiss at h
  split at h
  · cases h
  · rename_i sys2 bus_cycles hpr
    split at h
    · cases h
    · rename_i c3 hc3
      split at h
      · cases h
      · rename_i c4 cycles_taken hmf
        cases h
        have e1 : sys.Grows (sys.setCache i { c1 with write_misses := c1.write_misses + 1 }) := by
          apply System.setCache_grows
          intro x hx
          rw [hc] at hx
          cases hx
          exact h2
        have e2 := Bus.processWrite_grows hpr
        have e3 : sys2.Grows (sys2.setCache i c4) := by
          apply System.setCache_grows
          intro x hx
          rw [hc3] at hx
          cases hx
          exact Cache.missFill_grows hmf
        exact System.sys_grows_trans (System.sys_grows_trans e1 e2) e3

theorem Cache.writeSharedHit_grows {sys sys' : System} {i set_idx li addr cyc : Nat}
    {c c2 : Cache} {hit : Bool} (hc : sys.caches[i]? = some c) (h1 : c.Grows c2)
    (h : Cache.writeSharedHit sys i c2 set_idx li addr = some (sys', hit, cyc)) :
    sys.Grows sys' := by
  unfold Cache.writeSharedHit at h
  split at h
  · cases h
  · rename_i sys2 bus_cycles hpu
    split at h
    · cases h
    · rename_i c3 hc3
      split at h
      · cases h
      · rename_i set3 hset3
        split at h
        · cases h
        · rename_i line3 hline3
          cases h
          have e1 : sys.Grows (sys.setCache i c2) := by
            apply System.setCache_grows
            intro x hx
            rw [hc] at hx
            cases hx
            exact h1
          have e2 := Bus.processUpgrade_grows hpu
          have e3 : sys2.Grows (sys2.setCache i (c3.setLine set_idx set3 li
              { line3 with state := MESIState.MODIFIED, dirty := true })) := by
            apply System.setCache_grows
            intro x hx
            rw [hc3] at hx
            cases hx
            exact Cache.grows_of_frame rfl
          exact System.sys_grows_trans (System.sys_grows_trans e1 e2) e3

theorem Cache.read_grows {sys sys' : System} {i addr cyc : Nat} {cycle : Int} {hit : Bool}
    (h : Cache.read sys i addr cycle = some (sys', hit, cyc)) : sys.Grows sys' := by
  unfold Cache.read at h
  split at h
  · cases h
  · rename_i c hc
    split at h
    · cases h
    · rename_i set hset
      have hmiss : c.Grows { ({ c with read_count := c.read_count + 1 } : Cache) with
          read_misses := c.read_misses + 1 } := by
        unfold Cache.Grows Cache.statsOk
        dsimp only
        omega
      split at h
      · exact Cache.readMiss_grows hc hmiss h
      · split at h
        · cases h
          apply System.setCache_grows
          intro x hx
          rw [hc] at hx
          cases hx
          unfold Cache.Grows Cache.statsOk Cache.setLine
          dsimp only
          omega
        · exact Cache.readMiss_grows hc hmiss h

theorem Cache.write_grows {sys sys' : System} {i addr cyc : Nat} {cycle : Int} {hit : Bool}
    (h : Cache.write sys i addr cycle = some (sys', hit, cyc)) : sys.Grows sys' := by
  unfold Cache.write at h
  split at h
  · cases h
  · rename_i c hc
    split at h
    · cases h
    · rename_i set hset
      have hmiss : c.Grows { ({ c with write_count := c.write_count + 1 } : Cache) with
          write_misses := c.write_misses + 1 } := by
        unfold Cache.Grows Cache.statsOk
        dsimp only
        omega
      split at h
      · exact Cache.writeMiss_grows hc hmiss h
      · rename_i li line hfind
        have hhit : ∀ l : CacheLine, c.Grows (Cache.setLine
            { c with write_count := c.write_count + 1 } (c.extractAddressFields addr).2.1 set
            li l) := by
          intro l
          unfold Cache.Grows Cache.statsOk Cache.setLine
          dsimp only
          omega
        split at h
        · split at h
          · cases h
            apply System.setCache_grows
            intro x hx
            rw [hc] at hx
            cases hx
            exact hhit _
          · cases h
            apply System.setCache_grows
            intro x hx
            rw [hc] at hx
            cases hx
            exact hhit _
          · exact Cache.writeSharedHit_grows hc (hhit _) h
          · cases h
            apply System.setCache_grows
            intro x hx
            rw [hc] at hx
            cases hx
            exact hhit _
        · exact Cache.writeMiss_grows hc hmiss h

theorem System.step_grows {sys sys' : System} {op : Op} (h : sys.step op = some sys') :
    sys.Grows sys' := by
  cases op with
  | read i addr cycle =>
    simp only [System.step, Option.map_eq_some'] at h
    obtain ⟨⟨s1, hit, cyc⟩, hr, rfl⟩ := h
    exact Cache.read_grows hr
  | write i addr cycle =>
    simp only [System.step, Option.map_eq_some'] at h
    obtain ⟨⟨s1, hit, cyc⟩, hr, rfl⟩ := h
    exact Cache.write_grows hr
  | busRead k addr =>
    simp only [System.step] at h
    split at h
    · cases h
    · rename_i c hc
      split at h
      · cases h
      · rename_i c1 bus1 d hs
        cases h
        have t := (Cache.busRead_traffic hs).1
        have e := (Cache.busRead_evolves hs).2
        refine ⟨?_, by simp only; omega, by simp only; omega, ?_⟩
        · apply cachesGrow_set
          intro x hx
          rw [hc] at hx
          cases hx
          exact Cache.grows_of_frame (Cache.busRead_frame hs)
        · intro B hB hd
          simp only
          rw [t]
          apply Nat.dvd_add hd
          split
          · rw [hB c (List.getElem?_mem hc)]
          · exact Nat.dvd_zero _
  | busWrite k addr =>
    simp only [System.step] at h
    split at h
    · cases h
    · rename_i c hc
      split at h
      · cases h
      · rename_i c1 bus1 hs
        cases h
        have t := (Cache.busWrite_evolves hs).2
        have e := (Cache.busWrite_frame hs).2
        refine ⟨?_, e, by simp only; omega, ?_⟩
        · apply cachesGrow_set
          intro x hx
          rw [hc] at hx
          cases hx
          exact Cache.grows_of_frame (Cache.busWrite_frame hs).1
        · intro B _ hd
          simp only
          rw [t]
          exact hd
  | busUpgrade k addr =>
    simp only [System.step] at h
    split at h
    · cases h
    · rename_i c hc
      split at h
      · cases h
      · rename_i c1 bus1 hs
        cases h
        have t := (Cache.busUpgrade_evolves hs).2
        have e := (Cache.busUpgrade_frame hs).2
        refine ⟨?_, e, by simp only; omega, ?_⟩
        · apply cachesGrow_set
          intro x hx
          rw [hc] at hx
          cases hx
          exact Cache.grows_of_frame (Cache.busUpgrade_frame hs).1
        · intro B _ hd
          simp only
          rw [t]
          exact hd

theorem System.run_grows : ∀ (ops : List Op) {sys sys' : System},
    sys.run ops = some sys' → sys.Grows sys' := by
  intro ops
  induction ops with
  | nil =>
    intro sys sys' h
    simp only [System.run, Option.some.injEq] at h
    subst h
    exact System.sys_grows_refl _
  | cons op ops ih =>
    intro sys sys' h
    unfold System.run at h
    split at h
    · cases h
    · rename_i sys1 hs
      exact System.sys_grows_trans (System.step_grows hs) (ih h)

theorem System.init_stats (s E b : Nat) :
    ∀ c ∈ (System.init s E b).caches, c.block_size = 2 ^ b ∧ c.statsOk := by
  intro c hc
  simp only [System.init, List.mem_cons, List.mem_singleton, List.not_mem_nil, or_false] at hc
  rcases hc with rfl | rfl | rfl | rfl <;>
    exact ⟨Nat.one_shiftLeft b, Nat.le_refl _, Nat.le_refl _, Nat.le_refl _⟩

theorem cachesGrow_statsOk {cs cs' : List Cache} (h : CachesGrow cs cs')
    (hok : ∀ c ∈ cs, c.statsOk) : ∀ c ∈ cs', c.statsOk := by
  intro c' hmem
  obtain ⟨k, hk⟩ := List.getElem?_of_mem hmem
  have hlt : k < cs.length := by
    have := lt_of_getElem?_some hk
    have := h.1
    omega
  obtain ⟨c, hc⟩ := getElem?_exists_of_lt hlt
  exact (h.2 k c c' hc hk).2.2.2.2.2.2.2 (hok c (List.getElem?_mem hc))

theorem System.run_append : ∀ (a b : List Op) (sys : System),
    sys.run (a ++ b) = (sys.run a).bind (fun s => s.run b) := by
  intro a
  induction a with
  | nil => intro b sys; rfl
  | cons op ops ih =>
    intro b sys
    simp only [List.cons_append, System.run]
    cases sys.step op with
    | none => rfl
    | some s1 => exact ih b s1

/-- A call that issued a missing instruction: the shape of the resulting core. -/
theorem Core.exec_issued_miss (core core1 : Core) (sys sys1 : System) (c : Int) (k : Nat)
    (active : Bool)
    (h : core.exec sys c = some (core1, sys1, active, Outcome.issued false k)) :
    active = true ∧
    ∃ rest eof fail,
      core1 = { core with trace := rest, eofbit := eof, failbit := fail,
                          instruction_count := core.instruction_count + 1,
                          total_cycles := core.total_cycles + 1,
                          is_stalled := true,
                          stall_until_cycle := wrapInt32 (c + k) } := by
  unfold Core.exec at h
  split at h
  · simp at h
  · unfold Core.issue at h
    dsimp only at h
    repeat' (split at h)
    all_goals (try (simp at h; done))
    all_goals (
      unfold Core.account at h
      split at h
      · simp only [Option.some.injEq, Prod.mk.injEq, Outcome.issued.injEq] at h
        obtain ⟨h1, _, h3, _, h5⟩ := h
        subst h5
        exact ⟨h3.symm, _, _, _, h1.symm⟩
      · rename_i hh
        simp only [Option.some.injEq, Prod.mk.injEq, Outcome.issued.injEq] at h
        obtain ⟨_, _, _, h4, _⟩ := h
        subst h4
        simp at hh)

/-- The part after the stall test never touches `idle_cycles`. -/
theorem Core.issue_idle (core : Core) (sys : System) (c : Int)
    (r : Core × System × Bool × Outcome) (h : Core.issue core sys c = some r) :
    r.1.idle_cycles = core.idle_cycles := by
  unfold Core.issue at h
  dsimp only at h
  repeat' (split at h)
  all_goals (try (simp at h; done))
  all_goals (
    simp only [Option.some.injEq] at h
    subst h
    first
      | rfl
      | (unfold Core.account; split <;> rfl))

theorem findLineFrom_none_of {tag : Nat} : ∀ {ls : List CacheLine},
    (∀ l ∈ ls, l.valid = true → l.tag ≠ tag) → findLineFrom tag ls = none := by
  intro ls
  induction ls with
  | nil => intro _; rfl
  | cons x xs ih =>
    intro h
    unfold findLineFrom
    have hx : (x.valid && x.tag == tag) = false := by
      cases hv : x.valid with
      | false => rfl
      | true =>
        have := h x (List.mem_cons_self _ _) hv
        simp [this]
    rw [hx]
    simp only [Bool.false_eq_true, if_false]
    rw [ih (fun l hl => h l (List.mem_cons_of_mem _ hl))]
    rfl

theorem Cache.init_set (i s E b addr : Nat) :
    (Cache.init i s E b).cache_sets[((Cache.init i s E b).extractAddressFields addr).2.1]? =
      some (CacheSet.init E) := by
  have h := (Cache.init i s E b).set_idx_lt addr
  have h2 : (Cache.init i s E b).cache_sets = List.replicate (1 <<< s) (CacheSet.init E) := rfl
  have h3 : (Cache.init i s E b).s_bits = s := rfl
  rw [h3] at h
  rw [h2, List.getElem?_replicate, if_pos h]

theorem findLineFrom_cold (tag n : Nat) :
    findLineFrom tag (List.replicate n CacheLine.init) = none := by
  apply findLineFrom_none_of
  intro l hl hv
  rw [List.eq_of_mem_replicate hl] at hv
  cases hv

theorem Cache.init_busRead (i s E b addr : Nat) (bus : Bus) :
    (Cache.init i s E b).busRead bus addr = some (Cache.init i s E b, bus, 0) := by
  unfold Cache.busRead
  rw [Cache.init_set]
  simp only [CacheSet.findLine, CacheSet.init, findLineFrom_cold]

theorem Cache.init_busWrite (i s E b addr : Nat) (bus : Bus) :
    (Cache.init i s E b).busWrite bus addr = some (Cache.init i s E b, bus) := by
  unfold Cache.busWrite
  rw [Cache.init_set]
  simp only [CacheSet.findLine, CacheSet.init, findLineFrom_cold]

/-- A write transaction of core 0 while the three peers are cold: nothing
moves except the invalidation counter, which grows by 3. -/
theorem Bus.processWrite_cold (c0 : Cache) (h0 : c0.core_id = 0) (s E b addr : Nat) (bus : Bus) :
    Bus.processWrite
        { caches := [c0, Cache.init 1 s E b, Cache.init 2 s E b, Cache.init 3 s E b],
          bus := bus } 0 addr =
      some ({ caches := [c0, Cache.init 1 s E b, Cache.init 2 s E b, Cache.init 3 s E b],
              bus := { bus with invalidations := bus.invalidations + 3 } }, 100) := by
  have e1 : (Cache.init 1 s E b).core_id = 1 := rfl
  have e2 : (Cache.init 2 s E b).core_id = 2 := rfl
  have e3 : (Cache.init 3 s E b).core_id = 3 := rfl
  simp [Bus.processWrite, Bus.readPhase, Bus.writePhase, h0, e1, e2, e3, Cache.init_busRead,
    Cache.init_busWrite]

theorem firstInvalid_filled (c : Cache) (E : Nat) (ws : List (Nat × Int)) (h : ws.length < E) :
    firstInvalid (filledLines c E ws) = some ws.length := by
  unfold filledLines
  induction ws generalizing E with
  | nil =>
    obtain ⟨m, rfl⟩ : ∃ m, E = m + 1 := ⟨E - 1, by simp at h; omega⟩
    simp [List.replicate_succ, firstInvalid, CacheLine.init]
  | cons w ws ih =>
    obtain ⟨m, rfl⟩ : ∃ m, E = m + 1 := ⟨E - 1, by simp at h; omega⟩
    have hm : ws.length < m := by simp at h; omega
    have := ih m hm
    simp only [List.map_cons, List.cons_append, List.length_cons, firstInvalid, writtenLine,
      Bool.not_true, Bool.false_eq_true, if_false]
    rw [show m + 1 - (ws.length + 1) = m - ws.length by omega]
    simp only [writtenLine] at this
    exact congrArg (Option.map (fun x => x + 1)) this

theorem lruScan_keep : ∀ (ls : List CacheLine) (i : Nat) (best : Nat × CacheLine),
    (∀ l ∈ ls, best.2.last_access ≤ l.last_access) → lruScan ls i best = best := by
  intro ls
  induction ls with
  | nil => intro i best _; rfl
  | cons x xs ih =>
    intro i best h
    unfold lruScan
    have hx := h x (List.mem_cons_self _ _)
    rw [if_neg (by omega)]
    exact ih (i + 1) best (fun l hl => h l (List.mem_cons_of_mem _ hl))

/-- A write miss of core 0 in `writerSystem` whose replacement way `ri` is
either free (`code = 0`) or dirty (`code = 2`). -/
theorem Cache.write_writer (s E b si : Nat) (lines : List CacheLine) (n ev addr : Nat)
    (cycle : Int) (ri code : Nat)
    (hsi : ((Cache.init 0 s E b).extractAddressFields addr).2.1 = si)
    (hfind : findLineFrom ((Cache.init 0 s E b).extractAddressFields addr).1 lines = none)
    (hrep : CacheSet.findReplacementLine { lines := lines } = some (ri, code))
    (hcode : code = 0 ∨ code = 2) :
    Cache.write (writerSystem s E b si lines n ev) 0 addr cycle =
      some (writerSystem s E b si
              (lines.set ri
                (writtenLine ((Cache.init 0 s E b).extractAddressFields addr).1 cycle))
              (n + 1) (ev + code / 2),
            false, 50 * code + 100) := by
  have hlt : si < (List.replicate (1 <<< s) (CacheSet.init E)).length := by
    rw [← hsi, List.length_replicate]
    exact (Cache.init 0 s E b).set_idx_lt addr
  have hc : (writerSystem s E b si lines n ev).caches[0]? =
      some (writerCache s E b si lines n ev) := rfl
  have hset : (writerCache s E b si lines n ev).cache_sets[
      ((writerCache s E b si lines n ev).extractAddressFields addr).2.1]? =
      some { lines := lines } := by
    show ((List.replicate (1 <<< s) (CacheSet.init E)).set si { lines := lines })[
      ((Cache.init 0 s E b).extractAddressFields addr).2.1]? = _
    rw [hsi, List.getElem?_set_self hlt]
  have hmiss : (writerCache s E b si lines n ev).hit addr = false := by
    unfold Cache.hit Cache.findLine
    rw [hset]
    show (match findLineFrom ((Cache.init 0 s E b).extractAddressFields addr).1 lines with
      | none => false
      | some (_, line) => line.valid && line.state != MESIState.INVALID) = false
    rw [hfind]
  rw [Cache.write_of_miss cycle hc hset hmiss]
  unfold Cache.writeMiss
  have hpw := Bus.processWrite_cold
    { writerCache s E b si lines n ev with write_count := n + 1, write_misses := n + 1 } rfl
    s E b addr { invalidations := 3 * n, data_traffic_bytes := 0 }
  have hsys : (writerSystem s E b si lines n ev).setCache 0
      { ({ writerCache s E b si lines n ev with
            write_count := (writerCache s E b si lines n ev).write_count + 1 } : Cache) with
        write_misses := (writerCache s E b si lines n ev).write_misses + 1 } =
      { caches := [{ writerCache s E b si lines n ev with
                       write_count := n + 1, write_misses := n + 1 },
                   Cache.init 1 s E b, Cache.init 2 s E b, Cache.init 3 s E b],
        bus := { invalidations := 3 * n, data_traffic_bytes := 0 } } := rfl
  have hid : ({ writerCache s E b si lines n ev with
      write_count := (writerCache s E b si lines n ev).write_count + 1 } : Cache).core_id = 0 := rfl
  erw [hsys, hid, hpw]
  dsimp only
  simp only [List.getElem?_cons_zero]
  unfold Cache.missFill
  have hset2 : ({ writerCache s E b si lines n ev with
      write_count := n + 1, write_misses := n + 1 } : Cache).cache_sets[
      (({ writerCache s E b si lines n ev with
          write_count := (writerCache s E b si lines n ev).write_count + 1 } :
          Cache).extractAddressFields addr).2.1]? = some { lines := lines } := hset
  erw [hset2]
  dsimp only
  rw [hrep]
  dsimp only
  have hl : ((List.replicate (1 <<< s) (CacheSet.init E)).set si { lines := lines }).set si
      { lines := lines.set ri
          (writtenLine ((Cache.init 0 s E b).extractAddressFields addr).1 cycle) } =
      (List.replicate (1 <<< s) (CacheSet.init E)).set si
        { lines := lines.set ri
            (writtenLine ((Cache.init 0 s E b).extractAddressFields addr).1 cycle) } :=
    List.set_set _ _ _ _
  rcases hcode with rfl | rfl
  · simp only [writerSystem, writerCache, Cache.init, System.setCache, Cache.setLine,
      CacheSet.setLine, writtenLine, Cache.extractAddressFields, List.set_cons_zero] at hsi hl ⊢
    simp [hsi, hl]
    omega
  · simp only [writerSystem, writerCache, Cache.init, System.setCache, Cache.setLine,
      CacheSet.setLine, writtenLine, Cache.extractAddressFields, List.set_cons_zero] at hsi hl ⊢
    simp [hsi, hl]
    omega

theorem set_replicate_same {α : Type} (n i : Nat) (a : α) :
    (List.replicate n a).set i a = List.replicate n a := by
  apply List.ext_getElem?
  intro j
  rw [List.getElem?_set]
  split
  · rename_i h
    subst h
    split
    · rename_i h2
      rw [List.length_replicate] at h2
      rw [List.getElem?_replicate, if_pos h2]
    · rename_i h2
      rw [List.length_replicate] at h2
      rw [List.getElem?_replicate, if_neg h2]
  · rfl

/-- The cold system is `writerSystem` before any write. -/
theorem writerSystem_cold (s E b si : Nat) :
    writerSystem s E b si (filledLines (Cache.init 0 s E b) E []) 0 0 = System.init s E b := by
  have h : ((Cache.init 0 s E b).cache_sets.set si
      { lines := filledLines (Cache.init 0 s E b) E [] }) = (Cache.init 0 s E b).cache_sets := by
    show (List.replicate (1 <<< s) (CacheSet.init E)).set si
      { lines := [] ++ List.replicate (E - 0) CacheLine.init } = _
    exact set_replicate_same _ _ _
  unfold writerSystem writerCache System.init
  rw [h]
  rfl

theorem filledLines_snoc (c : Cache) (E : Nat) (p : List (Nat × Int)) (w : Nat × Int)
    (h : p.length < E) :
    (filledLines c E p).set p.length (writtenLine (c.extractAddressFields w.1).1 w.2) =
      filledLines c E (p ++ [w]) := by
  unfold filledLines
  obtain ⟨m, hm⟩ : ∃ m, E - p.length = m + 1 := ⟨E - p.length - 1, by omega⟩
  have hm2 : E - (p ++ [w]).length = m := by
    rw [List.length_append, List.length_singleton]
    omega
  rw [hm, hm2, List.set_append_right _ _ (by simp)]
  simp [List.replicate_succ]

theorem filledLines_find (c : Cache) (E : Nat) (p : List (Nat × Int)) (tag : Nat)
    (h : ∀ w ∈ p, (c.extractAddressFields w.1).1 ≠ tag) :
    findLineFrom tag (filledLines c E p) = none := by
  apply findLineFrom_none_of
  intro l hl hv
  unfold filledLines at hl
  rcases List.mem_append.1 hl with hl | hl
  · obtain ⟨w, hw, rfl⟩ := List.mem_map.1 hl
    exact h w hw
  · rw [List.eq_of_mem_replicate hl] at hv
    cases hv

/-- While the set has a free way, each further write with a fresh tag fills
the lowest free way and evicts nothing. -/
theorem run_writes_fill (s E b si : Nat) (p : List (Nat × Int)) :
    p.length ≤ E →
    (∀ w ∈ p, ((Cache.init 0 s E b).extractAddressFields w.1).2.1 = si) →
    (p.map (fun w => ((Cache.init 0 s E b).extractAddressFields w.1).1)).Nodup →
    (System.init s E b).run (p.map (fun w => Op.write 0 w.1 w.2)) =
      some (writerSystem s E b si (filledLines (Cache.init 0 s E b) E p) p.length 0) := by
  induction p using List.reverseRecOn with
  | nil =>
    intro _ _ _
    exact congrArg some (writerSystem_cold s E b si).symm
  | append_singleton p w ih =>
    intro hlen hset htag
    rw [List.length_append, List.length_singleton] at hlen
    rw [List.map_append, List.nodup_append] at htag
    obtain ⟨hnd, _, hdis⟩ := htag
    have hfresh : ∀ w1 ∈ p, ((Cache.init 0 s E b).extractAddressFields w1.1).1 ≠
        ((Cache.init 0 s E b).extractAddressFields w.1).1 := by
      intro w1 hw1 heq
      exact hdis (List.mem_map.2 ⟨w1, hw1, rfl⟩) (by rw [heq]; simp)
    have ih1 := ih (by omega) (fun w1 hw1 => hset w1 (List.mem_append_left _ hw1)) hnd
    have hrep : CacheSet.findReplacementLine
        { lines := filledLines (Cache.init 0 s E b) E p } = some (p.length, 0) := by
      unfold CacheSet.findReplacementLine
      rw [firstInvalid_filled _ _ _ (by omega)]
    have hwr := Cache.write_writer s E b si (filledLines (Cache.init 0 s E b) E p) p.length 0
      w.1 w.2 p.length 0 (hset w (by simp))
      (filledLines_find _ _ _ _ hfresh) hrep (Or.inl rfl)
    rw [filledLines_snoc _ _ _ _ (by omega)] at hwr
    rw [List.map_append, System.run_append, ih1]
    simp only [List.map_cons, List.map_nil, Option.some_bind, System.run, System.step]
    simp only [List.length_append, List.length_singleton]
    rw [hwr]
    rfl

/-- With the set full of written lines, the first of them the oldest, one more
write with a fresh tag evicts way 0, which is dirty. -/
theorem write_full_set (s E b si : Nat) (first : Nat × Int) (rest : List (Nat × Int))
    (w : Nat × Int) (hlen : (first :: rest).length = E)
    (hold : ∀ w1 ∈ rest, first.2 ≤ w1.2)
    (hsi : ((Cache.init 0 s E b).extractAddressFields w.1).2.1 = si)
    (hfresh : ∀ w1 ∈ first :: rest, ((Cache.init 0 s E b).extractAddressFields w1.1).1 ≠
        ((Cache.init 0 s E b).extractAddressFields w.1).1) :
    Cache.write (writerSystem s E b si (filledLines (Cache.init 0 s E b) E (first :: rest)) E 0)
        0 w.1 w.2 =
      some (writerSystem s E b si
              ((filledLines (Cache.init 0 s E b) E (first :: rest)).set 0
                (writtenLine ((Cache.init 0 s E b).extractAddressFields w.1).1 w.2))
              (E + 1) 1, false, 200) := by
  have hfl : filledLines (Cache.init 0 s E b) E (first :: rest) =
      writtenLine ((Cache.init 0 s E b).extractAddressFields first.1).1 first.2 ::
        rest.map (fun w => writtenLine ((Cache.init 0 s E b).extractAddressFields w.1).1 w.2) := by
    unfold filledLines
    rw [hlen, Nat.sub_self]
    simp
  have hrep : CacheSet.findReplacementLine
      { lines := filledLines (Cache.init 0 s E b) E (first :: rest) } = some (0, 2) := by
    unfold CacheSet.findReplacementLine
    rw [hfl]
    have hfi : firstInvalid
        (writtenLine ((Cache.init 0 s E b).extractAddressFields first.1).1 first.2 ::
          rest.map (fun w =>
            writtenLine ((Cache.init 0 s E b).extractAddressFields w.1).1 w.2)) = none := by
      apply firstInvalid_eq_none
      intro l hl
      rcases List.mem_cons.1 hl with rfl | hl
      · rfl
      · obtain ⟨w1, _, rfl⟩ := List.mem_map.1 hl
        rfl
    rw [hfi]
    dsimp only
    rw [lruScan_keep]
    · rfl
    · intro l hl
      rcases List.mem_cons.1 hl with rfl | hl
      · exact Int.le_refl _
      · obtain ⟨w1, hw1, rfl⟩ := List.mem_map.1 hl
        exact hold w1 hw1
  exact Cache.write_writer s E b si _ E 0 w.1 w.2 0 2 hsi
    (filledLines_find _ _ _ _ hfresh) hrep (Or.inr rfl)

theorem writerCache_set (s E b si : Nat) (lines : List CacheLine) (n ev : Nat)
    (h : si < 1 <<< s) :
    (writerCache s E b si lines n ev).cache_sets[si]? = some { lines := lines } := by
  show ((List.replicate (1 <<< s) (CacheSet.init E)).set si { lines := lines })[si]? = _
  rw [List.getElem?_set_self (by rw [List.length_replicate]; exact h)]

/-- A list of `E + 1` elements with `1 ≤ E` is a first element, `E - 1` more,
and a last one. -/
theorem split_first_last {α : Type} (E : Nat) (ws : List α) (hE : 1 ≤ E)
    (hlen : ws.length = E + 1) :
    ∃ first rest last, ws = (first :: rest) ++ [last] ∧ (first :: rest).length = E := by
  have h1 : (ws.take E).length = E := by rw [List.length_take]; omega
  have h2 : (ws.drop E).length = 1 := by rw [List.length_drop]; omega
  obtain ⟨last, hl⟩ := List.length_eq_one.1 h2
  cases hp : ws.take E with
  | nil => rw [hp] at h1; simp at h1; omega
  | cons first rest =>
    refine ⟨first, rest, last, ?_, by rw [← hp]; exact h1⟩
    rw [← hp, ← hl]
    exact (List.take_append_drop E ws).symm

theorem System.init_wf (s E b : Nat) (hE : 1 ≤ E) : (System.init s E b).wf := by
  intro c hc
  have hcache : ∀ i, (Cache.init i s E b).wf := by
    intro i
    refine ⟨by simp [Cache.init], ?_⟩
    intro set hset
    simp only [Cache.init] at hset
    rw [List.eq_of_mem_replicate hset]
    simp only [CacheSet.init, List.length_replicate]
    exact hE
  simp only [System.init, List.mem_cons, List.mem_singleton, List.not_mem_nil, or_false] at hc
  rcases hc with rfl | rfl | rfl | rfl <;> exact ⟨hcache _, by simp [Cache.init, System.init]⟩

/-- `Cache::read` completes on every well-formed system. -/
theorem Cache.read_total {sys : System} (hw : sys.wf) {i : Nat} (hi : i < sys.caches.length)
    (addr : Nat) (cycle : Int) : ∃ r, Cache.read sys i addr cycle = some r := by
  obtain ⟨c, hc⟩ := getElem?_exists_of_lt hi
  obtain ⟨set, hset, _⟩ := Cache.wf_set (hw c (List.getElem?_mem hc)).1 addr
  have hmiss : ∃ r, Cache.readMiss sys i { c with read_count := c.read_count + 1 } addr cycle =
      some r := by
    obtain ⟨sys', _, _, _, _, _, cyc, _, _, h, _⟩ :=
      @Cache.readMiss_spec sys i addr c { c with read_count := c.read_count + 1 } set cycle hw hc
        (Cache.evolves_of_sets_eq rfl rfl rfl rfl rfl) rfl hset
    exact ⟨_, h⟩
  unfold Cache.read
  rw [hc]
  dsimp only
  rw [hset]
  dsimp only
  split
  · exact hmiss
  · split
    · exact ⟨_, rfl⟩
    · exact hmiss

/-- The SHARED write hit completes on every well-formed system. -/
theorem Cache.writeSharedHit_total {sys : System} (hw : sys.wf) {i : Nat} (set_idx li addr : Nat)
    {c c2 : Cache} (hc : sys.caches[i]? = some c) (h1 : c.Evolves c2)
    (set2 : CacheSet) (l2 : CacheLine) (hs2 : c2.cache_sets[set_idx]? = some set2)
    (hl2 : set2.lines[li]? = some l2) :
    ∃ sys', Cache.writeSharedHit sys i c2 set_idx li addr = some (sys', true, 3) := by
  have hw1 := System.setCache_wf hw hc h1
  obtain ⟨⟨sys2, bc⟩, hpu⟩ := Bus.processUpgrade_total hw1 c2.core_id addr
  have hself := System.setCache_getElem?_self c2 hc
  have hreq := Bus.processUpgrade_requester hpu hself rfl
  unfold Cache.writeSharedHit
  rw [hpu]
  dsimp only
  rw [hreq]
  dsimp only
  rw [hs2]
  dsimp only
  rw [hl2]
  rw [(Bus.processUpgrade_spec hpu).2.2]
  exact ⟨_, rfl⟩

/-- `Cache::write` completes on every well-formed system. -/
theorem Cache.write_total {sys : System} (hw : sys.wf) {i : Nat} (hi : i < sys.caches.length)
    (addr : Nat) (cycle : Int) : ∃ r, Cache.write sys i addr cycle = some r := by
  obtain ⟨c, hc⟩ := getElem?_exists_of_lt hi
  obtain ⟨set, hset, _⟩ := Cache.wf_set (hw c (List.getElem?_mem hc)).1 addr
  have hmiss : ∃ r, Cache.writeMiss sys i { c with write_count := c.write_count + 1 } addr
      cycle = some r := by
    obtain ⟨sys', _, _, _, _, _, cyc, _, _, h, _⟩ :=
      @Cache.writeMiss_spec sys i addr c { c with write_count := c.write_count + 1 } set cycle hw
        hc (Cache.evolves_of_sets_eq rfl rfl rfl rfl rfl) rfl hset
    exact ⟨_, h⟩
  unfold Cache.write
  rw [hc]
  dsimp only
  rw [hset]
  dsimp only
  split
  · exact hmiss
  · rename_i li line hfind
    have hline := (CacheSet.findLine_some hfind).1
    split
    · split
      · exact ⟨_, rfl⟩
      · exact ⟨_, rfl⟩
      · have hstat : c.Evolves { c with write_count := c.write_count + 1 } :=
          Cache.evolves_of_sets_eq rfl rfl rfl rfl rfl
        have hev : c.Evolves (Cache.setLine { c with write_count := c.write_count + 1 }
            (c.extractAddressFields addr).2.1 set li (line.updateLRU cycle)) :=
          hstat.cache_trans (Cache.evolves_setLine hset
            (fun l hl => by
              rw [hline] at hl
              cases hl
              exact CacheLine.evolves_updateLRU _ _))
        have hlt := lt_of_getElem?_some hset
        have hlt2 := lt_of_getElem?_some hline
        obtain ⟨sys', h⟩ := Cache.writeSharedHit_total hw
          (c.extractAddressFields addr).2.1 li addr hc hev
          (set.setLine li (line.updateLRU cycle)) (line.updateLRU cycle)
          (by
            show (c.cache_sets.set _ _)[_]? = _
            rw [List.getElem?_set_self hlt])
          (by
            show (set.lines.set _ _)[_]? = _
            rw [List.getElem?_set_self hlt2])
        exact ⟨_, h⟩
      · exact ⟨_, rfl⟩
    · exact hmiss

/-- A store through a line pointer changes that line only. -/
theorem Cache.setLine_cases {c : Cache} {idx0 li0 : Nat} {set0 : CacheSet} {line0 : CacheLine}
    (new : CacheLine) (hset0 : c.cache_sets[idx0]? = some set0)
    (hline0 : set0.lines[li0]? = some line0)
    {idx li : Nat} {set set' : CacheSet} {l l' : CacheLine}
    (hs : c.cache_sets[idx]? = some set)
    (hs' : (c.setLine idx0 set0 li0 new).cache_sets[idx]? = some set')
    (hl : set.lines[li]? = some l) (hl' : set'.lines[li]? = some l') :
    l' = l ∨ (l = line0 ∧ l' = new) := by
  obtain ⟨a1, a2, a3, a4, _⟩ := Cache.setLine_lookup new hset0 hline0
  by_cases hidx : idx = idx0
  · subst hidx
    rw [hset0] at hs
    cases hs
    rw [a1] at hs'
    cases hs'
    by_cases hli : li = li0
    · subst hli
      rw [hline0] at hl
      cases hl
      rw [a2] at hl'
      cases hl'
      exact Or.inr ⟨rfl, rfl⟩
    · rw [a3 li hli, hl] at hl'
      cases hl'
      exact Or.inl rfl
  · rw [a4 idx hidx, hs] at hs'
    cases hs'
    rw [hl] at hl'
    cases hl'
    exact Or.inl rfl

/-- The snoop `busWrite` changes at most the `state` field of one line, to
INVALID, and no other field of the cache. -/
theorem Cache.busWrite_only_state {c c' : Cache} {bus bus' : Bus} {addr : Nat}
    (h : c.busWrite bus addr = some (c', bus'))
    {idx li : Nat} {set set' : CacheSet} {l l' : CacheLine}
    (hs : c.cache_sets[idx]? = some set) (hs' : c'.cache_sets[idx]? = some set')
    (hl : set.lines[li]? = some l) (hl' : set'.lines[li]? = some l') :
    l' = l ∨ l' = { l with state := MESIState.INVALID } := by
  unfold Cache.busWrite at h
  split at h
  · cases h
  · rename_i set0 hset0
    split at h
    · cases h
      rw [hs] at hs'
      cases hs'
      rw [hl] at hl'
      cases hl'
      exact Or.inl rfl
    · rename_i li0 line0 hfind
      have hline0 := (CacheSet.findLine_some hfind).1
      split at h
      · cases h
        rcases Cache.setLine_cases _ hset0 hline0 hs hs' hl hl' with e | ⟨e1, e2⟩
        · exact Or.inl e
        · subst e1
          exact Or.inr e2
      · cases h
        rw [hs] at hs'
        cases hs'
        rw [hl] at hl'
        cases hl'
        exact Or.inl rfl

/-- The snoop `busUpgrade` changes at most the `state` field of one line, to
INVALID, and no other field of the cache. -/
theorem Cache.busUpgrade_only_state {c c' : Cache} {bus bus' : Bus} {addr : Nat}
    (h : c.busUpgrade bus addr = some (c', bus'))
    {idx li : Nat} {set set' : CacheSet} {l l' : CacheLine}
    (hs : c.cache_sets[idx]? = some set) (hs' : c'.cache_sets[idx]? = some set')
    (hl : set.lines[li]? = some l) (hl' : set'.lines[li]? = some l') :
    l' = l ∨ l' = { l with state := MESIState.INVALID } := by
  unfold Cache.busUpgrade at h
  split at h
  · cases h
  · rename_i set0 hset0
    split at h
    · cases h
      rw [hs] at hs'
      cases hs'
      rw [hl] at hl'
      cases hl'
      exact Or.inl rfl
    · rename_i li0 line0 hfind
      have hline0 := (CacheSet.findLine_some hfind).1
      split at h
      · cases h
        rcases Cache.setLine_cases _ hset0 hline0 hs hs' hl hl' with e | ⟨e1, e2⟩
        · exact Or.inl e
        · subst e1
          exact Or.inr e2
      · cases h
        rw [hs] at hs'
        cases hs'
        rw [hl] at hl'
        cases hl'
        exact Or.inl rfl

/-- A write to a line held SHARED is a hit with `cycles_taken = 3`. -/
theorem Cache.write_shared_hit {sys : System} (hw : sys.wf) {i addr li : Nat} {c : Cache}
    {line : CacheLine} (cycle : Int) (hc : sys.caches[i]? = some c)
    (hfind : c.findLine addr = some (li, line)) (hst : line.state = MESIState.SHARED) :
    ∃ sys', Cache.write sys i addr cycle = some (sys', true, 3) := by
  obtain ⟨set, hset, hf, hline, hvalid, _⟩ := Cache.findLine_found hfind
  have hstat : c.Evolves { c with write_count := c.write_count + 1 } :=
    Cache.evolves_of_sets_eq rfl rfl rfl rfl rfl
  have hev : c.Evolves (Cache.setLine { c with write_count := c.write_count + 1 }
      (c.extractAddressFields addr).2.1 set li (line.updateLRU cycle)) :=
    hstat.cache_trans (Cache.evolves_setLine hset
      (fun l hl => by
        rw [hline] at hl
        cases hl
        exact CacheLine.evolves_updateLRU _ _))
  have hlt := lt_of_getElem?_some hset
  have hlt2 := lt_of_getElem?_some hline
  obtain ⟨sys', h⟩ := Cache.writeSharedHit_total hw
    (c.extractAddressFields addr).2.1 li addr hc hev
    (set.setLine li (line.updateLRU cycle)) (line.updateLRU cycle)
    (by
      show (c.cache_sets.set _ _)[_]? = _
      rw [List.getElem?_set_self hlt])
    (by
      show (set.lines.set _ _)[_]? = _
      rw [List.getElem?_set_self hlt2])
  refine ⟨sys', ?_⟩
  unfold Cache.write
  rw [hc]
  dsimp only
  rw [hset]
  dsimp only
  rw [hf]
  dsimp only
  rw [if_pos (by simp [hvalid, hst])]
  split
  · rename_i h2
    rw [hst] at h2
    cases h2
  · rename_i h2
    rw [hst] at h2
    cases h2
  · exact h
  · rename_i h2
    rw [hst] at h2
    cases h2

/-- A call that issued a hitting instruction: the shape of the resulting core. -/
theorem Core.exec_issued_hit (core core1 : Core) (sys sys1 : System) (c : Int) (k : Nat)
    (active : Bool)
    (h : core.exec sys c = some (core1, sys1, active, Outcome.issued true k)) :
    active = true ∧
    ∃ rest eof fail,
      core1 = { core with trace := rest, eofbit := eof, failbit := fail,
                          instruction_count := core.instruction_count + 1,
                          total_cycles := core.total_cycles + 1,
                          is_stalled := false } := by
  unfold Core.exec at h
  split at h
  · simp at h
  · unfold Core.issue at h
    dsimp only at h
    repeat' (split at h)
    all_goals (try (simp at h; done))
    all_goals (
      unfold Core.account at h
      split at h
      · rename_i hh
        simp only [Option.some.injEq, Prod.mk.injEq, Outcome.issued.injEq] at h
        obtain ⟨_, _, _, h4, _⟩ := h
        subst h4
        simp at hh
      · simp only [Option.some.injEq, Prod.mk.injEq, Outcome.issued.injEq] at h
        obtain ⟨h1, _, h3, _, h5⟩ := h
        subst h5
        exact ⟨h3.symm, _, _, _, h1.symm⟩)

/-- A call on a core that does not wait, whose stream is good and whose next
line is a write: the cache call decides the outcome. -/
theorem Core.exec_write (core : Core) (sys sys1 : System) (c : Int)
    (line rest tok : List Nat) (eof fail hit : Bool) (op v k : Nat)
    (hnw : (core.is_stalled && decide (c < core.stall_until_cycle)) = false)
    (hgood : (core.eofbit || core.failbit) = false)
    (hg : getline core.trace = (line, rest, eof, fail))
    (hp : parseLine line = some (op, tok)) (hop : op = 87 ∨ op = 119)
    (hv : stoul16 (strip0x tok) = some v)
    (hwr : Cache.write sys core.cache (v % 2 ^ 32) c = some (sys1, hit, k)) :
    core.exec sys c =
      some (Core.account
        { core with is_stalled := false, trace := rest, eofbit := eof, failbit := fail,
                    instruction_count := core.instruction_count + 1 }
        sys1 c hit k) := by
  have hne : line.isEmpty = false := by
    cases line with
    | nil => simp [parseLine, skipSpace] at hp
    | cons x xs => rfl
  have hop1 : (op == 82 || op == 114) = false := by
    rcases hop with rfl | rfl <;> decide
  have hop2 : (op == 87 || op == 119) = true := by
    rcases hop with rfl | rfl <;> decide
  unfold Core.exec
  rw [hnw]
  simp only [Bool.false_eq_true, if_false]
  unfold Core.issue
  dsimp only
  rw [hgood]
  simp only [Bool.false_eq_true, if_false]
  rw [hg]
  dsimp only
  rw [hne]
  simp only [Bool.false_eq_true, if_false]
  rw [hp]
  dsimp only
  rw [hv]
  dsimp only
  rw [hop1, hop2]
  simp only [Bool.false_eq_true, if_false, if_true]
  rw [hwr]

theorem getline_spec : ∀ (bytes line rest : List Nat) (eof fail : Bool),
    getline bytes = (line, rest, eof, fail) →
    rest.length + (if eof then 0 else 1) ≤ bytes.length ∧
    (fail = true → eof = true) ∧ (eof = true → rest = []) := by
  intro bytes
  induction bytes with
  | nil =>
    intro line rest eof fail h
    simp only [getline, Prod.mk.injEq] at h
    obtain ⟨_, rfl, rfl, rfl⟩ := h
    simp
  | cons ch bs ih =>
    intro line rest eof fail h
    unfold getline at h
    split at h
    · simp only [Prod.mk.injEq] at h
      obtain ⟨_, rfl, rfl, rfl⟩ := h
      simp
    · split at h
      rename_i l1 r1 e1 f1 hg
      simp only [Prod.mk.injEq] at h
      obtain ⟨_, rfl, rfl, rfl⟩ := h
      obtain ⟨a1, _, a4⟩ := ih l1 r1 e1 f1 hg
      refine ⟨?_, ?_, a4⟩
      · rw [List.length_cons]
        omega
      · intro hf
        cases hf

theorem lineOk_nil : lineOk [] = true := by decide

theorem getline_traceOk : ∀ (bytes acc line rest : List Nat) (eof fail : Bool),
    traceOkFrom bytes acc = true → getline bytes = (line, rest, eof, fail) →
    lineOk (acc.reverse ++ line) = true ∧ traceOk rest = true := by
  intro bytes
  induction bytes with
  | nil =>
    intro acc line rest eof fail h hg
    simp only [getline, Prod.mk.injEq] at hg
    obtain ⟨rfl, rfl, _, _⟩ := hg
    simp only [traceOkFrom] at h
    refine ⟨by simpa using h, ?_⟩
    exact lineOk_nil
  | cons ch bs ih =>
    intro acc line rest eof fail h hg
    unfold getline at hg
    unfold traceOkFrom at h
    split at hg
    · rename_i hc
      simp only [Prod.mk.injEq] at hg
      obtain ⟨rfl, rfl, _, _⟩ := hg
      rw [if_pos hc, Bool.and_eq_true] at h
      exact ⟨by simpa using h.1, h.2⟩
    · rename_i hc
      split at hg
      rename_i l1 r1 e1 f1 hg1
      simp only [Prod.mk.injEq] at hg
      obtain ⟨rfl, rfl, _, _⟩ := hg
      rw [if_neg hc] at h
      have := ih (ch :: acc) l1 r1 e1 f1 h hg1
      simpa using this

/-- The call returns false exactly when the core is finished, whatever the
system is. -/
theorem Core.exec_active (core : Core) (sys : System) (c : Int)
    (r : Core × System × Bool × Outcome) (h : core.exec sys c = some r) :
    (r.2.2.1 = false ↔ core.finished c = true) := by
  unfold Core.exec at h
  unfold Core.finished
  split at h
  · rename_i hst
    simp only [Option.some.injEq] at h
    subst h
    simp [hst]
  · rename_i hst
    have hst2 : (core.is_stalled && decide (c < core.stall_until_cycle)) = false := by
      simpa using hst
    rw [hst2]
    unfold Core.issue at h
    dsimp only at h
    split at h
    · rename_i hgood
      simp only [Option.some.injEq] at h
      subst h
      simp [hgood]
    · rename_i hgood
      have hg2 : (core.eofbit || core.failbit) = false := by simpa using hgood
      rw [hg2]
      repeat' (split at h)
      all_goals (try (simp at h; done))
      all_goals (
        simp only [Option.some.injEq] at h
        subst h
        first
          | (simp; done)
          | (unfold Core.account; split <;> simp))

theorem Core.account_spec (core : Core) (sys : System) (c : Int) (hit : Bool) (k : Nat) :
    ∃ core1, Core.account core sys c hit k = (core1, sys, true, Outcome.issued hit k) ∧
      core1.cache = core.cache ∧ core1.trace = core.trace ∧ core1.eofbit = core.eofbit ∧
      core1.failbit = core.failbit := by
  unfold Core.account
  split
  · exact ⟨_, rfl, rfl, rfl, rfl, rfl⟩
  · exact ⟨_, rfl, rfl, rfl, rfl, rfl⟩

/-- On a good stream whose lines convert, the part after the stall test reads
one line and returns active; the system stays well formed. -/
theorem Core.issue_good (core : Core) (sys : System) (c : Int) (hw : sys.wf)
    (hcache : core.cache < sys.caches.length) (htr : traceOk core.trace = true)
    (hgood : (core.eofbit || core.failbit) = false) :
    ∃ core1 sys1 out, Core.issue core sys c = some (core1, sys1, true, out) ∧
      CachesEvolve sys.caches sys1.caches ∧ core1.cache = core.cache ∧
      core1.trace = (getline core.trace).2.1 ∧ core1.eofbit = (getline core.trace).2.2.1 ∧
      core1.failbit = (getline core.trace).2.2.2 := by
  rcases hgl : getline core.trace with ⟨line, rest, eof, fail⟩
  have hlo : lineOk line = true := by
    have := (getline_traceOk core.trace [] line rest eof fail htr hgl).1
    simpa using this
  unfold Core.issue
  rw [hgood]
  simp only [Bool.false_eq_true, if_false]
  rw [hgl]
  dsimp only
  split
  · exact ⟨_, sys, _, rfl, CachesEvolve.refl _, rfl, rfl, rfl, rfl⟩
  · split
    · exact ⟨_, sys, _, rfl, CachesEvolve.refl _, rfl, rfl, rfl, rfl⟩
    · rename_i op tok hp
      unfold lineOk at hlo
      rw [hp] at hlo
      dsimp only at hlo
      split
      · rename_i hv
        rw [hv] at hlo
        cases hlo
      · rename_i v hv
        split
        · obtain ⟨⟨sys1, hit, k⟩, hrd⟩ := Cache.read_total hw hcache (v % 2 ^ 32) c
          rw [hrd]
          dsimp only
          obtain ⟨core1, hacc, h1, h2, h3, h4⟩ := Core.account_spec
            { core with trace := rest, eofbit := eof, failbit := fail,
                        instruction_count := core.instruction_count + 1 } sys1 c hit k
          rw [hacc]
          exact ⟨core1, sys1, _, rfl, Cache.read_evolves hrd, h1, h2, h3, h4⟩
        · split
          · obtain ⟨⟨sys1, hit, k⟩, hwr⟩ := Cache.write_total hw hcache (v % 2 ^ 32) c
            rw [hwr]
            dsimp only
            obtain ⟨core1, hacc, h1, h2, h3, h4⟩ := Core.account_spec
              { core with trace := rest, eofbit := eof, failbit := fail,
                          instruction_count := core.instruction_count + 1 } sys1 c hit k
            rw [hacc]
            exact ⟨core1, sys1, _, rfl, Cache.write_evolves hwr, h1, h2, h3, h4⟩
          · exact ⟨_, sys, _, rfl, CachesEvolve.refl _, rfl, rfl, rfl, rfl⟩

/-- One call of `Core::executeNextInstruction` during a run: it returns, keeps
what the run keeps, and makes progress. -/
theorem Core.exec_progress (core : Core) (sys : System) (c : Int) (hw : sys.wf)
    (hok : core.ok sys.caches.length) :
    ∃ core1 sys1 act out, core.exec sys c = some (core1, sys1, act, out) ∧
      sys1.wf ∧ sys1.caches.length = sys.caches.length ∧ core1.ok sys.caches.length ∧
      core1.pending ≤ core.pending ∧
      (core1.pending = core.pending →
        core1.waitLeft (c + 1) ≤ core.waitLeft c ∧
        (act = true → core1.waitLeft (c + 1) < core.waitLeft c)) := by
  obtain ⟨hcache, htr, heof⟩ := hok
  by_cases hst : (core.is_stalled && decide (c < core.stall_until_cycle)) = true
  · refine ⟨{ core with idle_cycles := core.idle_cycles + 1 }, sys, true, Outcome.stalled,
      ?_, hw, rfl, ⟨hcache, htr, heof⟩, Nat.le_refl _, ?_⟩
    · unfold Core.exec
      rw [if_pos hst]
    · intro _
      have hs1 : core.is_stalled = true := by
        simp only [Bool.and_eq_true] at hst
        exact hst.1
      have hs2 : c < core.stall_until_cycle := by
        simp only [Bool.and_eq_true, decide_eq_true_eq] at hst
        exact hst.2
      have hlt : Core.waitLeft { core with idle_cycles := core.idle_cycles + 1 } (c + 1) <
          core.waitLeft c := by
        unfold Core.waitLeft
        rw [if_pos hst]
        dsimp only
        split
        · omega
        · omega
      exact ⟨Nat.le_of_lt hlt, fun _ => hlt⟩
  · have hst2 : (core.is_stalled && decide (c < core.stall_until_cycle)) = false := by
      simpa using hst
    have hex : core.exec sys c = Core.issue { core with is_stalled := false } sys c := by
      unfold Core.exec
      rw [if_neg hst]
    have hwl : ∀ core1 : Core, core1.is_stalled = false → core1.waitLeft (c + 1) = 0 := by
      intro core1 h1
      unfold Core.waitLeft
      rw [h1]
      rfl
    by_cases hgood : (core.eofbit || core.failbit) = true
    · refine ⟨{ core with is_stalled := false }, sys, false, Outcome.done, ?_, hw, rfl,
        ⟨hcache, htr, heof⟩, Nat.le_refl _, ?_⟩
      · rw [hex]
        unfold Core.issue
        dsimp only
        rw [if_pos hgood]
      · intro _
        rw [hwl _ rfl]
        exact ⟨Nat.zero_le _, fun h => by cases h⟩
    · have hg2 : (core.eofbit || core.failbit) = false := by simpa using hgood
      obtain ⟨core1, sys1, out, hiss, hev, h1, h2, h3, h4⟩ :=
        Core.issue_good { core with is_stalled := false } sys c hw hcache htr hg2
      rcases hgl : getline core.trace with ⟨line, rest, eof, fail⟩
      have h2' : core1.trace = (getline core.trace).2.1 := h2
      have h3' : core1.eofbit = (getline core.trace).2.2.1 := h3
      have h4' : core1.failbit = (getline core.trace).2.2.2 := h4
      rw [hgl] at h2' h3' h4'
      dsimp only at h2' h3' h4'
      obtain ⟨g1, g2, g3⟩ := getline_spec core.trace line rest eof fail hgl
      have htr1 := (getline_traceOk core.trace [] line rest eof fail htr hgl).2
      have hwf1 : sys1.wf := hev.wf hw
      have hpend : core1.pending < core.pending := by
        unfold Core.pending
        rw [h2', h3', h4', hg2]
        simp only [Bool.false_eq_true, if_false]
        cases eof <;> cases fail <;> simp_all
        omega
      refine ⟨core1, sys1, true, out, ?_, hwf1, hev.1, ⟨?_, ?_, ?_⟩, Nat.le_of_lt hpend, ?_⟩
      · rw [hex]
        exact hiss
      · rw [h1]
        exact hcache
      · rw [h2']
        exact htr1
      · intro he
        rw [h2']
        rw [h3', h4'] at he
        apply g3
        cases eof
        · simp only [Bool.false_or] at he
          exact g2 he
        · rfl
      · intro heq
        omega

/-- The `for` loop over the cores during a run: it completes, keeps what the
run keeps, reports `all_done` exactly when every core is finished, and makes
progress. -/
theorem CacheSimulator.stepCores_progress (c : Int) :
    ∀ (cores : List Core) (sys : System) (d : Bool), sys.wf →
      (∀ core ∈ cores, core.ok sys.caches.length) →
      ∃ cores1 sys1 d1, CacheSimulator.stepCores c cores sys d = some (cores1, sys1, d1) ∧
        sys1.wf ∧ sys1.caches.length = sys.caches.length ∧
        (∀ core ∈ cores1, core.ok sys.caches.length) ∧
        cores1.length = cores.length ∧
        d1 = (d && cores.all (fun core => core.finished c)) ∧
        (cores1.map Core.pending).sum ≤ (cores.map Core.pending).sum ∧
        ((cores1.map Core.pending).sum = (cores.map Core.pending).sum →
          (cores1.map (fun core => core.waitLeft (c + 1))).sum ≤
            (cores.map (fun core => core.waitLeft c)).sum ∧
          (d = true → d1 = false →
            (cores1.map (fun core => core.waitLeft (c + 1))).sum <
              (cores.map (fun core => core.waitLeft c)).sum)) := by
  intro cores
  induction cores with
  | nil =>
    intro sys d hw _
    refine ⟨[], sys, d, rfl, hw, rfl, fun _ h => absurd h (List.not_mem_nil _), rfl, by simp,
      Nat.le_refl _, ?_⟩
    intro _
    refine ⟨Nat.le_refl _, ?_⟩
    intro h1 h2
    rw [h1] at h2
    cases h2
  | cons core rest ih =>
    intro sys d hw hok
    obtain ⟨core1, sys1, act, out, hex, hw1, hl1, hok1, hp1, hwl1⟩ :=
      Core.exec_progress core sys c hw (hok core (List.mem_cons_self _ _))
    have hact := Core.exec_active core sys c _ hex
    dsimp only at hact
    have hokr : ∀ x ∈ rest, x.ok sys1.caches.length := by
      intro x hx
      rw [hl1]
      exact hok x (List.mem_cons_of_mem _ hx)
    obtain ⟨cores2, sys2, d2, hst, hw2, hl2, hok2, hlen2, hd2, hp2, hwl2⟩ :=
      ih sys1 (if act then false else d) hw1 hokr
    refine ⟨core1 :: cores2, sys2, d2, ?_, hw2, by rw [hl2, hl1], ?_, by simp [hlen2], ?_, ?_, ?_⟩
    · unfold CacheSimulator.stepCores Core.executeNextInstruction
      rw [hex]
      dsimp only [Option.map_some']
      rw [hst]
    · intro x hx
      rcases List.mem_cons.1 hx with rfl | hx
      · exact hok1
      · rw [← hl1]
        exact hok2 x hx
    · rw [hd2]
      simp only [List.all_cons]
      cases act
      · rw [hact.1 rfl]
        simp
      · have hf : core.finished c = false := by
          cases hfin : core.finished c
          · rfl
          · have := hact.2 hfin
            cases this
        rw [hf]
        simp
    · simp only [List.map_cons, List.sum_cons]
      omega
    · intro heq
      simp only [List.map_cons, List.sum_cons] at heq ⊢
      have e1 : core1.pending = core.pending := by omega
      have e2 : (cores2.map Core.pending).sum = (rest.map Core.pending).sum := by omega
      obtain ⟨a1, a2⟩ := hwl1 e1
      obtain ⟨b1, b2⟩ := hwl2 e2
      refine ⟨by omega, ?_⟩
      intro hd hd'
      cases act
      · have := b2 hd hd'
        omega
      · have := a2 rfl
        omega

/-- One iteration of the loop during a run. -/
theorem CacheSimulator.round_progress (sim : CacheSimulator) (c : Int) (hok : sim.ok) :
    ∃ sim1 d, sim.round c = some (sim1, d) ∧ sim1.ok ∧
      sim1.cores.length = sim.cores.length ∧
      d = sim.cores.all (fun core => core.finished c) ∧
      (sim1.cores.map Core.pending).sum ≤ (sim.cores.map Core.pending).sum ∧
      ((sim1.cores.map Core.pending).sum = (sim.cores.map Core.pending).sum → d = false →
        (sim1.cores.map (fun core => core.waitLeft (c + 1))).sum <
          (sim.cores.map (fun core => core.waitLeft c)).sum) := by
  obtain ⟨cores1, sys1, d1, hst, hw1, hl1, hok1, hlen, hd1, hp1, hwl1⟩ :=
    CacheSimulator.stepCores_progress c sim.cores sim.sys true hok.1 hok.2
  refine ⟨{ cores := cores1, sys := sys1 }, d1, ?_, ⟨hw1, ?_⟩, hlen, ?_, hp1, ?_⟩
  · unfold CacheSimulator.round
    rw [hst]
  · intro core hcore
    show core.ok sys1.caches.length
    rw [hl1]
    exact hok1 core hcore
  · rw [hd1]
    simp
  · intro heq hd
    exact (hwl1 heq).2 rfl hd

/-- What the run keeps holds after any number of iterations. -/
theorem CacheSimulator.cycles_ok : ∀ (n : Nat) (sim simn : CacheSimulator) (c : Int),
    sim.ok → CacheSimulator.cycles n sim c = some simn →
    simn.ok ∧ simn.cores.length = sim.cores.length := by
  intro n
  induction n with
  | zero =>
    intro sim simn c hok h
    simp only [CacheSimulator.cycles, Option.some.injEq] at h
    subst h
    exact ⟨hok, rfl⟩
  | succ n ih =>
    intro sim simn c hok h
    obtain ⟨sim1, d, hr, hok1, hlen, _⟩ := CacheSimulator.round_progress sim c hok
    unfold CacheSimulator.cycles at h
    rw [hr] at h
    cases d
    · have := ih sim1 simn (c + 1) hok1 h
      exact ⟨this.1, by rw [this.2, hlen]⟩
    · cases h

/-- Every prefix of `n` unfinished iterations is a run of unfinished
iterations, followed by an iteration that does not reach the `break`. -/
theorem CacheSimulator.cycles_before : ∀ (n : Nat) (sim simn : CacheSimulator) (c : Int),
    CacheSimulator.cycles n sim c = some simn →
    ∀ m, m < n → ∃ simm sim1, CacheSimulator.cycles m sim c = some simm ∧
      simm.round (c + m) = some (sim1, false) := by
  intro n
  induction n with
  | zero =>
    intro sim simn c _ m hm
    omega
  | succ n ih =>
    intro sim simn c h m hm
    unfold CacheSimulator.cycles at h
    split at h
    · rename_i sim1 hr
      cases m with
      | zero =>
        refine ⟨sim, sim1, rfl, ?_⟩
        simpa using hr
      | succ m =>
        obtain ⟨simm, sim2, h1, h2⟩ := ih sim1 simn (c + 1) h m (by omega)
        refine ⟨simm, sim2, ?_, ?_⟩
        · unfold CacheSimulator.cycles
          rw [hr]
          exact h1
        · have e : c + ((m + 1 : Nat) : Int) = c + 1 + (m : Int) := by
            push_cast
            omega
          rw [e]
          exact h2
    · cases h

/-- After `n` unfinished iterations and one that reaches the `break`, the loop
returns with `current_cycle` advanced by `n`, given more than `n` iterations of
fuel. -/
theorem CacheSimulator.runFrom_of_cycles : ∀ (n : Nat) (sim simn final : CacheSimulator)
    (c : Int), CacheSimulator.cycles n sim c = some simn →
    simn.round (c + n) = some (final, true) →
    ∀ fuel, n < fuel → CacheSimulator.runFrom fuel sim c = some (final, c + n) := by
  intro n
  induction n with
  | zero =>
    intro sim simn final c h hr fuel hf
    simp only [CacheSimulator.cycles, Option.some.injEq] at h
    subst h
    obtain ⟨f, rfl⟩ : ∃ f, fuel = f + 1 := ⟨fuel - 1, by omega⟩
    simp only [Nat.cast_zero, Int.add_zero] at hr ⊢
    unfold CacheSimulator.runFrom
    rw [hr]
    rfl
  | succ n ih =>
    intro sim simn final c h hr fuel hf
    obtain ⟨f, rfl⟩ : ∃ f, fuel = f + 1 := ⟨fuel - 1, by omega⟩
    unfold CacheSimulator.cycles at h
    split at h
    · rename_i sim1 hr1
      have e : c + ((n + 1 : Nat) : Int) = c + 1 + (n : Int) := by
        push_cast
        omega
      rw [e] at hr ⊢
      unfold CacheSimulator.runFrom
      rw [hr1]
      simp only [Bool.false_eq_true, if_false]
      exact ih sim1 simn final (c + 1) h hr f (by omega)
    · cases h

/-- With `n` unfinished iterations ahead, `n` iterations of fuel or fewer do
not reach the `break`. -/
theorem CacheSimulator.runFrom_none : ∀ (n : Nat) (sim simn : CacheSimulator) (c : Int),
    CacheSimulator.cycles n sim c = some simn →
    ∀ fuel, fuel ≤ n → CacheSimulator.runFrom fuel sim c = none := by
  intro n
  induction n with
  | zero =>
    intro sim simn c _ fuel hf
    have : fuel = 0 := by omega
    subst this
    rfl
  | succ n ih =>
    intro sim simn c h fuel hf
    cases fuel with
    | zero => rfl
    | succ f =>
      unfold CacheSimulator.cycles at h
      split at h
      · rename_i sim1 hr1
        unfold CacheSimulator.runFrom
        rw [hr1]
        simp only [Bool.false_eq_true, if_false]
        exact ih sim1 simn (c + 1) h f (by omega)
      · cases h

/-- During a run the loop reaches its `break` after finitely many iterations. -/
theorem CacheSimulator.halts_aux : ∀ (p w : Nat) (sim : CacheSimulator) (c : Int), sim.ok →
    (sim.cores.map Core.pending).sum = p →
    (sim.cores.map (fun core => core.waitLeft c)).sum = w →
    ∃ n simn final, CacheSimulator.cycles n sim c = some simn ∧
      simn.round (c + n) = some (final, true) := by
  intro p
  induction p using Nat.strong_induction_on with
  | _ p ihp =>
    intro w
    induction w using Nat.strong_induction_on with
    | _ w ihw =>
      intro sim c hok hp hw
      obtain ⟨sim1, d, hr, hok1, _, _, hp1, hwl1⟩ := CacheSimulator.round_progress sim c hok
      cases d with
      | true =>
        refine ⟨0, sim, sim1, rfl, ?_⟩
        simpa using hr
      | false =>
        have hnext : ∃ n simn final, CacheSimulator.cycles n sim1 (c + 1) = some simn ∧
            simn.round (c + 1 + n) = some (final, true) := by
          by_cases heq : (sim1.cores.map Core.pending).sum = (sim.cores.map Core.pending).sum
          · have hlt := hwl1 heq rfl
            exact ihw _ (by omega) sim1 (c + 1) hok1 (by omega) rfl
          · exact ihp _ (by omega) _ sim1 (c + 1) hok1 rfl rfl
        obtain ⟨n, simn, final, h1, h2⟩ := hnext
        refine ⟨n + 1, simn, final, ?_, ?_⟩
        · unfold CacheSimulator.cycles
          rw [hr]
          exact h1
        · have e : c + ((n + 1 : Nat) : Int) = c + 1 + (n : Int) := by
            push_cast
            omega
          rw [e]
          exact h2

theorem traceOk_init_ok (i : Nat) (t : List Nat) (n : Nat) (hi : i < n) (ht : traceOk t = true) :
    (Core.init i t).ok n :=
  ⟨hi, ht, fun h => by simp [Core.init] at h⟩

/-- The simulator built on four traces whose lines convert satisfies what the
run keeps. -/
theorem CacheSimulator.init_ok (s E b : Nat) (t0 t1 t2 t3 : List Nat) (hE : 1 ≤ E)
    (h0 : traceOk t0 = true) (h1 : traceOk t1 = true) (h2 : traceOk t2 = true)
    (h3 : traceOk t3 = true) : (CacheSimulator.init s E b t0 t1 t2 t3).ok := by
  refine ⟨System.init_wf s E b hE, ?_⟩
  intro core hcore
  simp only [CacheSimulator.init, List.mem_cons, List.mem_singleton, List.not_mem_nil,
    or_false] at hcore
  rcases hcore with rfl | rfl | rfl | rfl
  · exact traceOk_init_ok 0 t0 4 (by decide) h0
  · exact traceOk_init_ok 1 t1 4 (by decide) h1
  · exact traceOk_init_ok 2 t2 4 (by decide) h2
  · exact traceOk_init_ok 3 t3 4 (by decide) h3

theorem Core.executeNextInstruction_active (core : Core) (sys : System) (c : Int)
    (r : Core × System × Bool) (h : core.executeNextInstruction sys c = some r) :
    (r.2.2 = false ↔ core.finished c = true) := by
  unfold Core.executeNextInstruction at h
  cases hex : core.exec sys c with
  | none =>
    rw [hex] at h
    cases h
  | some r1 =>
    rw [hex] at h
    simp only [Option.map_some', Option.some.injEq] at h
    subst h
    exact Core.exec_active core sys c r1 hex

/-- A value in the range of a 32-bit `int` is stored unchanged. -/
theorem wrapInt32_of_fits (x : Int) (h1 : -2147483648 ≤ x) (h2 : x ≤ 2147483647) :
    wrapInt32 x = x := by
  unfold wrapInt32
  omega

/-- A natural number up to `INT_MAX` is stored unchanged in a 32-bit `int`. -/
theorem wrapInt32_of_le (n : Nat) (h : n ≤ INT_MAX) : wrapInt32 (n : Int) = n := by
  have hm : INT_MAX = 2147483647 := rfl
  exact wrapInt32_of_fits _ (by omega) (by omega)

/-- A later stage whose counters fit the `int` follows stages whose counters
fit. -/
theorem System.countersFit_of_grows {sys sys' : System} (hg : sys.Grows sys')
    (hfit : sys'.countersFit) : sys.countersFit := by
  obtain ⟨⟨hlen, hcs⟩, hinv, htr, _⟩ := hg
  obtain ⟨f1, f2, f3⟩ := hfit
  refine ⟨Nat.le_trans hinv f1, Nat.le_trans htr f2, ?_⟩
  intro c hc
  obtain ⟨k, hk⟩ := List.getElem?_of_mem hc
  have hlt : k < sys'.caches.length := by
    have := lt_of_getElem?_some hk
    omega
  obtain ⟨c', hc'⟩ := getElem?_exists_of_lt hlt
  obtain ⟨_, a1, a2, a3, a4, a5, a6, _⟩ := hcs k c c' hk hc'
  obtain ⟨b1, b2, b3, b4, b5, b6⟩ := f3 c' (List.getElem?_mem hc')
  exact ⟨Nat.le_trans a1 b1, Nat.le_trans a2 b2, Nat.le_trans a3 b3, Nat.le_trans a4 b4,
    Nat.le_trans a5 b5, Nat.le_trans a6 b6⟩

/-- The counters of a computed state fit when the computation says so. -/
theorem System.countersFit_of_run {sys0 sys : System} {ops : List Op}
    (h : sys0.run ops = some sys)
    (hd : (sys0.run ops).map (fun x => decide x.countersFit) = some true) : sys.countersFit := by
  rw [h] at hd
  simpa using hd

/-! ## Claims -/

/-- C1 (the code breaks the claimed coherence invariant). With `s = 1`,
`E = 2`, `b = 2`: after core 0 and then core 1 read address 0, core 1 holds the
block EXCLUSIVE while core 0 holds it SHARED; after core 1 and then core 0
additionally write address 0, both caches hold the block MODIFIED. Both states
are reached by `Cache::read` / `Cache::write` calls only and neither is
coherent. -/
theorem C1_coherence_violated :
    ((System.init 1 2 2).run [Op.read 0 0 0, Op.read 1 0 1]).map
        (fun sys => (sys.statesOf 0, decide (sys.coherentAt 0))) =
      some ([MESIState.SHARED, MESIState.EXCLUSIVE, MESIState.INVALID, MESIState.INVALID],
            false) ∧
    ((System.init 1 2 2).run
        [Op.read 0 0 0, Op.read 1 0 1, Op.write 1 0 2, Op.write 0 0 3]).map
        (fun sys => (sys.statesOf 0, decide (sys.coherentAt 0))) =
      some ([MESIState.MODIFIED, MESIState.MODIFIED, MESIState.INVALID, MESIState.INVALID],
            false) := by
  decide

/-- C2. In every state reached from the initial state of any geometry by any
finite sequence of local operations (`Cache::read`, `Cache::write`) and snoops
(`busRead`, `busWrite`, `busUpgrade`), every line of every cache satisfies
`valid = false → state = INVALID` and `dirty = true → state = MODIFIED`. -/
theorem C2_line_invariant (s E b : Nat) (ops : List Op) (sys : System)
    (h : (System.init s E b).run ops = some sys) :
    ∀ c ∈ sys.caches, ∀ set ∈ c.cache_sets, ∀ l ∈ set.lines,
      (l.valid = false → l.state = MESIState.INVALID) ∧
      (l.dirty = true → l.state = MESIState.MODIFIED) := by
  intro c hc set hset l hl
  have hok := (System.run_evolves ops h).linesOk (System.init_linesOk s E b) c hc set hset l hl
  exact ⟨hok.1, hok.2.1⟩

/-- Witness for C2: a run mixing local operations and snoops. -/
theorem C2_line_invariant_witness :
    ∃ sys, (System.init 1 2 2).run
        [Op.read 0 0 0, Op.write 1 0 1, Op.busRead 1 0, Op.read 2 0 2, Op.busUpgrade 2 0,
         Op.write 3 16 3, Op.busWrite 1 0] = some sys ∧
      ∀ c ∈ sys.caches, ∀ set ∈ c.cache_sets, ∀ l ∈ set.lines,
        (l.valid = false → l.state = MESIState.INVALID) ∧
        (l.dirty = true → l.state = MESIState.MODIFIED) :=
  match h : (System.init 1 2 2).run
        [Op.read 0 0 0, Op.write 1 0 1, Op.busRead 1 0, Op.read 2 0 2, Op.busUpgrade 2 0,
         Op.write 3 16 3, Op.busWrite 1 0] with
  | some sys => ⟨sys, rfl, C2_line_invariant 1 2 2 _ sys h⟩
  | none => absurd h (by decide)

/-- C3 (the code breaks tag uniqueness). With `s = 1`, `E = 2`, `b = 2`: core 0
reads address 0, core 1 writes it (core 0's line becomes INVALID but stays
valid), core 0 reads it again. The re-read installs the block in way 1, so set
0 of cache 0 holds two valid lines with tag 0, the set is not tag-unique, and
`findLine` returns the stale INVALID line in way 0. -/
theorem C3_duplicate_tag :
    ((((System.init 1 2 2).run [Op.read 0 0 0, Op.write 1 0 1, Op.read 0 0 2]).bind
        (fun sys => sys.caches[0]?)).bind (fun c => c.cache_sets[0]?)).map
        (fun set => (set.lines, decide set.tagUnique, set.findLine 0)) =
      some ([{ valid := true, tag := 0, state := MESIState.INVALID, last_access := 0,
               dirty := false },
             { valid := true, tag := 0, state := MESIState.EXCLUSIVE, last_access := 2,
               dirty := false }],
            false,
            some (0, { valid := true, tag := 0, state := MESIState.INVALID, last_access := 0,
                       dirty := false })) := by
  decide

/-- C4. Read-miss postcondition. Let cache `i` of a well-formed system miss on
`addr` (its lookup finds no valid line with the tag in a non-INVALID state), let
`old` be the line that `findReplacementLine` selects in the addressed set.
Then `Cache::read` returns `false`; `read_count` and `read_misses` each grow by
1; the selected way ends as `valid = true`, the address's tag, `EXCLUSIVE`,
`dirty = false`, `last_access = cycle`; and `cycles_taken = W + F` with
`W = 100` if `old` was valid and dirty (else 0) and `F` the maximum of the
peers' transfer cycles if some peer reported a non-zero value, else 100. If
`old` was invalid and no peer holds the block, `cycles_taken = 100` and
`evictions`, `writebacks` and both bus counters are unchanged. -/
theorem C4_read_miss (sys : System) (i addr : Nat) (cycle : Int) (c : Cache) (set : CacheSet)
    (hw : sys.wf) (hc : sys.caches[i]? = some c)
    (hset : c.cache_sets[(c.extractAddressFields addr).2.1]? = some set)
    (hmiss : c.hit addr = false) :
    ∃ sys' c' set' ri ev old cyc,
      set.findReplacementLine = some (ri, ev) ∧ set.lines[ri]? = some old ∧
      Cache.read sys i addr cycle = some (sys', false, cyc) ∧
      sys'.caches[i]? = some c' ∧
      c'.read_count = c.read_count + 1 ∧ c'.read_misses = c.read_misses + 1 ∧
      c'.cache_sets[(c.extractAddressFields addr).2.1]? = some set' ∧
      set'.lines[ri]? = some { valid := true, tag := (c.extractAddressFields addr).1,
                               state := MESIState.EXCLUSIVE, last_access := cycle,
                               dirty := false } ∧
      cyc = (if old.valid && old.dirty then 100 else 0) +
            (if (sys.peerCycles c.core_id addr).any (fun d => decide (d > 0)) then
               (sys.peerCycles c.core_id addr).foldl max 0 else 100) ∧
      (old.valid = false → (∀ p ∈ sys.peers c.core_id, p.hit addr = false) →
        cyc = 100 ∧ c'.evictions = c.evictions ∧ c'.writebacks = c.writebacks ∧
        sys'.bus = sys.bus) := by
  obtain ⟨sys', c', set', ri, ev, old, cyc, h1, h2, h3, h4, h5, h6, _, h8, _, h10, h11, h12, h13,
    h14, h15⟩ := @Cache.readMiss_spec sys i addr c
      { c with read_count := c.read_count + 1 } set cycle hw hc
      (Cache.evolves_of_sets_eq rfl rfl rfl rfl rfl) rfl hset
  refine ⟨sys', c', set', ri, ev, old, cyc, h1, h2, ?_, h5, h6, h8, h12, h13, h4, ?_⟩
  · rw [Cache.read_of_miss cycle hc hset hmiss]
    exact h3
  · intro hv hno
    have hany := System.peerCycles_of_no_hit hno
    refine ⟨?_, ?_, ?_, ?_⟩
    · rw [h4]
      have hany2 : (sys.peerCycles c.core_id addr).any (fun d => decide (d > 0)) = false := hany
      simp [hv, hany2]
    · rw [h10]
      simp [hv]
    · rw [h11]
      simp [hv]
    · have e1 := h14 hno
      have e2 := h15
      cases hb : sys'.bus
      cases hb2 : sys.bus
      rw [hb, hb2] at e1 e2
      simp only at e1 e2
      rw [e1, e2]

/-- Witness for C4: core 0 reads address 0 on the cold system `s = 1`, `E = 2`,
`b = 2`. -/
theorem C4_read_miss_witness :
    (System.init 1 2 2).wf ∧ (Cache.init 0 1 2 2).hit 0 = false ∧
    ∃ sys' c' set' ri ev old cyc,
      (CacheSet.init 2).findReplacementLine = some (ri, ev) ∧
      (CacheSet.init 2).lines[ri]? = some old ∧
      Cache.read (System.init 1 2 2) 0 0 0 = some (sys', false, cyc) ∧
      sys'.caches[0]? = some c' ∧
      c'.read_count = (Cache.init 0 1 2 2).read_count + 1 ∧
      c'.read_misses = (Cache.init 0 1 2 2).read_misses + 1 ∧
      c'.cache_sets[((Cache.init 0 1 2 2).extractAddressFields 0).2.1]? = some set' ∧
      set'.lines[ri]? = some { valid := true, tag := ((Cache.init 0 1 2 2).extractAddressFields 0).1,
                               state := MESIState.EXCLUSIVE, last_access := 0,
                               dirty := false } ∧
      cyc = (if old.valid && old.dirty then 100 else 0) +
            (if ((System.init 1 2 2).peerCycles (Cache.init 0 1 2 2).core_id 0).any
                  (fun d => decide (d > 0)) then
               ((System.init 1 2 2).peerCycles (Cache.init 0 1 2 2).core_id 0).foldl max 0
             else 100) ∧
      (old.valid = false →
        (∀ p ∈ (System.init 1 2 2).peers (Cache.init 0 1 2 2).core_id, p.hit 0 = false) →
        cyc = 100 ∧ c'.evictions = (Cache.init 0 1 2 2).evictions ∧
        c'.writebacks = (Cache.init 0 1 2 2).writebacks ∧
        sys'.bus = (System.init 1 2 2).bus) :=
  ⟨by decide, by decide,
   C4_read_miss (System.init 1 2 2) 0 0 0 (Cache.init 0 1 2 2) (CacheSet.init 2)
     (by decide) (by decide) (by decide) (by decide)⟩

/-- C5. Write-miss postcondition. Let cache `i` of a well-formed system whose
lines satisfy the data-model invariant miss on `addr`, and let `old` be the line
that `findReplacementLine` selects in the addressed set. Then `Cache::write`
returns `false`; `write_count` and `write_misses` each grow by 1; the selected
way ends as `valid = true`, the address's tag, `MODIFIED`, `dirty = true`,
`last_access = cycle`; `evictions` grows by 1 iff `old` was valid, `writebacks`
by 1 iff `old` was valid and dirty; and `cycles_taken` is 100 if `old` was dirty
(else 0) plus the cycles of the bus write transaction if positive, else 100. -/
theorem C5_write_miss (sys : System) (i addr : Nat) (cycle : Int) (c : Cache) (set : CacheSet)
    (hw : sys.wf) (hok : c.linesOk) (hc : sys.caches[i]? = some c)
    (hset : c.cache_sets[(c.extractAddressFields addr).2.1]? = some set)
    (hmiss : c.hit addr = false) :
    ∃ sys' c' set' ri ev old cyc sys2 bus_cycles,
      set.findReplacementLine = some (ri, ev) ∧ set.lines[ri]? = some old ∧
      Cache.write sys i addr cycle = some (sys', false, cyc) ∧
      sys'.caches[i]? = some c' ∧
      c'.write_count = c.write_count + 1 ∧ c'.write_misses = c.write_misses + 1 ∧
      c'.cache_sets[(c.extractAddressFields addr).2.1]? = some set' ∧
      set'.lines[ri]? = some { valid := true, tag := (c.extractAddressFields addr).1,
                               state := MESIState.MODIFIED, last_access := cycle,
                               dirty := true } ∧
      c'.evictions = c.evictions + (if old.valid then 1 else 0) ∧
      c'.writebacks = c.writebacks + (if old.valid && old.dirty then 1 else 0) ∧
      Bus.processWrite sys c.core_id addr = some (sys2, bus_cycles) ∧
      cyc = (if old.dirty then 100 else 0) + (if bus_cycles > 0 then bus_cycles else 100) := by
  obtain ⟨sys', c', set', ri, ev, old, cyc, h1, h2, h3, h4, h5, _, h7, _, h9, h10, h11, h12, h13,
    _, _⟩ := @Cache.writeMiss_spec sys i addr c
      { c with write_count := c.write_count + 1 } set cycle hw hc
      (Cache.evolves_of_sets_eq rfl rfl rfl rfl rfl) rfl hset
  have hid := (hw c (List.getElem?_mem hc)).2
  obtain ⟨⟨sys2, bc⟩, hpw⟩ := Bus.processWrite_total hw hid addr
  have hbc := (Bus.processWrite_spec hpw).2
  have hold : old.ok := hok set (List.getElem?_mem hset) old (List.getElem?_mem h2)
  have hdv : old.dirty = true → old.valid = true := by
    intro hd
    have hm := hold.2.1 hd
    cases hv : old.valid with
    | true => rfl
    | false =>
      have := hold.1 hv
      rw [hm] at this
      cases this
  refine ⟨sys', c', set', ri, ev, old, cyc, sys2, bc, h1, h2, ?_, h5, h7, h9, h12, h13,
    h10, h11, hpw, ?_⟩
  · rw [Cache.write_of_miss cycle hc hset hmiss]
    exact h3
  · rw [h4, hbc, fetch_cycles_eq]
    congr 1
    cases hd : old.dirty with
    | false => simp
    | true => simp [hdv hd]

/-- Witness for C5: core 0 writes address 0 on the cold system `s = 1`,
`E = 2`, `b = 2`. -/
theorem C5_write_miss_witness :
    (System.init 1 2 2).wf ∧ (Cache.init 0 1 2 2).linesOk ∧ (Cache.init 0 1 2 2).hit 0 = false ∧
    ∃ sys' c' set' ri ev old cyc sys2 bus_cycles,
      (CacheSet.init 2).findReplacementLine = some (ri, ev) ∧
      (CacheSet.init 2).lines[ri]? = some old ∧
      Cache.write (System.init 1 2 2) 0 0 0 = some (sys', false, cyc) ∧
      sys'.caches[0]? = some c' ∧
      c'.write_count = (Cache.init 0 1 2 2).write_count + 1 ∧
      c'.write_misses = (Cache.init 0 1 2 2).write_misses + 1 ∧
      c'.cache_sets[((Cache.init 0 1 2 2).extractAddressFields 0).2.1]? = some set' ∧
      set'.lines[ri]? = some { valid := true, tag := ((Cache.init 0 1 2 2).extractAddressFields 0).1,
                               state := MESIState.MODIFIED, last_access := 0,
                               dirty := true } ∧
      c'.evictions = (Cache.init 0 1 2 2).evictions + (if old.valid then 1 else 0) ∧
      c'.writebacks = (Cache.init 0 1 2 2).writebacks + (if old.valid && old.dirty then 1 else 0) ∧
      Bus.processWrite (System.init 1 2 2) (Cache.init 0 1 2 2).core_id 0 =
        some (sys2, bus_cycles) ∧
      cyc = (if old.dirty then 100 else 0) + (if bus_cycles > 0 then bus_cycles else 100) :=
  ⟨by decide, by decide, by decide,
   C5_write_miss (System.init 1 2 2) 0 0 0 (Cache.init 0 1 2 2) (CacheSet.init 2)
     (by decide) (by decide) (by decide) (by decide) (by decide)⟩

/-- C6. Silent write hits. If the lookup of cache `i` for `addr` finds a valid
line in MODIFIED or EXCLUSIVE (the lines of the cache satisfying the data-model
invariant), `Cache::write` returns `true` with `cycles_taken = 1`, leaves that
line MODIFIED with `dirty = true` and `last_access = cycle` (tag and valid
unchanged), leaves both bus counters and every other cache unchanged, and leaves
the requester's `read_misses`, `write_misses`, `evictions` and `writebacks`
unchanged. -/
theorem C6_silent_write_hit (sys : System) (i addr li : Nat) (cycle : Int) (c : Cache)
    (set : CacheSet) (line : CacheLine) (hok : c.linesOk) (hc : sys.caches[i]? = some c)
    (hset : c.cache_sets[(c.extractAddressFields addr).2.1]? = some set)
    (hfind : set.findLine (c.extractAddressFields addr).1 = some (li, line))
    (hst : line.state = MESIState.MODIFIED ∨ line.state = MESIState.EXCLUSIVE) :
    ∃ sys' c' set',
      Cache.write sys i addr cycle = some (sys', true, 1) ∧
      sys'.bus = sys.bus ∧
      (∀ k, k ≠ i → sys'.caches[k]? = sys.caches[k]?) ∧
      sys'.caches[i]? = some c' ∧
      c'.cache_sets[(c.extractAddressFields addr).2.1]? = some set' ∧
      set'.lines[li]? = some { valid := true, tag := line.tag, state := MESIState.MODIFIED,
                               last_access := cycle, dirty := true } ∧
      c'.read_misses = c.read_misses ∧ c'.write_misses = c.write_misses ∧
      c'.evictions = c.evictions ∧ c'.writebacks = c.writebacks := by
  obtain ⟨hline, hvalid, _⟩ := CacheSet.findLine_some hfind
  have hlok : line.ok := hok set (List.getElem?_mem hset) line (List.getElem?_mem hline)
  have hi : i < sys.caches.length := lt_of_getElem?_some hc
  have hsi := lt_of_getElem?_some hset
  have hli := lt_of_getElem?_some hline
  have hnew : ∀ l : CacheLine, (sys.setCache i (Cache.setLine
        { c with write_count := c.write_count + 1 } (c.extractAddressFields addr).2.1 set li
        l)).bus = sys.bus ∧
      (∀ k, k ≠ i → (sys.setCache i (Cache.setLine
        { c with write_count := c.write_count + 1 } (c.extractAddressFields addr).2.1 set li
        l)).caches[k]? = sys.caches[k]?) ∧
      (sys.setCache i (Cache.setLine
        { c with write_count := c.write_count + 1 } (c.extractAddressFields addr).2.1 set li
        l)).caches[i]? = some (Cache.setLine
        { c with write_count := c.write_count + 1 } (c.extractAddressFields addr).2.1 set li l) ∧
      (Cache.setLine { c with write_count := c.write_count + 1 }
        (c.extractAddressFields addr).2.1 set li l).cache_sets[
          (c.extractAddressFields addr).2.1]? = some (set.setLine li l) ∧
      (set.setLine li l).lines[li]? = some l := by
    intro l
    refine ⟨rfl, ?_, System.setCache_getElem?_self _ hc, ?_, ?_⟩
    · intro k hk
      simp only [System.setCache]
      rw [List.getElem?_set_ne (Ne.symm hk)]
    · simp only [Cache.setLine, List.getElem?_set, if_true]
      rw [if_pos hsi]
    · simp only [CacheSet.setLine, List.getElem?_set, if_true]
      rw [if_pos hli]
  rcases hst with hm | he
  · have hd : line.dirty = true := hlok.2.2 hm
    obtain ⟨b1, b2, b3, b4, b5⟩ := hnew (line.updateLRU cycle)
    refine ⟨_, _, _, ?_, b1, b2, b3, b4, ?_, rfl, rfl, rfl, rfl⟩
    · unfold Cache.write
      rw [hc]
      dsimp only
      rw [hset]
      dsimp only
      rw [hfind]
      dsimp only
      rw [if_pos (by simp [hvalid, hm])]
      rw [hm]
    · rw [b5]
      simp [CacheLine.updateLRU, hvalid, hm, hd]
  · obtain ⟨b1, b2, b3, b4, b5⟩ := hnew
      { line.updateLRU cycle with state := MESIState.MODIFIED, dirty := true }
    refine ⟨_, _, _, ?_, b1, b2, b3, b4, ?_, rfl, rfl, rfl, rfl⟩
    · unfold Cache.write
      rw [hc]
      dsimp only
      rw [hset]
      dsimp only
      rw [hfind]
      dsimp only
      rw [if_pos (by simp [hvalid, he])]
      rw [he]
    · rw [b5]
      simp [CacheLine.updateLRU, hvalid]

/-- Witness for C6: after core 0 has read address 0 on the cold system (so it
holds the block EXCLUSIVE), core 0 writes address 0 at cycle 1. -/
theorem C6_silent_write_hit_witness :
    (System.init 1 2 2).run [Op.read 0 0 0] = some afterRead0 ∧
    ∃ sys' c' set',
      Cache.write afterRead0 0 0 1 = some (sys', true, 1) ∧
      sys'.bus = afterRead0.bus ∧
      (∀ k, k ≠ 0 → sys'.caches[k]? = afterRead0.caches[k]?) ∧
      sys'.caches[0]? = some c' ∧
      c'.cache_sets[0]? = some set' ∧
      set'.lines[0]? = some { valid := true, tag := 0, state := MESIState.MODIFIED,
                              last_access := 1, dirty := true } ∧
      c'.read_misses = 1 ∧ c'.write_misses = 0 ∧ c'.evictions = 0 ∧ c'.writebacks = 0 :=
  ⟨by decide,
   C6_silent_write_hit afterRead0 0 0 0 1
     { Cache.init 0 1 2 2 with
          read_count := 1, read_misses := 1,
          cache_sets :=
            [{ lines := [{ valid := true, tag := 0, state := MESIState.EXCLUSIVE,
                           last_access := 0, dirty := false }, CacheLine.init] },
             CacheSet.init 2] }
     { lines := [{ valid := true, tag := 0, state := MESIState.EXCLUSIVE,
                   last_access := 0, dirty := false }, CacheLine.init] }
     { valid := true, tag := 0, state := MESIState.EXCLUSIVE, last_access := 0, dirty := false }
     (by decide) (by decide) (by decide) (by decide) (by decide)⟩

/-- C7 (the code departs from the claimed upgrade outcome). With `s = 1`,
`E = 2`, `b = 2`, after core 0 and core 1 have read address 0, core 0 holds the
block SHARED and writes it: the write returns a hit with `cycles_taken = 3` and
core 0 ends MODIFIED and dirty, but core 1's line stays EXCLUSIVE and
`bus.invalidations` grows by 3. -/
theorem C7_upgrade_two_readers :
    (twoReaders 1 2 2 0).bind (fun sys => (Cache.write sys 0 0 2).map
        (fun r => (sys.stateOf 0 0, r.2.1, r.2.2, r.1.statesOf 0,
                   (r.1.lineOf 0 0).map (fun l => l.dirty),
                   r.1.bus.invalidations - sys.bus.invalidations))) =
      some (MESIState.SHARED, true, 3,
            [MESIState.MODIFIED, MESIState.EXCLUSIVE, MESIState.INVALID, MESIState.INVALID],
            some true, 3) := by
  rfl

/-- C8 (the code departs from the claimed shared-read outcome). With `s = 1`,
`E = 2`, `b = 2`, after core 0 and then core 1 read address 0 on cold caches,
core 0's line is SHARED but core 1's line is EXCLUSIVE; the bus counters are as
claimed (`invalidations = 0`, `data_traffic_bytes = 4`). -/
theorem C8_shared_read :
    (twoReaders 1 2 2 0).map (fun sys => (sys.statesOf 0, sys.bus)) =
      some ([MESIState.SHARED, MESIState.EXCLUSIVE, MESIState.INVALID, MESIState.INVALID],
            { invalidations := 0, data_traffic_bytes := 4 }) := by
  decide

/-- C9 as stated fails: on the cold system `s = 1`, `E = 2`, `b = 2` no peer
supplies address 0 (every peer reports 0 transfer cycles), yet
`Bus::processRead` yields 100, not 0. -/
theorem C9_counterexample :
    (System.init 1 2 2).peerCycles 0 0 = [0, 0, 0] ∧
    (Bus.processRead (System.init 1 2 2) 0 0).map (fun r => r.2) = some 100 ∧
    (Bus.processRead (System.init 1 2 2) 0 0).map (fun r => r.2) ≠ some 0 := by
  decide

/-- C9 (amended). For a well-formed system and a requester id that indexes the
registry, `Bus::processRead` succeeds; it replaces every cache whose id differs
from the requester by the result of its `busRead` and leaves every other cache
untouched; and it yields the maximum of the peers' `data_transfer_cycles` if at
least one peer reported a value `> 0`, and 100 otherwise. -/
theorem C9_processRead (sys : System) (requester_id addr : Nat) (hw : sys.wf)
    (hr : requester_id < sys.caches.length) :
    ∃ sys' cyc, Bus.processRead sys requester_id addr = some (sys', cyc) ∧
      sys'.caches = sys.caches.map
        (fun c => if c.core_id != requester_id then c.afterBusRead addr else c) ∧
      (∀ c ∈ sys.caches, ∀ bus : Bus, ∃ bus' : Bus,
        c.busRead bus addr = some (c.afterBusRead addr, bus', c.snoopCycles addr)) ∧
      cyc = (if (sys.peerCycles requester_id addr).any (fun d => decide (d > 0)) then
               (sys.peerCycles requester_id addr).foldl max 0 else 100) := by
  obtain ⟨⟨sys', cyc⟩, h⟩ := Bus.processRead_total hw hr addr
  obtain ⟨h1, _, h3⟩ := Bus.processRead_spec h
  refine ⟨sys', cyc, h, h1, ?_, h3⟩
  intro c hc bus
  obtain ⟨⟨c1, b1, d⟩, hb⟩ := Cache.busRead_total (hw c hc).1 bus addr
  obtain ⟨e1, e2⟩ := Cache.busRead_indep hb
  exact ⟨b1, by rw [hb, e1, e2]⟩

/-- Witness for C9 (amended): after core 0 has read address 0, core 1 issues
the bus read; core 0 supplies the block in 2 cycles. -/
theorem C9_processRead_witness :
    afterRead0.wf ∧ 1 < afterRead0.caches.length ∧
    afterRead0.peerCycles 1 0 = [2, 0, 0] ∧
    ∃ sys' cyc, Bus.processRead afterRead0 1 0 = some (sys', cyc) ∧
      sys'.caches = afterRead0.caches.map
        (fun c => if c.core_id != 1 then c.afterBusRead 0 else c) ∧
      (∀ c ∈ afterRead0.caches, ∀ bus : Bus, ∃ bus' : Bus,
        c.busRead bus 0 = some (c.afterBusRead 0, bus', c.snoopCycles 0)) ∧
      cyc = (if (afterRead0.peerCycles 1 0).any (fun d => decide (d > 0)) then
               (afterRead0.peerCycles 1 0).foldl max 0 else 100) :=
  ⟨by decide, by decide, by decide, C9_processRead afterRead0 1 0 (by decide) (by decide)⟩

/-- C10 (the bus adds a tally of its own). With `s = 1`, `E = 2`, `b = 2`,
after core 0 and core 1 have read address 0 (core 2 and core 3 hold nothing):
a write of address 0 by core 2 invalidates the lines of cores 0 and 1, two
peers, yet `bus.invalidations` grows by 5; `processUpgrade` issued for core 2
invalidates only core 0's SHARED line, yet the counter grows by 4. On the cold
system `processWrite` changes no cache and still adds 3. -/
theorem C10_invalidation_tally :
    (twoReaders 1 2 2 0).bind (fun sys => (Cache.write sys 2 0 2).map
        (fun r => (sys.statesOf 0, r.1.statesOf 0,
                   r.1.bus.invalidations - sys.bus.invalidations))) =
      some ([MESIState.SHARED, MESIState.EXCLUSIVE, MESIState.INVALID, MESIState.INVALID],
            [MESIState.INVALID, MESIState.INVALID, MESIState.MODIFIED, MESIState.INVALID], 5) ∧
    (twoReaders 1 2 2 0).bind (fun sys => (Bus.processUpgrade sys 2 0).map
        (fun r => (r.1.statesOf 0, r.1.bus.invalidations - sys.bus.invalidations))) =
      some ([MESIState.INVALID, MESIState.EXCLUSIVE, MESIState.INVALID, MESIState.INVALID], 4) ∧
    (Bus.processWrite (System.init 1 2 2) 0 0).map
        (fun r => (decide (r.1.caches = (System.init 1 2 2).caches), r.1.bus.invalidations)) =
      some (true, 3) := by
  decide

/-- C11 as stated fails in two ways. For `b = 1`: with `s = 1`, `E = 2`,
`b = 1` (`B = 2`), after core 0 has read address 0, the bus read issued for
core 1 gets 0 transfer cycles from every peer (`2 * (2 / 4) = 0`) and still
adds 2 bytes of traffic. At the top of the `int` range: with `s = 1`, `E = 1`,
`b = 25`, after the first 43 reads of `overflowOps` the traffic is
`2113929216`; the bus read for core 0 of address 0 is supplied by three peers,
the sum `2214592512` exceeds `INT_MAX`, and the `int` counter holds
`-2080374784`. -/
theorem C11_counterexample :
    ((System.init 1 2 1).run [Op.read 0 0 0]).bind (fun sys =>
        (Bus.processRead sys 1 0).map (fun r =>
          (sys.peerCycles 1 0, r.1.bus.data_traffic_bytes - sys.bus.data_traffic_bytes))) =
      some ([0, 0, 0], 2) ∧
    ((System.init 1 1 25).run (overflowOps.take 43)).bind (fun sys =>
        (Bus.processRead sys 0 0).map (fun r =>
          (sys.bus.data_traffic_bytes,
           (sys.peerCycles 0 0).countP (fun d => decide (d > 0)),
           r.1.bus.data_traffic_bytes, decide (r.1.bus.data_traffic_bytes ≤ INT_MAX),
           wrapInt32 r.1.bus.data_traffic_bytes))) =
      some (2113929216, 3, 2214592512, false, -2080374784) := by
  decide

/-- C11 (amended). In a well-formed system whose caches all have block size
`B`, let `n` be the number of peers that hold the block (their lookup finds a
valid line in a non-INVALID state), and let the sum of the data traffic and
`B * n` not exceed `INT_MAX`. Then a bus read transaction and a bus write
transaction each add `B` bytes of data traffic for every such peer and nothing
for any other peer, and the `int` counter holds that sum; when `B ≥ 4` these
are exactly the peers whose `busRead` returned a non-zero
`data_transfer_cycles`, so the traffic added is `B` times the number of
non-zero snoop reads. -/
theorem C11_data_traffic (sys : System) (requester_id addr B : Nat) (hw : sys.wf)
    (hr : requester_id < sys.caches.length) (hB : ∀ c ∈ sys.caches, c.block_size = B)
    (hmax : sys.bus.data_traffic_bytes +
      B * (sys.peers requester_id).countP (fun p => p.hit addr) ≤ INT_MAX) :
    (∃ sys' cyc, Bus.processRead sys requester_id addr = some (sys', cyc) ∧
      sys'.bus.data_traffic_bytes = sys.bus.data_traffic_bytes +
        B * (sys.peers requester_id).countP (fun p => p.hit addr) ∧
      wrapInt32 (sys'.bus.data_traffic_bytes : Int) =
        ((sys.bus.data_traffic_bytes +
          B * (sys.peers requester_id).countP (fun p => p.hit addr) : Nat) : Int) ∧
      (4 ≤ B → sys'.bus.data_traffic_bytes = sys.bus.data_traffic_bytes +
        B * (sys.peerCycles requester_id addr).countP (fun d => decide (d > 0)))) ∧
    (∃ sys' cyc, Bus.processWrite sys requester_id addr = some (sys', cyc) ∧
      sys'.bus.data_traffic_bytes = sys.bus.data_traffic_bytes +
        B * (sys.peers requester_id).countP (fun p => p.hit addr) ∧
      wrapInt32 (sys'.bus.data_traffic_bytes : Int) =
        ((sys.bus.data_traffic_bytes +
          B * (sys.peers requester_id).countP (fun p => p.hit addr) : Nat) : Int) ∧
      (4 ≤ B → sys'.bus.data_traffic_bytes = sys.bus.data_traffic_bytes +
        B * (sys.peerCycles requester_id addr).countP (fun d => decide (d > 0)))) := by
  obtain ⟨⟨s1, c1⟩, h1⟩ := Bus.processRead_total hw hr addr
  obtain ⟨⟨s2, c2⟩, h2⟩ := Bus.processWrite_total hw hr addr
  have t1 := Bus.processRead_traffic h1
  have t2 := Bus.processWrite_traffic h2
  rw [System.supplied_bytes hB] at t1 t2
  refine ⟨⟨s1, c1, h1, t1, ?_, fun h4 => ?_⟩, ⟨s2, c2, h2, t2, ?_, fun h4 => ?_⟩⟩
  · rw [t1]
    exact wrapInt32_of_le _ hmax
  · rw [System.countP_peerCycles hw hB h4]
    exact t1
  · rw [t2]
    exact wrapInt32_of_le _ hmax
  · rw [System.countP_peerCycles hw hB h4]
    exact t2

/-- Witness for C11 (amended): after core 0 has read address 0 (`B = 4`), the
transactions are issued for core 1; one peer supplies the block. -/
theorem C11_data_traffic_witness :
    afterRead0.wf ∧ (∀ c ∈ afterRead0.caches, c.block_size = 4) ∧
    (afterRead0.peers 1).countP (fun p => p.hit 0) = 1 ∧
    afterRead0.bus.data_traffic_bytes +
      4 * (afterRead0.peers 1).countP (fun p => p.hit 0) ≤ INT_MAX ∧
    (∃ sys' cyc, Bus.processRead afterRead0 1 0 = some (sys', cyc) ∧
      sys'.bus.data_traffic_bytes = afterRead0.bus.data_traffic_bytes +
        4 * (afterRead0.peers 1).countP (fun p => p.hit 0) ∧
      wrapInt32 (sys'.bus.data_traffic_bytes : Int) =
        ((afterRead0.bus.data_traffic_bytes +
          4 * (afterRead0.peers 1).countP (fun p => p.hit 0) : Nat) : Int) ∧
      (4 ≤ 4 → sys'.bus.data_traffic_bytes = afterRead0.bus.data_traffic_bytes +
        4 * (afterRead0.peerCycles 1 0).countP (fun d => decide (d > 0)))) ∧
    (∃ sys' cyc, Bus.processWrite afterRead0 1 0 = some (sys', cyc) ∧
      sys'.bus.data_traffic_bytes = afterRead0.bus.data_traffic_bytes +
        4 * (afterRead0.peers 1).countP (fun p => p.hit 0) ∧
      wrapInt32 (sys'.bus.data_traffic_bytes : Int) =
        ((afterRead0.bus.data_traffic_bytes +
          4 * (afterRead0.peers 1).countP (fun p => p.hit 0) : Nat) : Int) ∧
      (4 ≤ 4 → sys'.bus.data_traffic_bytes = afterRead0.bus.data_traffic_bytes +
        4 * (afterRead0.peerCycles 1 0).countP (fun d => decide (d > 0)))) :=
  ⟨by decide, by decide, by decide, by decide,
   C11_data_traffic afterRead0 1 0 4 (by decide) (by decide) (by decide) (by decide)⟩

/-- C12 as stated fails at the top of the `int` range: with `s = 1`, `E = 1`,
`b = 25`, after the first 43 reads of `overflowOps` the traffic is
`2113929216` and core 1 holds address 0; its `busRead` of address 0 adds
`B = 33554432`, the sum `2147483648` exceeds `INT_MAX`, and the `int` counter
holds `-2147483648`. -/
theorem C12_counterexample :
    ((System.init 1 1 25).run (overflowOps.take 43)).bind (fun sys =>
        (sys.caches[1]?).bind (fun c =>
          (c.busRead sys.bus 0).map (fun r =>
            (c.hit 0, sys.bus.data_traffic_bytes, c.block_size, r.2.1.data_traffic_bytes,
             decide (r.2.1.data_traffic_bytes ≤ INT_MAX),
             wrapInt32 r.2.1.data_traffic_bytes)))) =
      some (true, 2113929216, 33554432, 2147483648, false, -2147483648) := by
  decide

/-- C12 (amended). Snoop-read contract, for a well-formed cache whose lines
satisfy the data-model invariant. If the lookup for `addr` finds a (valid) line
in MODIFIED, EXCLUSIVE or SHARED and the data traffic plus `B` does not exceed
`INT_MAX`, `Cache::busRead` reports `2 * (B / 4)` transfer cycles, adds `B` to
the bus data traffic (invalidations untouched), the `int` counter holding that
sum, leaves that line SHARED with `dirty = false` and its `valid`, `tag` and
`last_access` unchanged, and changes no other line, set or field of the cache.
Otherwise it reports 0 and changes neither the cache nor the bus counters. -/
theorem C12_snoop_read (c : Cache) (bus : Bus) (addr : Nat) (hw : c.wf) (hok : c.linesOk) :
    (∀ li line, c.findLine addr = some (li, line) → line.state ≠ MESIState.INVALID →
      bus.data_traffic_bytes + c.block_size ≤ INT_MAX →
      ∃ c' set set',
        c.busRead bus addr =
          some (c', { invalidations := bus.invalidations,
                      data_traffic_bytes := bus.data_traffic_bytes + c.block_size },
                2 * (c.block_size / 4)) ∧
        wrapInt32 ((bus.data_traffic_bytes + c.block_size : Nat) : Int) =
          ((bus.data_traffic_bytes + c.block_size : Nat) : Int) ∧
        c.cache_sets[(c.extractAddressFields addr).2.1]? = some set ∧
        c'.cache_sets[(c.extractAddressFields addr).2.1]? = some set' ∧
        set'.lines[li]? = some { valid := line.valid, tag := line.tag, state := MESIState.SHARED,
                                 last_access := line.last_access, dirty := false } ∧
        (∀ j, j ≠ li → set'.lines[j]? = set.lines[j]?) ∧
        (∀ k, k ≠ (c.extractAddressFields addr).2.1 → c'.cache_sets[k]? = c.cache_sets[k]?) ∧
        ({ c' with cache_sets := c.cache_sets } : Cache) = c) ∧
    (c.hit addr = false → c.busRead bus addr = some (c, bus, 0)) := by
  refine ⟨?_, fun hh => Cache.busRead_eq_of_not_hit hw bus hh⟩
  intro li line hfind hst hmax
  obtain ⟨set0, hset0, _, hline, _, _⟩ := Cache.findLine_found hfind
  have hlok : line.ok := hok set0 (List.getElem?_mem hset0) line (List.getElem?_mem hline)
  obtain ⟨set, hset, hf, hbr⟩ := Cache.busRead_hit bus hfind hst hlok
  rw [hset0] at hset
  cases hset
  obtain ⟨e1, e2, e3, e4, e5⟩ := Cache.setLine_lookup
    { line with state := MESIState.SHARED, dirty := false } hset0 hline
  exact ⟨_, set0, _, hbr, wrapInt32_of_le _ hmax, hset0, e1, e2, e3, e4, e5⟩

/-- Witness for C12 (amended): core 0's cache after it has read address 0 (it
holds the block EXCLUSIVE in way 0 of set 0) receives a snoop read for address
0. -/
theorem C12_snoop_read_witness :
    cache0AfterRead.wf ∧ cache0AfterRead.linesOk ∧
    cache0AfterRead.findLine 0 =
      some (0, { valid := true, tag := 0, state := MESIState.EXCLUSIVE, last_access := 0,
                 dirty := false }) ∧
    0 + cache0AfterRead.block_size ≤ INT_MAX ∧
    (∀ li line, cache0AfterRead.findLine 0 = some (li, line) →
      line.state ≠ MESIState.INVALID →
      0 + cache0AfterRead.block_size ≤ INT_MAX →
      ∃ c' set set',
        cache0AfterRead.busRead { invalidations := 0, data_traffic_bytes := 0 } 0 =
          some (c', { invalidations := 0,
                      data_traffic_bytes := 0 + cache0AfterRead.block_size },
                2 * (cache0AfterRead.block_size / 4)) ∧
        wrapInt32 ((0 + cache0AfterRead.block_size : Nat) : Int) =
          ((0 + cache0AfterRead.block_size : Nat) : Int) ∧
        cache0AfterRead.cache_sets[(cache0AfterRead.extractAddressFields 0).2.1]? = some set ∧
        c'.cache_sets[(cache0AfterRead.extractAddressFields 0).2.1]? = some set' ∧
        set'.lines[li]? = some { valid := line.valid, tag := line.tag, state := MESIState.SHARED,
                                 last_access := line.last_access, dirty := false } ∧
        (∀ j, j ≠ li → set'.lines[j]? = set.lines[j]?) ∧
        (∀ k, k ≠ (cache0AfterRead.extractAddressFields 0).2.1 →
          c'.cache_sets[k]? = cache0AfterRead.cache_sets[k]?) ∧
        ({ c' with cache_sets := cache0AfterRead.cache_sets } : Cache) = cache0AfterRead) ∧
    (cache0AfterRead.hit 0 = false →
      cache0AfterRead.busRead { invalidations := 0, data_traffic_bytes := 0 } 0 =
        some (cache0AfterRead, { invalidations := 0, data_traffic_bytes := 0 }, 0)) :=
  ⟨by decide, by decide, by decide, by decide,
   C12_snoop_read cache0AfterRead { invalidations := 0, data_traffic_bytes := 0 } 0
     (by decide) (by decide)⟩

/-- C13. Write transaction removes every peer copy. For a well-formed system
whose lines satisfy the data-model invariant and a requester id that indexes
the registry, `Bus::processWrite` succeeds; it first applies `busRead` to every
peer and then `busWrite` to every peer; every peer whose lookup found a (valid)
line in MODIFIED, EXCLUSIVE or SHARED holds that line SHARED and clean after
the read phase and INVALID with `dirty = false` (same way, `valid`, `tag`,
`last_access`) after the transaction; caches with the requester's id are
untouched. -/
theorem C13_write_removes_peer_copies (sys : System) (requester_id addr : Nat)
    (hw : sys.wf) (hok : sys.linesOk) (hr : requester_id < sys.caches.length) :
    ∃ sys' cyc, Bus.processWrite sys requester_id addr = some (sys', cyc) ∧
      sys'.caches = (sys.caches.map
          (fun c => if c.core_id != requester_id then c.afterBusRead addr else c)).map
          (fun c => if c.core_id != requester_id then c.afterBusWrite addr else c) ∧
      (∀ (k : Nat) (c : Cache) (li : Nat) (line : CacheLine), sys.caches[k]? = some c →
        c.core_id ≠ requester_id → c.findLine addr = some (li, line) →
        line.state ≠ MESIState.INVALID →
        (c.afterBusRead addr).findLine addr =
          some (li, { line with state := MESIState.SHARED, dirty := false }) ∧
        ∃ c' set', sys'.caches[k]? = some c' ∧
          c'.cache_sets[(c.extractAddressFields addr).2.1]? = some set' ∧
          set'.lines[li]? = some { valid := line.valid, tag := line.tag,
                                   state := MESIState.INVALID,
                                   last_access := line.last_access, dirty := false } ∧
          c'.findLine addr = some (li, { valid := line.valid, tag := line.tag,
                                         state := MESIState.INVALID,
                                         last_access := line.last_access, dirty := false })) ∧
      (∀ (k : Nat) (c : Cache), sys.caches[k]? = some c → c.core_id = requester_id →
        sys'.caches[k]? = some c) := by
  obtain ⟨⟨sys', cyc⟩, h⟩ := Bus.processWrite_total hw hr addr
  obtain ⟨hcs, _⟩ := Bus.processWrite_spec h
  refine ⟨sys', cyc, h, hcs, ?_, fun k c hc hid => Bus.processWrite_requester h hc hid⟩
  intro k c li line hc hne hfind hst
  obtain ⟨set0, hset0, hf0, hline, hvalid, _⟩ := Cache.findLine_found hfind
  have hlok : line.ok :=
    hok c (List.getElem?_mem hc) set0 (List.getElem?_mem hset0) line (List.getElem?_mem hline)
  obtain ⟨set, hset, hf, hbr⟩ :=
    Cache.busRead_hit { invalidations := 0, data_traffic_bytes := 0 } hfind hst hlok
  rw [hset0] at hset
  cases hset
  have hab := (Cache.busRead_indep hbr).1
  have hk : sys'.caches[k]? = some ((c.afterBusRead addr).afterBusWrite addr) := by
    have hid1 : (c.afterBusRead addr).core_id ≠ requester_id := by
      rw [(c.afterBusRead_evolves addr).1]
      exact hne
    rw [hcs, List.getElem?_map, List.getElem?_map, hc]
    simp [hne, hid1]
  rw [hab] at hk ⊢
  have hfind1 : (c.setLine (c.extractAddressFields addr).2.1 set0 li
      { line with state := MESIState.SHARED, dirty := false }).findLine addr =
      some (li, { line with state := MESIState.SHARED, dirty := false }) :=
    Cache.findLine_setLine hset0 hf0 rfl rfl
  refine ⟨hfind1, ?_⟩
  obtain ⟨a1, a2, _, _, _⟩ := Cache.setLine_lookup
    { line with state := MESIState.SHARED, dirty := false } hset0 hline
  obtain ⟨set1, hset1, hbw⟩ := Cache.busWrite_hit
    { invalidations := 0, data_traffic_bytes := 0 } hfind1 (Or.inl rfl)
  have hset1' : (c.setLine (c.extractAddressFields addr).2.1 set0 li
      { line with state := MESIState.SHARED, dirty := false }).cache_sets[
        (c.extractAddressFields addr).2.1]? = some set1 := hset1
  rw [a1] at hset1'
  cases hset1'
  have haw := Cache.busWrite_indep hbw
  rw [haw] at hk
  obtain ⟨b1, b2, _, _, _⟩ := Cache.setLine_lookup
    { ({ line with state := MESIState.SHARED, dirty := false } : CacheLine) with
        state := MESIState.INVALID } a1 a2
  obtain ⟨set2, hs2, hf2, _, _, _⟩ := Cache.findLine_found hfind1
  have hs2' : (c.setLine (c.extractAddressFields addr).2.1 set0 li
      { line with state := MESIState.SHARED, dirty := false }).cache_sets[
        (c.extractAddressFields addr).2.1]? = some set2 := hs2
  rw [a1] at hs2'
  cases hs2'
  have hf3 := Cache.findLine_setLine hs2 hf2
    (show ({ ({ line with state := MESIState.SHARED, dirty := false } : CacheLine) with
        state := MESIState.INVALID } : CacheLine).valid =
        ({ line with state := MESIState.SHARED, dirty := false } : CacheLine).valid from rfl)
    (show ({ ({ line with state := MESIState.SHARED, dirty := false } : CacheLine) with
        state := MESIState.INVALID } : CacheLine).tag =
        ({ line with state := MESIState.SHARED, dirty := false } : CacheLine).tag from rfl)
  exact ⟨_, _, hk, b1, b2, hf3⟩

/-- Witness for C13: core 0 holds address 0 MODIFIED (it wrote it on the cold
system) and core 1 issues the bus write transaction for address 0. -/
theorem C13_write_removes_peer_copies_witness :
    (System.init 1 2 2).run [Op.write 0 0 0] = some afterWrite0 ∧
    afterWrite0.stateOf 0 0 = MESIState.MODIFIED ∧
    ∃ sys' cyc, Bus.processWrite afterWrite0 1 0 = some (sys', cyc) ∧
      sys'.caches = (afterWrite0.caches.map
          (fun c => if c.core_id != 1 then c.afterBusRead 0 else c)).map
          (fun c => if c.core_id != 1 then c.afterBusWrite 0 else c) ∧
      (∀ (k : Nat) (c : Cache) (li : Nat) (line : CacheLine), afterWrite0.caches[k]? = some c →
        c.core_id ≠ 1 → c.findLine 0 = some (li, line) →
        line.state ≠ MESIState.INVALID →
        (c.afterBusRead 0).findLine 0 =
          some (li, { line with state := MESIState.SHARED, dirty := false }) ∧
        ∃ c' set', sys'.caches[k]? = some c' ∧
          c'.cache_sets[(c.extractAddressFields 0).2.1]? = some set' ∧
          set'.lines[li]? = some { valid := line.valid, tag := line.tag,
                                   state := MESIState.INVALID,
                                   last_access := line.last_access, dirty := false } ∧
          c'.findLine 0 = some (li, { valid := line.valid, tag := line.tag,
                                      state := MESIState.INVALID,
                                      last_access := line.last_access, dirty := false })) ∧
      (∀ (k : Nat) (c : Cache), afterWrite0.caches[k]? = some c → c.core_id = 1 →
        sys'.caches[k]? = some c) :=
  ⟨by decide, by decide,
   C13_write_removes_peer_copies afterWrite0 1 0 (by decide) (by decide) (by decide)⟩

/-- C14 (the code breaks miss-then-hit). With `s = 1`, `E = 2`, `b = 2`: core 0
reads address 0 and core 1 writes it, which leaves core 0's line valid but
INVALID. Core 0 then reads address 0 at cycle 2 (a miss, installed in the free
way 1) and again at cycle 3 with nothing in between: the second read is a miss
too (the lookup returns the stale way 0), costing 2 cycles instead of a 1-cycle
hit. -/
theorem C14_miss_then_miss :
    ((System.init 1 2 2).run [Op.read 0 0 0, Op.write 1 0 1]).bind (fun sys =>
        (Cache.read sys 0 0 2).bind (fun r1 =>
          (Cache.read r1.1 0 0 3).map (fun r2 => (r1.2.1, r2.2.1, r2.2.2)))) =
      some (false, false, 2) := by
  decide

/-- C15 (dirty LRU eviction): in every geometry with `E ≥ 1`, let core 0 of a
cold system write `E + 1` addresses `ws` (pairs of address and cycle) whose
tags are pairwise distinct, which all map to set `si`, at strictly increasing
cycles, nobody else issuing anything. Then every prefix of at most `E` writes
runs and leaves core 0 with as many write misses, `evictions = 0` and
`writebacks = 0`. After the first `E` writes way 0 of the set holds the line
installed by the first write; the last write misses with `cycles_taken = 200`,
replaces exactly that way by its own MODIFIED dirty line, and leaves
`evictions = 1` and `writebacks = 1`. -/
theorem C15_dirty_lru_eviction (s E b si : Nat) (ws : List (Nat × Int)) (hE : 1 ≤ E)
    (hlen : ws.length = E + 1)
    (hset : ∀ w ∈ ws, ((Cache.init 0 s E b).extractAddressFields w.1).2.1 = si)
    (htag : (ws.map (fun w => ((Cache.init 0 s E b).extractAddressFields w.1).1)).Nodup)
    (hcyc : (ws.map (fun w => w.2)).Pairwise (fun x y => x < y)) :
    (∀ k, k ≤ E → ∃ sysk c0,
      (System.init s E b).run ((ws.take k).map (fun w => Op.write 0 w.1 w.2)) = some sysk ∧
      sysk.caches[0]? = some c0 ∧ c0.write_misses = k ∧ c0.evictions = 0 ∧
      c0.writebacks = 0) ∧
    ∃ sysE c0 set first last sys1 c1 set1,
      (System.init s E b).run ((ws.take E).map (fun w => Op.write 0 w.1 w.2)) = some sysE ∧
      ws[0]? = some first ∧ ws[E]? = some last ∧
      sysE.caches[0]? = some c0 ∧ c0.cache_sets[si]? = some set ∧
      set.lines[0]? = some { valid := true, tag := (c0.extractAddressFields first.1).1,
                             state := MESIState.MODIFIED, last_access := first.2,
                             dirty := true } ∧
      Cache.write sysE 0 last.1 last.2 = some (sys1, false, 200) ∧
      (System.init s E b).run (ws.map (fun w => Op.write 0 w.1 w.2)) = some sys1 ∧
      sys1.caches[0]? = some c1 ∧ c1.evictions = 1 ∧ c1.writebacks = 1 ∧
      c1.cache_sets[si]? = some set1 ∧
      set1.lines = set.lines.set 0 { valid := true, tag := (c0.extractAddressFields last.1).1,
                                     state := MESIState.MODIFIED, last_access := last.2,
                                     dirty := true } := by
  obtain ⟨first, rest, last, rfl, hpl⟩ := split_first_last E ws hE hlen
  have hsi : si < 1 <<< s := by
    rw [← hset last (by simp)]
    exact (Cache.init 0 s E b).set_idx_lt last.1
  have hsetp : ∀ w ∈ first :: rest,
      ((Cache.init 0 s E b).extractAddressFields w.1).2.1 = si :=
    fun w hw => hset w (List.mem_append_left _ hw)
  rw [List.map_append, List.nodup_append] at htag
  obtain ⟨hnd, _, hdis⟩ := htag
  have hfresh : ∀ w1 ∈ first :: rest, ((Cache.init 0 s E b).extractAddressFields w1.1).1 ≠
      ((Cache.init 0 s E b).extractAddressFields last.1).1 := by
    intro w1 hw1 heq
    exact hdis (List.mem_map.2 ⟨w1, hw1, rfl⟩) (by rw [heq]; simp)
  have hold : ∀ w1 ∈ rest, first.2 ≤ w1.2 := by
    intro w1 hw1
    rw [List.cons_append, List.map_cons, List.pairwise_cons] at hcyc
    exact Int.le_of_lt (hcyc.1 w1.2 (List.mem_map.2 ⟨w1, List.mem_append_left _ hw1, rfl⟩))
  have hrunE := run_writes_fill s E b si (first :: rest) (Nat.le_of_eq hpl) hsetp hnd
  rw [hpl] at hrunE
  have hwr := write_full_set s E b si first rest last hpl hold (hset last (by simp)) hfresh
  have htakeE : (first :: rest ++ [last]).take E = first :: rest := by
    rw [← hpl]
    exact List.take_left' rfl
  refine ⟨?_, ?_⟩
  · intro k hk
    have hk2 : k ≤ (first :: rest).length := by rw [hpl]; exact hk
    have htk : (first :: rest ++ [last]).take k = (first :: rest).take k :=
      List.take_append_of_le_length hk2
    have hlk : ((first :: rest).take k).length = k := by
      rw [List.length_take]
      omega
    have hrun := run_writes_fill s E b si ((first :: rest).take k) (by omega)
      (fun w hw => hsetp w (List.mem_of_mem_take hw))
      (by rw [List.map_take]; exact hnd.sublist (List.take_sublist _ _))
    rw [htk, hrun]
    exact ⟨_, _, rfl, rfl, hlk, rfl, rfl⟩
  · refine ⟨writerSystem s E b si (filledLines (Cache.init 0 s E b) E (first :: rest)) E 0,
      writerCache s E b si (filledLines (Cache.init 0 s E b) E (first :: rest)) E 0,
      { lines := filledLines (Cache.init 0 s E b) E (first :: rest) }, first, last,
      writerSystem s E b si
        ((filledLines (Cache.init 0 s E b) E (first :: rest)).set 0
          (writtenLine ((Cache.init 0 s E b).extractAddressFields last.1).1 last.2)) (E + 1) 1,
      writerCache s E b si
        ((filledLines (Cache.init 0 s E b) E (first :: rest)).set 0
          (writtenLine ((Cache.init 0 s E b).extractAddressFields last.1).1 last.2)) (E + 1) 1,
      { lines := (filledLines (Cache.init 0 s E b) E (first :: rest)).set 0
          (writtenLine ((Cache.init 0 s E b).extractAddressFields last.1).1 last.2) },
      ?_, List.getElem?_cons_zero, ?_, List.getElem?_cons_zero,
      writerCache_set _ _ _ _ _ _ _ hsi, ?_, hwr, ?_, List.getElem?_cons_zero, rfl, rfl,
      writerCache_set _ _ _ _ _ _ _ hsi, rfl⟩
    · rw [htakeE]
      exact hrunE
    · rw [← hpl]
      simp
    · unfold filledLines
      exact List.getElem?_cons_zero
    · rw [List.map_append, System.run_append, hrunE]
      simp only [List.map_cons, List.map_nil, Option.some_bind, System.run, System.step]
      rw [hwr]
      rfl

/-- Witness for C15: `s = 1`, `E = 2`, `b = 2`, core 0 writes 0x00, 0x10 and
0x20 (tags 0, 2, 4 of set 0) at cycles 0, 1, 2. -/
theorem C15_dirty_lru_eviction_witness :
    (∀ w ∈ [((0 : Nat), (0 : Int)), (16, 1), (32, 2)],
      ((Cache.init 0 1 2 2).extractAddressFields w.1).2.1 = 0) ∧
    ([((0 : Nat), (0 : Int)), (16, 1), (32, 2)].map
      (fun w => ((Cache.init 0 1 2 2).extractAddressFields w.1).1)).Nodup ∧
    ∃ sysE c0 set first last sys1 c1 set1,
      (System.init 1 2 2).run (([((0 : Nat), (0 : Int)), (16, 1), (32, 2)].take 2).map
        (fun w => Op.write 0 w.1 w.2)) = some sysE ∧
      [((0 : Nat), (0 : Int)), (16, 1), (32, 2)][0]? = some first ∧
      [((0 : Nat), (0 : Int)), (16, 1), (32, 2)][2]? = some last ∧
      sysE.caches[0]? = some c0 ∧ c0.cache_sets[0]? = some set ∧
      set.lines[0]? = some { valid := true, tag := (c0.extractAddressFields first.1).1,
                             state := MESIState.MODIFIED, last_access := first.2,
                             dirty := true } ∧
      Cache.write sysE 0 last.1 last.2 = some (sys1, false, 200) ∧
      (System.init 1 2 2).run ([((0 : Nat), (0 : Int)), (16, 1), (32, 2)].map
        (fun w => Op.write 0 w.1 w.2)) = some sys1 ∧
      sys1.caches[0]? = some c1 ∧ c1.evictions = 1 ∧ c1.writebacks = 1 ∧
      c1.cache_sets[0]? = some set1 ∧
      set1.lines = set.lines.set 0 { valid := true, tag := (c0.extractAddressFields last.1).1,
                                     state := MESIState.MODIFIED, last_access := last.2,
                                     dirty := true } :=
  ⟨by decide, by decide,
   (C15_dirty_lru_eviction 1 2 2 0 [(0, 0), (16, 1), (32, 2)] (by decide) rfl (by decide)
      (by decide) (by decide)).2⟩

/-- C16. Replacement selection, for a set with at least one line. If some line
is invalid, `findReplacementLine` returns the lowest-indexed line with
`valid = false` and eviction kind 0 (NONE). Otherwise it returns a line whose
`last_access` is minimal, every lower-indexed line having a strictly larger
`last_access` (so the lowest way wins ties), and reports 2 (DIRTY) if that line
is dirty and 1 (CLEAN) otherwise. The function only returns the way and the
kind: it writes to no line. -/
theorem C16_replacement_selection (set : CacheSet) (hE : 0 < set.lines.length) :
    ((∃ l ∈ set.lines, l.valid = false) →
      ∃ ri old, set.findReplacementLine = some (ri, 0) ∧ set.lines[ri]? = some old ∧
        old.valid = false ∧
        ∀ (j : Nat) (l : CacheLine), j < ri → set.lines[j]? = some l → l.valid = true) ∧
    ((∀ l ∈ set.lines, l.valid = true) →
      ∃ ri old, set.findReplacementLine = some (ri, if old.dirty then 2 else 1) ∧
        set.lines[ri]? = some old ∧
        (∀ l ∈ set.lines, old.last_access ≤ l.last_access) ∧
        ∀ (j : Nat) (l : CacheLine), j < ri → set.lines[j]? = some l →
          old.last_access < l.last_access) := by
  constructor
  · intro hex
    obtain ⟨i, hi⟩ := firstInvalid_isSome hex
    obtain ⟨old, hold, hv⟩ := firstInvalid_some hi
    refine ⟨i, old, ?_, hold, hv, firstInvalid_lowest hi⟩
    unfold CacheSet.findReplacementLine
    rw [hi]
  · intro hall
    have hnone := firstInvalid_eq_none hall
    cases hls : set.lines with
    | nil => simp [hls] at hE
    | cons l0 rest =>
      have hfr : set.findReplacementLine =
          some ((lruScan (l0 :: rest) 0 (0, l0)).1,
            if (lruScan (l0 :: rest) 0 (0, l0)).2.dirty then 2 else 1) := by
        unfold CacheSet.findReplacementLine
        rw [hnone]
        simp only [hls]
      have hmin := (lruScan_min (l0 :: rest) 0 (0, l0)).2
      rcases lruScan_first (l0 :: rest) 0 (0, l0) with h | ⟨_, h2, _, h4⟩
      · rw [h] at hfr hmin
        refine ⟨0, l0, hfr, by simp, hmin, ?_⟩
        intro j l hj
        omega
      · exact ⟨_, _, hfr, by simpa using h2, hmin, by simpa using h4⟩

/-- Witness for C16: on a full two-way set whose ways tie on `last_access`,
way 0 is selected, and it is dirty. -/
theorem C16_replacement_selection_witness :
    tiedSet.findReplacementLine = some (0, 2) ∧
    ((∃ l ∈ tiedSet.lines, l.valid = false) →
      ∃ ri old, tiedSet.findReplacementLine = some (ri, 0) ∧ tiedSet.lines[ri]? = some old ∧
        old.valid = false ∧
        ∀ (j : Nat) (l : CacheLine), j < ri → tiedSet.lines[j]? = some l → l.valid = true) ∧
    ((∀ l ∈ tiedSet.lines, l.valid = true) →
      ∃ ri old, tiedSet.findReplacementLine = some (ri, if old.dirty then 2 else 1) ∧
        tiedSet.lines[ri]? = some old ∧
        (∀ l ∈ tiedSet.lines, old.last_access ≤ l.last_access) ∧
        ∀ (j : Nat) (l : CacheLine), j < ri → tiedSet.lines[j]? = some l →
          old.last_access < l.last_access) :=
  ⟨by decide, C16_replacement_selection tiedSet (by decide)⟩

/-- C17. Address decode. For `s ≥ 1`, `b ≥ 1`, `s + b < 32` and a 32-bit
address, with `B = 2^b` and `S = 2^s`, `Cache::extractAddressFields` yields
`block_offset = addr mod B`, `set_idx = (addr / B) mod S` and
`tag = addr / (B * S)`; hence `addr = tag * B * S + set_idx * B + block_offset`,
`set_idx < S`, and two addresses decode to the same `(tag, set_idx)` iff they
lie in the same `B`-byte block. -/
theorem C17_address_decode (c : Cache) (addr : Nat) (_hs : 1 ≤ c.s_bits) (_hb : 1 ≤ c.b_bits)
    (_hsb : c.s_bits + c.b_bits < 32) (_ha : addr < 2 ^ 32) :
    (c.extractAddressFields addr).2.2 = addr % 2 ^ c.b_bits ∧
    (c.extractAddressFields addr).2.1 = (addr / 2 ^ c.b_bits) % 2 ^ c.s_bits ∧
    (c.extractAddressFields addr).1 = addr / (2 ^ c.b_bits * 2 ^ c.s_bits) ∧
    addr = (c.extractAddressFields addr).1 * 2 ^ c.b_bits * 2 ^ c.s_bits +
           (c.extractAddressFields addr).2.1 * 2 ^ c.b_bits +
           (c.extractAddressFields addr).2.2 ∧
    (c.extractAddressFields addr).2.1 < 2 ^ c.s_bits ∧
    ∀ addr2, addr2 < 2 ^ 32 →
      (((c.extractAddressFields addr).1 = (c.extractAddressFields addr2).1 ∧
        (c.extractAddressFields addr).2.1 = (c.extractAddressFields addr2).2.1) ↔
       addr / 2 ^ c.b_bits = addr2 / 2 ^ c.b_bits) := by
  have hS : 0 < 2 ^ c.s_bits := Nat.pos_pow_of_pos _ (by decide)
  have key : ∀ a : Nat, a / 2 ^ c.b_bits =
      a / (2 ^ c.b_bits * 2 ^ c.s_bits) * 2 ^ c.s_bits + (a / 2 ^ c.b_bits) % 2 ^ c.s_bits := by
    intro a
    rw [← Nat.div_div_eq_div_mul]
    have := Nat.div_add_mod (a / 2 ^ c.b_bits) (2 ^ c.s_bits)
    rw [Nat.mul_comm] at this
    exact this.symm
  simp only [Cache.extractAddressFields_eq]
  refine ⟨trivial, trivial, trivial, ?_, Nat.mod_lt _ hS, ?_⟩
  · have h1 := Nat.div_add_mod addr (2 ^ c.b_bits)
    have h2 := key addr
    calc addr = 2 ^ c.b_bits * (addr / 2 ^ c.b_bits) + addr % 2 ^ c.b_bits := h1.symm
      _ = 2 ^ c.b_bits * (addr / (2 ^ c.b_bits * 2 ^ c.s_bits) * 2 ^ c.s_bits +
            (addr / 2 ^ c.b_bits) % 2 ^ c.s_bits) + addr % 2 ^ c.b_bits := by rw [← h2]
      _ = _ := by ring
  · intro addr2 _
    constructor
    · rintro ⟨h1, h2⟩
      rw [key addr, key addr2, h1, h2]
    · intro h
      rw [← Nat.div_div_eq_div_mul, ← Nat.div_div_eq_div_mul, h]
      exact ⟨rfl, rfl⟩

/-- Witness for C17: `s = 1`, `b = 2` and address `0x2E = 46`: offset 2, set 1,
tag 5. -/
theorem C17_address_decode_witness :
    (Cache.init 0 1 2 2).extractAddressFields 46 = (5, 1, 2) ∧
    (((Cache.init 0 1 2 2).extractAddressFields 46).2.2 = 46 % 2 ^ (Cache.init 0 1 2 2).b_bits ∧
    ((Cache.init 0 1 2 2).extractAddressFields 46).2.1 =
      (46 / 2 ^ (Cache.init 0 1 2 2).b_bits) % 2 ^ (Cache.init 0 1 2 2).s_bits ∧
    ((Cache.init 0 1 2 2).extractAddressFields 46).1 =
      46 / (2 ^ (Cache.init 0 1 2 2).b_bits * 2 ^ (Cache.init 0 1 2 2).s_bits) ∧
    46 = ((Cache.init 0 1 2 2).extractAddressFields 46).1 * 2 ^ (Cache.init 0 1 2 2).b_bits *
           2 ^ (Cache.init 0 1 2 2).s_bits +
         ((Cache.init 0 1 2 2).extractAddressFields 46).2.1 * 2 ^ (Cache.init 0 1 2 2).b_bits +
         ((Cache.init 0 1 2 2).extractAddressFields 46).2.2 ∧
    ((Cache.init 0 1 2 2).extractAddressFields 46).2.1 < 2 ^ (Cache.init 0 1 2 2).s_bits ∧
    ∀ addr2, addr2 < 2 ^ 32 →
      ((((Cache.init 0 1 2 2).extractAddressFields 46).1 =
          ((Cache.init 0 1 2 2).extractAddressFields addr2).1 ∧
        ((Cache.init 0 1 2 2).extractAddressFields 46).2.1 =
          ((Cache.init 0 1 2 2).extractAddressFields addr2).2.1) ↔
       46 / 2 ^ (Cache.init 0 1 2 2).b_bits = addr2 / 2 ^ (Cache.init 0 1 2 2).b_bits)) :=
  ⟨by decide,
   C17_address_decode (Cache.init 0 1 2 2) 46 (by decide) (by decide) (by decide) (by decide)⟩

/-- C18 as stated fails at the top of the `int` range. A core that issues the
miss of `R 0x0` (100 cycles) at cycle `c = 2147483646` stores
`wrapInt32 (c + 100) = -2147483550` into `stall_until_cycle`, so its call at
cycle `c + 1 = 2147483647` is no stall call: it goes on to the trace and leaves
`idle_cycles` at 0. Issued at `c = 2147483647` the miss stores `-2147483549`. -/
theorem C18_counterexample :
    ((Core.init 0 traceRead0).exec (System.init 1 2 2) 2147483646).bind (fun r =>
        (r.1.exec r.2.1 2147483647).map (fun r2 =>
          (r.2.2.2, r.1.is_stalled, r.1.stall_until_cycle, r2.2.2.2, r2.1.idle_cycles))) =
      some (Outcome.issued false 100, true, -2147483550, Outcome.skipped, 0) ∧
    ((Core.init 0 traceRead0).exec (System.init 1 2 2) 2147483647).map
        (fun r => r.1.stall_until_cycle) = some (-2147483549) := by
  decide

/-- C18 (stall duration, amended): let a call of `Core::executeNextInstruction`
at cycle `c` issue an instruction that misses with `cycles_taken = k ≥ 1`,
where `c` and `c + k` are values of a 32-bit `int` (`-2^31 ≤ c`,
`c + k ≤ INT_MAX`) and the cycle counters stay in range
(`total_cycles + idle_cycles + k ≤ INT_MAX`). Then the call returns active,
sets `is_stalled` and `stall_until_cycle = c + k`, and adds 1 to `total_cycles`
(not to `idle_cycles`). Whatever the system has become, the call at cycle
`c + j` for `1 ≤ j < k` only increments `idle_cycles`: it returns active, and
leaves the trace, the stream state and the whole system as they were. The call
at cycle `c + k` is no stall call: it continues with the trace and, whatever it
does there, it does not change `idle_cycles`. So the miss accounts for
`1 + (k - 1) = k` cycles of `total_cycles + idle_cycles`, and the `int`
counters hold these values. -/
theorem C18_stall_duration (core core1 : Core) (sys sys1 : System) (c : Int) (k : Nat)
    (active : Bool)
    (h : core.exec sys c = some (core1, sys1, active, Outcome.issued false k))
    (hk : 1 ≤ k) (hlo : -2147483648 ≤ c) (hhi : c + k ≤ (INT_MAX : Int))
    (hcnt : core.total_cycles + core.idle_cycles + k ≤ INT_MAX) :
    core.executeNextInstruction sys c = some (core1, sys1, true) ∧
    core1.is_stalled = true ∧ core1.stall_until_cycle = c + k ∧
    core1.total_cycles = core.total_cycles + 1 ∧
    core1.idle_cycles = core.idle_cycles ∧
    (∀ (j : Nat) (sys2 : System), 1 ≤ j → j < k →
      ({ core1 with idle_cycles := core1.idle_cycles + (j - 1) }).exec sys2 (c + j) =
        some ({ core1 with idle_cycles := core1.idle_cycles + j }, sys2, true,
              Outcome.stalled)) ∧
    (∀ sys2 : System,
      ({ core1 with idle_cycles := core1.idle_cycles + (k - 1) }).exec sys2 (c + k) =
        Core.issue { core1 with idle_cycles := core1.idle_cycles + (k - 1),
                                is_stalled := false } sys2 (c + k) ∧
      ∀ r, ({ core1 with idle_cycles := core1.idle_cycles + (k - 1) }).exec sys2 (c + k) =
          some r → r.1.idle_cycles = core1.idle_cycles + (k - 1)) ∧
    core1.total_cycles + (core1.idle_cycles + (k - 1)) =
      core.total_cycles + core.idle_cycles + k ∧
    wrapInt32 (core1.total_cycles : Int) = core1.total_cycles ∧
    wrapInt32 ((core1.idle_cycles + (k - 1) : Nat) : Int) =
      ((core1.idle_cycles + (k - 1) : Nat) : Int) := by
  obtain ⟨hact, rest, eof, fail, hc1⟩ := Core.exec_issued_miss core core1 sys sys1 c k active h
  subst hact
  have hmax : (INT_MAX : Int) = 2147483647 := rfl
  have hmaxn : INT_MAX = 2147483647 := rfl
  have hwrap : wrapInt32 (c + k) = c + k :=
    wrapInt32_of_fits (c + k) (by omega) (by omega)
  rw [hwrap] at hc1
  have hexec : ∀ sys2 : System,
      ({ core1 with idle_cycles := core1.idle_cycles + (k - 1) }).exec sys2 (c + k) =
        Core.issue { core1 with idle_cycles := core1.idle_cycles + (k - 1),
                                is_stalled := false } sys2 (c + k) := by
    intro sys2
    subst hc1
    unfold Core.exec
    simp
  refine ⟨?_, ?_, ?_, ?_, ?_, ?_, ?_, ?_, ?_, ?_⟩
  · unfold Core.executeNextInstruction
    rw [h]
    rfl
  · subst hc1; rfl
  · subst hc1; rfl
  · subst hc1; rfl
  · subst hc1; rfl
  · intro j sys2 hj1 hjk
    subst hc1
    unfold Core.exec
    have hlt : c + (j : Int) < c + (k : Int) := by omega
    have hj : core.idle_cycles + (j - 1) + 1 = core.idle_cycles + j := by omega
    simp [hlt, hj]
  · intro sys2
    refine ⟨hexec sys2, ?_⟩
    intro r hr
    rw [hexec sys2] at hr
    exact Core.issue_idle _ sys2 (c + k) r hr
  · subst hc1
    show core.total_cycles + 1 + (core.idle_cycles + (k - 1)) = _
    omega
  · subst hc1
    exact wrapInt32_of_fits _ (by omega) (by
      show ((core.total_cycles + 1 : Nat) : Int) ≤ 2147483647
      omega)
  · subst hc1
    exact wrapInt32_of_fits _ (by omega) (by
      show ((core.idle_cycles + (k - 1) : Nat) : Int) ≤ 2147483647
      omega)

/-- Witness for C18 (amended): the trace `R 0x0` issued at cycle 0 on a cold
system misses with 100 cycles. -/
theorem C18_stall_duration_witness :
    (Core.init 0 traceRead0).exec (System.init 1 2 2) 0 =
      some (coreAfterMiss, afterRead0, true, Outcome.issued false 100) ∧
    (0 : Int) + (100 : Nat) ≤ (INT_MAX : Int) ∧
    coreAfterMiss.stall_until_cycle = 0 + (100 : Nat) ∧
    (∀ (j : Nat) (sys2 : System), 1 ≤ j → j < 100 →
      ({ coreAfterMiss with idle_cycles := coreAfterMiss.idle_cycles + (j - 1) }).exec sys2
          (0 + j) =
        some ({ coreAfterMiss with idle_cycles := coreAfterMiss.idle_cycles + j }, sys2, true,
              Outcome.stalled)) :=
  ⟨by decide, by decide,
   (C18_stall_duration (Core.init 0 traceRead0) coreAfterMiss (System.init 1 2 2) afterRead0
      0 100 true (by decide) (by decide) (by decide) (by decide) (by decide)).2.2.1,
   (C18_stall_duration (Core.init 0 traceRead0) coreAfterMiss (System.init 1 2 2) afterRead0
      0 100 true (by decide) (by decide) (by decide) (by decide) (by decide)).2.2.2.2.2.1⟩

/-- C19 (skipped lines), against the claim: on the trace line `X 0x10` (an
operation character other than R, r, W, w with a parseable address) the call
returns active and touches neither the system nor `total_cycles` nor
`idle_cycles`, but it has already added 1 to `instruction_count`; a blank line
leaves `instruction_count` at 0. On the line `R zz` the conversion of the
address throws, so the call does not return at all. -/
theorem C19_unknown_op_counted :
    ((Core.init 0 traceUnknown).exec (System.init 1 2 2) 0).map
        (fun r => (r.1.instruction_count, r.1.total_cycles, r.1.idle_cycles,
                   decide (r.2.1 = System.init 1 2 2), r.2.2)) =
      some (1, 0, 0, true, true, Outcome.unknownOp) ∧
    ((Core.init 0 [10]).exec (System.init 1 2 2) 0).map
        (fun r => (r.1.instruction_count, r.2.2)) = some (0, true, Outcome.skipped) ∧
    (Core.init 0 traceBadAddress).executeNextInstruction (System.init 1 2 2) 0 = none := by
  refine ⟨by decide, by decide, by decide⟩

/-- C20 as stated fails at the top of the `int` range: with `s = 1`, `E = 1`,
`b = 25`, the state after the first 43 reads of `overflowOps` has data traffic
`2113929216`; one read later the sum is `2214592512`, which exceeds `INT_MAX`,
and the `int` counter holds `-2080374784`, less than before. -/
theorem C20_counterexample :
    ((System.init 1 1 25).run (overflowOps.take 43)).map (fun sys =>
        (sys.bus.data_traffic_bytes, wrapInt32 sys.bus.data_traffic_bytes)) =
      some (2113929216, 2113929216) ∧
    ((System.init 1 1 25).run (overflowOps.take 44)).map (fun sys =>
        (sys.bus.data_traffic_bytes, decide (sys.bus.data_traffic_bytes ≤ INT_MAX),
         wrapInt32 sys.bus.data_traffic_bytes,
         decide (wrapInt32 sys.bus.data_traffic_bytes < 2113929216))) =
      some (2214592512, false, -2080374784, true) := by
  decide

/-- C20 (amended). Statistics invariant. Let `sys1` be reached from the initial
state of any geometry by any finite sequence of operations, and `sys2` be
reached from `sys1` by any further sequence, no counter of `sys2` exceeding
`INT_MAX`. Then every cache of `sys1` has `read_misses ≤ read_count`,
`write_misses ≤ write_count` and `writebacks ≤ evictions`;
`bus.data_traffic_bytes` of `sys1` is a multiple of the block size `B = 2^b`
(which every cache has); no counter of `sys2` (the six cache counters of every
cache, `bus.invalidations`, `bus.data_traffic_bytes`) is smaller than in
`sys1`; and no counter of `sys1` exceeds `INT_MAX`, so that the `int` counters
of both states hold these values. -/
theorem C20_statistics (s E b : Nat) (ops1 ops2 : List Op) (sys1 sys2 : System)
    (h1 : (System.init s E b).run ops1 = some sys1) (h2 : sys1.run ops2 = some sys2)
    (hfit : sys2.countersFit) :
    (∀ c ∈ sys1.caches, c.read_misses ≤ c.read_count ∧ c.write_misses ≤ c.write_count ∧
      c.writebacks ≤ c.evictions) ∧
    (∀ c ∈ sys1.caches, c.block_size = 2 ^ b) ∧
    2 ^ b ∣ sys1.bus.data_traffic_bytes ∧
    sys1.bus.invalidations ≤ sys2.bus.invalidations ∧
    sys1.bus.data_traffic_bytes ≤ sys2.bus.data_traffic_bytes ∧
    sys2.caches.length = sys1.caches.length ∧
    (∀ (k : Nat) (c1 c2 : Cache), sys1.caches[k]? = some c1 → sys2.caches[k]? = some c2 →
      c1.read_count ≤ c2.read_count ∧ c1.write_count ≤ c2.write_count ∧
      c1.read_misses ≤ c2.read_misses ∧ c1.write_misses ≤ c2.write_misses ∧
      c1.evictions ≤ c2.evictions ∧ c1.writebacks ≤ c2.writebacks) ∧
    sys1.countersFit ∧
    wrapInt32 (sys1.bus.data_traffic_bytes : Int) = sys1.bus.data_traffic_bytes ∧
    wrapInt32 (sys2.bus.data_traffic_bytes : Int) = sys2.bus.data_traffic_bytes ∧
    wrapInt32 (sys1.bus.invalidations : Int) = sys1.bus.invalidations ∧
    wrapInt32 (sys2.bus.invalidations : Int) = sys2.bus.invalidations := by
  obtain ⟨g1, _, _, g4⟩ := System.run_grows ops1 h1
  have hg2 := System.run_grows ops2 h2
  obtain ⟨k1, k2, k3, _⟩ := hg2
  have hfit1 := System.countersFit_of_grows (System.run_grows ops2 h2) hfit
  have hB0 : ∀ c ∈ (System.init s E b).caches, c.block_size = 2 ^ b :=
    fun c hc => (System.init_stats s E b c hc).1
  refine ⟨cachesGrow_statsOk g1 (fun c hc => (System.init_stats s E b c hc).2),
    cachesGrow_block g1 hB0, g4 (2 ^ b) hB0 (Nat.dvd_zero _), k2, k3, k1.1, ?_, hfit1,
    wrapInt32_of_le _ hfit1.2.1, wrapInt32_of_le _ hfit.2.1, wrapInt32_of_le _ hfit1.1,
    wrapInt32_of_le _ hfit.1⟩
  intro k c1 c2 hc1 hc2
  obtain ⟨_, a1, a2, a3, a4, a5, a6, _⟩ := k1.2 k c1 c2 hc1 hc2
  exact ⟨a1, a2, a3, a4, a5, a6⟩

/-- Witness for C20 (amended): three operations, then two more (a dirty
eviction among them); all counters are far below `INT_MAX`. -/
theorem C20_statistics_witness :
    ∃ sys1 sys2,
      (System.init 1 1 2).run [Op.write 0 0 0, Op.read 1 0 1, Op.write 0 8 2] = some sys1 ∧
      sys1.run [Op.write 0 16 3, Op.read 2 0 4] = some sys2 ∧
      sys2.countersFit ∧
      (∀ c ∈ sys1.caches, c.read_misses ≤ c.read_count ∧ c.write_misses ≤ c.write_count ∧
        c.writebacks ≤ c.evictions) ∧
      (∀ c ∈ sys1.caches, c.block_size = 2 ^ 2) ∧
      2 ^ 2 ∣ sys1.bus.data_traffic_bytes ∧
      sys1.bus.invalidations ≤ sys2.bus.invalidations ∧
      sys1.bus.data_traffic_bytes ≤ sys2.bus.data_traffic_bytes ∧
      sys2.caches.length = sys1.caches.length ∧
      (∀ (k : Nat) (c1 c2 : Cache), sys1.caches[k]? = some c1 → sys2.caches[k]? = some c2 →
        c1.read_count ≤ c2.read_count ∧ c1.write_count ≤ c2.write_count ∧
        c1.read_misses ≤ c2.read_misses ∧ c1.write_misses ≤ c2.write_misses ∧
        c1.evictions ≤ c2.evictions ∧ c1.writebacks ≤ c2.writebacks) ∧
      sys1.countersFit ∧
      wrapInt32 (sys1.bus.data_traffic_bytes : Int) = sys1.bus.data_traffic_bytes ∧
      wrapInt32 (sys2.bus.data_traffic_bytes : Int) = sys2.bus.data_traffic_bytes ∧
      wrapInt32 (sys1.bus.invalidations : Int) = sys1.bus.invalidations ∧
      wrapInt32 (sys2.bus.invalidations : Int) = sys2.bus.invalidations :=
  match h1 : (System.init 1 1 2).run [Op.write 0 0 0, Op.read 1 0 1, Op.write 0 8 2] with
  | none => absurd h1 (by decide)
  | some sys1 =>
    match h2 : sys1.run [Op.write 0 16 3, Op.read 2 0 4] with
    | some sys2 =>
      ⟨sys1, sys2, rfl, h2,
       System.countersFit_of_run
         (show (System.init 1 1 2).run
           ([Op.write 0 0 0, Op.read 1 0 1, Op.write 0 8 2] ++
             [Op.write 0 16 3, Op.read 2 0 4]) = some sys2 by
           rw [System.run_append, h1]; exact h2) (by decide),
       C20_statistics 1 1 2 _ _ sys1 sys2 h1 h2
         (System.countersFit_of_run
           (show (System.init 1 1 2).run
             ([Op.write 0 0 0, Op.read 1 0 1, Op.write 0 8 2] ++
               [Op.write 0 16 3, Op.read 2 0 4]) = some sys2 by
             rw [System.run_append, h1]; exact h2) (by decide))⟩
    | none =>
      absurd (show (System.init 1 1 2).run
          ([Op.write 0 0 0, Op.read 1 0 1, Op.write 0 8 2] ++ [Op.write 0 16 3, Op.read 2 0 4]) =
          none by rw [System.run_append, h1]; exact h2) (by decide)

/-- C21 as stated fails: with four empty traces (`s = 1`, `E = 2`, `b = 2`)
the iteration at `current_cycle = 0` does not reach the `break` (every core
returns active, having read an empty line at the end of its file), one
iteration of the loop is not enough, and `run` returns with
`current_cycle = 1`. -/
theorem C21_counterexample :
    ((CacheSimulator.init 1 2 2 [] [] [] []).round 0).map (fun r => r.2) = some false ∧
    (CacheSimulator.init 1 2 2 [] [] [] []).run 1 = none ∧
    ((CacheSimulator.init 1 2 2 [] [] [] []).run 2).map (fun r => r.2) = some 1 := by
  decide

/-- C21 (amended): in every geometry, when the trace of each of the four cores
is empty, `CacheSimulator::run` halts in its second iteration, with
`current_cycle = 1`; the caches and the bus are untouched, so that every cache
counter and both bus counters are zero, every core has `instruction_count`,
`total_cycles` and `idle_cycles` zero, and `getMaxExecutionTime` returns 0. -/
theorem C21_empty_traces (s E b fuel : Nat) (hf : 2 ≤ fuel) :
    ∃ final,
      (CacheSimulator.init s E b [] [] [] []).run fuel = some (final, 1) ∧
      final.cores = [coreAtEof 0, coreAtEof 1, coreAtEof 2, coreAtEof 3] ∧
      final.sys = System.init s E b ∧
      (∀ core ∈ final.cores, core.instruction_count = 0 ∧ core.total_cycles = 0 ∧
        core.idle_cycles = 0) ∧
      (∀ c ∈ final.sys.caches, c.read_count = 0 ∧ c.write_count = 0 ∧ c.read_misses = 0 ∧
        c.write_misses = 0 ∧ c.evictions = 0 ∧ c.writebacks = 0) ∧
      final.sys.bus.invalidations = 0 ∧ final.sys.bus.data_traffic_bytes = 0 ∧
      final.getMaxExecutionTime = 0 := by
  obtain ⟨f, rfl⟩ : ∃ f, fuel = f + 2 := ⟨fuel - 2, by omega⟩
  refine ⟨{ cores := [coreAtEof 0, coreAtEof 1, coreAtEof 2, coreAtEof 3],
            sys := System.init s E b }, rfl, rfl, rfl, ?_, ?_, rfl, rfl, rfl⟩
  · intro core hcore
    simp only [List.mem_cons, List.mem_singleton, List.not_mem_nil, or_false] at hcore
    rcases hcore with rfl | rfl | rfl | rfl <;> exact ⟨rfl, rfl, rfl⟩
  · intro c hc
    simp only [System.init, List.mem_cons, List.mem_singleton, List.not_mem_nil,
      or_false] at hc
    rcases hc with rfl | rfl | rfl | rfl <;> exact ⟨rfl, rfl, rfl, rfl, rfl, rfl⟩

/-- Witness for C21 (amended): `s = 1`, `E = 2`, `b = 2`, two iterations. -/
theorem C21_empty_traces_witness :
    ∃ final,
      (CacheSimulator.init 1 2 2 [] [] [] []).run 2 = some (final, 1) ∧
      final.sys = System.init 1 2 2 ∧ final.getMaxExecutionTime = 0 :=
  match C21_empty_traces 1 2 2 2 (by decide) with
  | ⟨final, h1, _, h3, _, _, _, _, h8⟩ => ⟨final, h1, h3, h8⟩

/-- C22 (the cycle engine halts): in every geometry with `E ≥ 1`, on four
traces none of whose lines makes the address conversion throw, there is an `n`
such that `CacheSimulator::run` returns with `current_cycle = n` once it is
given more than `n` iterations, and not with fewer. For every cycle `m ≤ n`
the loop reaches a state `simm` at the start of cycle `m`, in which: a core
whose stream is at its end has no unread trace bytes; the call
`executeNextInstruction(m)` of a core returns false exactly when the core is
past its stall and its stream is at its end, so no core reports completion
while it still waits or still has trace lines; if `m < n` some core is not
finished, and at `m = n` every core is finished and the iteration reaches the
`break`. So the loop halts exactly at the first cycle in which every call
returns false. -/
theorem C22_engine_halts (s E b : Nat) (t0 t1 t2 t3 : List Nat) (hE : 1 ≤ E)
    (h0 : traceOk t0 = true) (h1 : traceOk t1 = true) (h2 : traceOk t2 = true)
    (h3 : traceOk t3 = true) :
    ∃ (n : Nat) (final : CacheSimulator),
      (∀ fuel, n < fuel →
        (CacheSimulator.init s E b t0 t1 t2 t3).run fuel = some (final, (n : Int))) ∧
      (∀ fuel, fuel ≤ n → (CacheSimulator.init s E b t0 t1 t2 t3).run fuel = none) ∧
      (∀ m, m ≤ n → ∃ simm,
        CacheSimulator.cycles m (CacheSimulator.init s E b t0 t1 t2 t3) 0 = some simm ∧
        simm.cores.length = 4 ∧
        (∀ core ∈ simm.cores, (core.eofbit || core.failbit) = true → core.trace = []) ∧
        (∀ core ∈ simm.cores, ∀ (sys : System) (r : Core × System × Bool),
          core.executeNextInstruction sys m = some r →
          (r.2.2 = false ↔ core.finished m = true) ∧
          (r.2.2 = false →
            (core.is_stalled && decide ((m : Int) < core.stall_until_cycle)) = false ∧
            core.trace = [])) ∧
        (m < n → ∃ core ∈ simm.cores, core.finished m = false) ∧
        (m = n → (∀ core ∈ simm.cores, core.finished m = true) ∧
          simm.round m = some (final, true))) := by
  have hok := CacheSimulator.init_ok s E b t0 t1 t2 t3 hE h0 h1 h2 h3
  obtain ⟨n, simn, final, hcyc, hround⟩ :=
    CacheSimulator.halts_aux _ _ (CacheSimulator.init s E b t0 t1 t2 t3) 0 hok rfl rfl
  rw [Int.zero_add] at hround
  refine ⟨n, final, ?_, ?_, ?_⟩
  · intro fuel hf
    have := CacheSimulator.runFrom_of_cycles n _ simn final 0 hcyc
      (by rw [Int.zero_add]; exact hround) fuel hf
    rw [Int.zero_add] at this
    exact this
  · intro fuel hf
    exact CacheSimulator.runFrom_none n _ simn 0 hcyc fuel hf
  · intro m hm
    have hstate : ∃ simm d sim1,
        CacheSimulator.cycles m (CacheSimulator.init s E b t0 t1 t2 t3) 0 = some simm ∧
        simm.round m = some (sim1, d) ∧ (m < n → d = false) ∧
        (m = n → d = true ∧ sim1 = final) := by
      by_cases hlt : m < n
      · obtain ⟨simm, sim1, a1, a2⟩ := CacheSimulator.cycles_before n _ simn 0 hcyc m hlt
        rw [Int.zero_add] at a2
        exact ⟨simm, false, sim1, a1, a2, fun _ => rfl, fun h => by omega⟩
      · have hmn : m = n := by omega
        subst hmn
        exact ⟨simn, true, final, hcyc, hround, fun h => by omega, fun _ => ⟨rfl, rfl⟩⟩
    obtain ⟨simm, d, sim1, a1, a2, a3, a4⟩ := hstate
    obtain ⟨hokm, hlenm⟩ := CacheSimulator.cycles_ok m _ simm 0 hok a1
    obtain ⟨sim1', d', b1, _, _, b4, _⟩ := CacheSimulator.round_progress simm m hokm
    rw [a2] at b1
    simp only [Option.some.injEq, Prod.mk.injEq] at b1
    obtain ⟨_, rfl⟩ := b1
    refine ⟨simm, a1, hlenm, fun core hcore => (hokm.2 core hcore).2.2, ?_, ?_, ?_⟩
    · intro core hcore sys r hr
      have hiff := Core.executeNextInstruction_active core sys m r hr
      refine ⟨hiff, ?_⟩
      intro hfalse
      have hfin := hiff.1 hfalse
      unfold Core.finished at hfin
      simp only [Bool.and_eq_true, Bool.not_eq_true'] at hfin
      exact ⟨hfin.1, (hokm.2 core hcore).2.2 hfin.2⟩
    · intro hlt
      have hd := a3 hlt
      rw [b4] at hd
      obtain ⟨core, hcore, hf⟩ := List.all_eq_false.1 hd
      exact ⟨core, hcore, by simpa using hf⟩
    · intro hmn
      obtain ⟨hd, hs1⟩ := a4 hmn
      subst hs1
      rw [b4] at hd
      refine ⟨fun core hcore => List.all_eq_true.1 hd core hcore, ?_⟩
      rw [a2, b4, hd]

/-- Witness for C22: `s = 1`, `E = 2`, `b = 2`; core 0 reads address 0, core 1
writes it, core 2 has an empty trace and core 3 a line with an unknown
operation. The run returns with `current_cycle = 101` and
`getMaxExecutionTime` is 100. -/
theorem C22_engine_halts_witness :
    traceOk traceRead0 = true ∧ traceOk traceWrite0 = true ∧ traceOk [] = true ∧
    traceOk traceUnknown = true ∧
    ((CacheSimulator.init 1 2 2 traceRead0 traceWrite0 [] traceUnknown).run 102).map
        (fun r => (r.2, r.1.getMaxExecutionTime)) = some (101, 100) ∧
    ∃ (n : Nat) (final : CacheSimulator),
      (∀ fuel, n < fuel →
        (CacheSimulator.init 1 2 2 traceRead0 traceWrite0 [] traceUnknown).run fuel =
          some (final, (n : Int))) ∧
      (∀ fuel, fuel ≤ n →
        (CacheSimulator.init 1 2 2 traceRead0 traceWrite0 [] traceUnknown).run fuel = none) :=
  ⟨by decide, by decide, by decide, by decide, by decide,
   match C22_engine_halts 1 2 2 traceRead0 traceWrite0 [] traceUnknown (by decide) (by decide)
     (by decide) (by decide) (by decide) with
   | ⟨n, final, a1, a2, _⟩ => ⟨n, final, a1, a2⟩⟩

/-- C23 (totality of the coherence operations): in every geometry with
`E ≥ 1`, in every state `sys` reached from the cold system by any finite
sequence of operations, for every requester id `i < 4`, address and cycle: four
caches are registered and the cache at position `i` has id `i`; the set index
computed for the address is below `2^s`, the number of sets, so the set exists;
every set has `E` lines and `findReplacementLine` returns a way below `E`, which
exists; the snoops `busRead`, `busWrite`, `busUpgrade` of that cache, the calls
`Cache::read` and `Cache::write` by core `i`, and the three bus transactions
for requester `i` all return a result (no access out of range). -/
theorem C23_totality (s E b : Nat) (hE : 1 ≤ E) (ops : List Op) (sys : System)
    (h : (System.init s E b).run ops = some sys) (i : Nat) (hi : i < 4) (addr : Nat)
    (cycle : Int) :
    sys.caches.length = 4 ∧
    (∃ c, sys.caches[i]? = some c ∧ c.core_id = i ∧ c.cache_sets.length = 2 ^ s ∧
      (c.extractAddressFields addr).2.1 < 2 ^ s ∧
      (∃ set, c.cache_sets[(c.extractAddressFields addr).2.1]? = some set) ∧
      (∀ set ∈ c.cache_sets, set.lines.length = E ∧
        ∃ ri ev old, set.findReplacementLine = some (ri, ev) ∧ ri < E ∧
          set.lines[ri]? = some old) ∧
      (∃ r, c.busRead sys.bus addr = some r) ∧
      (∃ r, c.busWrite sys.bus addr = some r) ∧
      (∃ r, c.busUpgrade sys.bus addr = some r)) ∧
    (∃ r, Cache.read sys i addr cycle = some r) ∧
    (∃ r, Cache.write sys i addr cycle = some r) ∧
    (∃ r, Bus.processRead sys i addr = some r) ∧
    (∃ r, Bus.processWrite sys i addr = some r) ∧
    (∃ r, Bus.processUpgrade sys i addr = some r) := by
  have hev := System.run_evolves ops h
  have hlen : sys.caches.length = 4 := hev.1
  have hw : sys.wf := hev.wf (System.init_wf s E b hE)
  have hi2 : i < sys.caches.length := by rw [hlen]; exact hi
  obtain ⟨c, hc⟩ := getElem?_exists_of_lt hi2
  have hc0 : (System.init s E b).caches[i]? = some (Cache.init i s E b) := by
    interval_cases i <;> rfl
  obtain ⟨hid, hs, _, _, hsl, hsets⟩ := hev.2 i _ c hc0 hc
  have hwc := (hw c (List.getElem?_mem hc)).1
  have hsb : c.s_bits = s := hs
  have hnum : c.cache_sets.length = 2 ^ s := by
    rw [hwc.1, hsb, Nat.one_shiftLeft]
  have hidx : (c.extractAddressFields addr).2.1 < 2 ^ s := by
    have := c.set_idx_lt addr
    rw [hsb, Nat.one_shiftLeft] at this
    exact this
  refine ⟨hlen, ⟨c, hc, hid, hnum, hidx, ?_, ?_, Cache.busRead_total hwc _ _,
    Cache.busWrite_total hwc _ _, Cache.busUpgrade_total hwc _ _⟩,
    Cache.read_total hw hi2 addr cycle, Cache.write_total hw hi2 addr cycle,
    Bus.processRead_total hw hi2 addr, Bus.processWrite_total hw hi2 addr,
    Bus.processUpgrade_total hw i addr⟩
  · obtain ⟨set, hset, _⟩ := Cache.wf_set hwc addr
    exact ⟨set, hset⟩
  · intro set hmem
    obtain ⟨idx, hidx2⟩ := List.getElem?_of_mem hmem
    have hlt : idx < (Cache.init i s E b).cache_sets.length := by
      have := lt_of_getElem?_some hidx2
      omega
    obtain ⟨set0, hset0⟩ := getElem?_exists_of_lt hlt
    have hl := (hsets idx set0 set hset0 hidx2).1
    have h0 : set0 = CacheSet.init E := by
      have hm := List.getElem?_mem hset0
      simp only [Cache.init] at hm
      exact List.eq_of_mem_replicate hm
    have hE2 : set.lines.length = E := by
      rw [hl, h0]
      simp [CacheSet.init]
    obtain ⟨ri, ev, hrep⟩ := @findReplacementLine_total set (by omega)
    obtain ⟨old, hold, _⟩ := findReplacementLine_spec hrep
    refine ⟨hE2, ri, ev, old, hrep, ?_, hold⟩
    rw [← hE2]
    exact lt_of_getElem?_some hold

/-- Witness for C23: the state after a read by core 0 and a write by core 1,
requester 0, address 0. -/
theorem C23_totality_witness :
    ∃ sys, (System.init 1 2 2).run [Op.read 0 0 0, Op.write 1 0 1] = some sys ∧
      sys.caches.length = 4 ∧
      (∃ r, Cache.read sys 0 0 2 = some r) ∧
      (∃ r, Cache.write sys 0 0 2 = some r) ∧
      (∃ r, Bus.processRead sys 0 0 = some r) ∧
      (∃ r, Bus.processWrite sys 0 0 = some r) ∧
      (∃ r, Bus.processUpgrade sys 0 0 = some r) :=
  match h : (System.init 1 2 2).run [Op.read 0 0 0, Op.write 1 0 1] with
  | some sys =>
    ⟨sys, rfl, (C23_totality 1 2 2 (by decide) _ sys h 0 (by decide) 0 2).1,
     (C23_totality 1 2 2 (by decide) _ sys h 0 (by decide) 0 2).2.2⟩
  | none => absurd h (by decide)

/-- C24 (the valid flag is never cleared), for every well-formed system state.
(1) Every operation (`Cache::read`, `Cache::write`, and the snoops `busRead`,
`busWrite`, `busUpgrade`) that completes leaves every line that was valid
valid, way by way. (2) A snoop `busWrite` or `busUpgrade` on any cache leaves
every line as it was or changes only its `state` field, to INVALID.
(3) `findReplacementLine` never reports a valid line (whatever its MESI state)
as a free slot: for a valid line the eviction kind is 1 or 2, never 0.
(4) When `Cache::read` or `Cache::write` misses and the replacement line is
valid, the call adds 1 to `evictions`. -/
theorem C24_valid_never_cleared (sys : System) (hw : sys.wf) :
    (∀ (op : Op) (sys' : System), sys.step op = some sys' →
      ∀ (k idx li : Nat) (c c' : Cache) (set set' : CacheSet) (l l' : CacheLine),
        sys.caches[k]? = some c → sys'.caches[k]? = some c' →
        c.cache_sets[idx]? = some set → c'.cache_sets[idx]? = some set' →
        set.lines[li]? = some l → set'.lines[li]? = some l' →
        l.valid = true → l'.valid = true) ∧
    (∀ (c c' : Cache) (bus bus' : Bus) (addr : Nat),
      (c.busWrite bus addr = some (c', bus') ∨ c.busUpgrade bus addr = some (c', bus')) →
      ∀ (idx li : Nat) (set set' : CacheSet) (l l' : CacheLine),
        c.cache_sets[idx]? = some set → c'.cache_sets[idx]? = some set' →
        set.lines[li]? = some l → set'.lines[li]? = some l' →
        l' = l ∨ l' = { l with state := MESIState.INVALID }) ∧
    (∀ (set : CacheSet) (ri ev : Nat) (old : CacheLine),
      set.findReplacementLine = some (ri, ev) → set.lines[ri]? = some old →
      old.valid = true → ev = (if old.dirty then 2 else 1) ∧ ev ≠ 0) ∧
    (∀ (i addr : Nat) (cycle : Int) (c : Cache) (set : CacheSet),
      sys.caches[i]? = some c →
      c.cache_sets[(c.extractAddressFields addr).2.1]? = some set →
      c.hit addr = false →
      ∃ ri ev old,
        set.findReplacementLine = some (ri, ev) ∧ set.lines[ri]? = some old ∧
        (∃ sys' cyc c', Cache.read sys i addr cycle = some (sys', false, cyc) ∧
          sys'.caches[i]? = some c' ∧
          c'.evictions = c.evictions + (if old.valid then 1 else 0)) ∧
        (∃ sys' cyc c', Cache.write sys i addr cycle = some (sys', false, cyc) ∧
          sys'.caches[i]? = some c' ∧
          c'.evictions = c.evictions + (if old.valid then 1 else 0))) := by
  refine ⟨?_, ?_, ?_, ?_⟩
  · intro op sys' hstep k idx li c c' set set' l l' hc hc' hs hs' hl hl' hv
    have hev := (System.step_evolves hstep).2 k c c' hc hc'
    exact ((hev.2.2.2.2.2 idx set set' hs hs').2 li l l' hl hl').1 hv
  · intro c c' bus bus' addr h idx li set set' l l' hs hs' hl hl'
    rcases h with h | h
    · exact Cache.busWrite_only_state h hs hs' hl hl'
    · exact Cache.busUpgrade_only_state h hs hs' hl hl'
  · intro set ri ev old hrep hold hv
    obtain ⟨old', hold', _, h2⟩ := findReplacementLine_spec hrep
    rw [hold] at hold'
    cases hold'
    have := h2 hv
    refine ⟨this, ?_⟩
    rw [this]
    split <;> decide
  · intro i addr cycle c set hc hset hmiss
    obtain ⟨sys1, c1, _, ri, ev, old, cyc1, hrep, hold, hrd, _, hc1, _, _, _, _, he1, _⟩ :=
      @Cache.readMiss_spec sys i addr c { c with read_count := c.read_count + 1 } set cycle hw hc
        (Cache.evolves_of_sets_eq rfl rfl rfl rfl rfl) rfl hset
    obtain ⟨sys2, c2, _, ri2, ev2, old2, cyc2, hrep2, hold2, hwr, _, hc2, _, _, _, _, he2, _⟩ :=
      @Cache.writeMiss_spec sys i addr c { c with write_count := c.write_count + 1 } set cycle hw
        hc (Cache.evolves_of_sets_eq rfl rfl rfl rfl rfl) rfl hset
    rw [hrep] at hrep2
    cases hrep2
    rw [hold] at hold2
    cases hold2
    refine ⟨ri, ev, old, hrep, hold, ⟨sys1, cyc1, c1, ?_, hc1, he1⟩, ⟨sys2, cyc2, c2, ?_, hc2, he2⟩⟩
    · rw [Cache.read_of_miss cycle hc hset hmiss]
      exact hrd
    · rw [Cache.write_of_miss cycle hc hset hmiss]
      exact hwr

/-- Witness for C24: direct-mapped caches, core 0 read address 0 and core 1
then wrote it. Core 0's line is valid but INVALID; `findReplacementLine`
reports a clean eviction (1) for it, and core 0's next read of address 0
misses and counts an eviction. -/
theorem C24_valid_never_cleared_witness :
    afterPeerWrite.wf ∧
    (System.init 1 1 2).run [Op.read 0 0 0, Op.write 1 0 1] = some afterPeerWrite ∧
    (∀ (set : CacheSet) (ri ev : Nat) (old : CacheLine),
      set.findReplacementLine = some (ri, ev) → set.lines[ri]? = some old →
      old.valid = true → ev = (if old.dirty then 2 else 1) ∧ ev ≠ 0) ∧
    (∃ ri ev old,
      CacheSet.findReplacementLine
          { lines := [{ valid := true, tag := 0, state := MESIState.INVALID,
                        last_access := 0, dirty := false }] } = some (ri, ev) ∧
        [({ valid := true, tag := 0, state := MESIState.INVALID,
            last_access := 0, dirty := false } : CacheLine)][ri]? = some old ∧
        (∃ sys' cyc c', Cache.read afterPeerWrite 0 0 2 = some (sys', false, cyc) ∧
          sys'.caches[0]? = some c' ∧
          c'.evictions = 0 + (if old.valid then 1 else 0)) ∧
        (∃ sys' cyc c', Cache.write afterPeerWrite 0 0 2 = some (sys', false, cyc) ∧
          sys'.caches[0]? = some c' ∧
          c'.evictions = 0 + (if old.valid then 1 else 0))) :=
  ⟨by decide, by decide,
   (C24_valid_never_cleared afterPeerWrite (by decide)).2.2.1,
   (C24_valid_never_cleared afterPeerWrite (by decide)).2.2.2 0 0 2 _ _ rfl rfl (by decide)⟩

/-- C25 (a hit never stalls the core). If a call of
`Core::executeNextInstruction` at cycle `c` issues an instruction that the
cache reports as a hit, with any `cycles_taken = k`, the call returns active,
adds exactly 1 to `total_cycles` and to `instruction_count`, leaves
`is_stalled = false` and `idle_cycles` unchanged, and the call at cycle `c + 1`
is no stall call: it goes on to the trace, whatever the system has become. In
particular, on a well-formed system, when the core does not wait, its stream is
good and its next line is a write to an address that its cache holds SHARED,
the call issues a hit with `cycles_taken = 3` and charges `total_cycles` 1. -/
theorem C25_hit_never_stalls (core core1 : Core) (sys sys1 : System) (c : Int) (k : Nat)
    (active : Bool)
    (h : core.exec sys c = some (core1, sys1, active, Outcome.issued true k)) :
    core.executeNextInstruction sys c = some (core1, sys1, true) ∧
    core1.total_cycles = core.total_cycles + 1 ∧
    core1.instruction_count = core.instruction_count + 1 ∧
    core1.is_stalled = false ∧ core1.idle_cycles = core.idle_cycles ∧
    (∀ sys2 : System, core1.exec sys2 (c + 1) = Core.issue core1 sys2 (c + 1)) ∧
    (∀ (core2 : Core) (sys2 : System) (c2 : Int) (line rest tok : List Nat) (eof fail : Bool)
        (op v li : Nat) (cache : Cache) (l : CacheLine),
      sys2.wf →
      (core2.is_stalled && decide (c2 < core2.stall_until_cycle)) = false →
      (core2.eofbit || core2.failbit) = false →
      getline core2.trace = (line, rest, eof, fail) →
      parseLine line = some (op, tok) → (op = 87 ∨ op = 119) →
      stoul16 (strip0x tok) = some v →
      sys2.caches[core2.cache]? = some cache →
      cache.findLine (v % 2 ^ 32) = some (li, l) → l.state = MESIState.SHARED →
      ∃ core3 sys3, core2.exec sys2 c2 = some (core3, sys3, true, Outcome.issued true 3) ∧
        core3.total_cycles = core2.total_cycles + 1 ∧ core3.is_stalled = false ∧
        core3.idle_cycles = core2.idle_cycles) := by
  obtain ⟨hact, rest, eof, fail, hc1⟩ := Core.exec_issued_hit core core1 sys sys1 c k active h
  subst hact
  refine ⟨?_, ?_, ?_, ?_, ?_, ?_, ?_⟩
  · unfold Core.executeNextInstruction
    rw [h]
    rfl
  · subst hc1; rfl
  · subst hc1; rfl
  · subst hc1; rfl
  · subst hc1; rfl
  · intro sys2
    subst hc1
    unfold Core.exec
    simp
  · intro core2 sys2 c2 line rest2 tok eof2 fail2 op v li cache l hw hnw hgood hg hp hop hv hc
      hfind hst
    obtain ⟨sys3, hwr⟩ := Cache.write_shared_hit hw c2 hc hfind hst
    have hex := Core.exec_write core2 sys2 sys3 c2 line rest2 tok eof2 fail2 true op v 3 hnw
      hgood hg hp hop hv hwr
    exact ⟨_, sys3, hex, rfl, rfl, rfl⟩

/-- Witness for C25: core 0 holds address 0 SHARED and its trace is `W 0x0`;
the call at cycle 2 is a hit with `cycles_taken = 3` and costs the core one
cycle. -/
theorem C25_hit_never_stalls_witness :
    twoReaders 1 2 2 0 = some sharedBy0 ∧
    (Core.init 0 traceWrite0).exec sharedBy0 2 =
      some (coreAfterHit, afterSharedWrite, true, Outcome.issued true 3) ∧
    coreAfterHit.total_cycles = (Core.init 0 traceWrite0).total_cycles + 1 ∧
    coreAfterHit.is_stalled = false ∧
    (∀ sys2 : System, coreAfterHit.exec sys2 (2 + 1) = Core.issue coreAfterHit sys2 (2 + 1)) :=
  ⟨by decide, by decide,
   (C25_hit_never_stalls (Core.init 0 traceWrite0) coreAfterHit sharedBy0 afterSharedWrite 2 3
      true (by decide)).2.1,
   (C25_hit_never_stalls (Core.init 0 traceWrite0) coreAfterHit sharedBy0 afterSharedWrite 2 3
      true (by decide)).2.2.2.1,
   (C25_hit_never_stalls (Core.init 0 traceWrite0) coreAfterHit sharedBy0 afterSharedWrite 2 3
      true (by decide)).2.2.2.2.2.1⟩

end CacheSim
